import Mathlib

/-!
Huffman file compressor: embedding of `main.c`.

The C program is embedded function by function.  Conventions:

* `struct MinHeapNode *` is the type `MinHeapNode`: either the `NULL` pointer or a node
  with its four fields.
* An `unsigned char` is a `Byte = Fin 256`; the fixed arrays `freq[256]` and
  `huffmanCodes[256]`, which are only ever indexed by an `unsigned char`, are functions
  on `Byte`.
* An `unsigned` is a natural number kept below `2 ^ 32` by an explicit `% 2 ^ 32` at every
  place where the C code stores an arithmetic result into one.
* Every operation whose behaviour C leaves undefined (a `NULL` dereference, an access
  outside an allocated array, a signed overflow) returns a `Fault`.  Loops that are not
  structurally recursive carry a fuel argument; running out of fuel is the separate
  fault `Fault.fuel`.
-/

namespace Huffman

/-- The ways a run of the C program can leave defined behaviour, plus fuel exhaustion of
the embedding itself. -/
inductive Fault where
  | nullDeref
  | outOfBounds
  | overflow
  | fuel
  deriving DecidableEq, Repr

/-- An `unsigned char`. -/
abbrev Byte := Fin 256

/-- Constant `#define MAX_TREE_HT 256`. -/
abbrev MAX_TREE_HT : Nat := 256

/-- A value of type `struct MinHeapNode *`: `NULL`, or a pointer to a node holding
`data`, `freq`, `left` and `right`. -/
inductive MinHeapNode where
  | null : MinHeapNode
  | mk (data : Byte) (freq : Nat) (left right : MinHeapNode) : MinHeapNode
  deriving DecidableEq, Repr

/-- Source type `struct MinHeap`; `array` has one cell per allocated slot. -/
structure MinHeap where
  size : Nat
  capacity : Nat
  array : List MinHeapNode
  deriving DecidableEq, Repr

/-- Function `newNode`: both children `NULL`; `freq` is stored in an `unsigned`. -/
def newNode (data : Byte) (freq : Nat) : MinHeapNode :=
  .mk data (freq % 2 ^ 32) .null .null

/-- Function `createMinHeap`: the cells of the fresh allocation are indeterminate in C and are
represented by `NULL`; `buildHuffmanTree` writes every one of them before reading. -/
def createMinHeap (capacity : Nat) : MinHeap :=
  { size := 0, capacity := capacity, array := List.replicate capacity .null }

/-- The test `p == NULL`. -/
def MinHeapNode.isNull : MinHeapNode → Bool
  | .null => true
  | .mk _ _ _ _ => false

/-- Read of `p->freq`. -/
def freqOf : MinHeapNode → Except Fault Nat
  | .null => .error .nullDeref
  | .mk _ f _ _ => .ok f

/-- Read of `array[i]`. -/
def readCell (array : List MinHeapNode) (i : Nat) : Except Fault MinHeapNode :=
  match array[i]? with
  | some p => .ok p
  | none => .error .outOfBounds

/-- Write `array[i] = p`. -/
def writeCell (array : List MinHeapNode) (i : Nat) (p : MinHeapNode) :
    Except Fault (List MinHeapNode) :=
  if i < array.length then .ok (array.set i p) else .error .outOfBounds

/-- Read of `array[i]->freq`. -/
def freqAt (array : List MinHeapNode) (i : Nat) : Except Fault Nat :=
  (readCell array i).bind freqOf

/-- Function `swapMinHeapNode(&array[a], &array[b])`. -/
def swapMinHeapNode (array : List MinHeapNode) (a b : Nat) :
    Except Fault (List MinHeapNode) :=
  (readCell array a).bind fun t =>
  (readCell array b).bind fun u =>
  (writeCell array a u).bind fun array1 =>
  writeCell array1 b t

/-- The first comparison of `minHeapify`: `smallest` after
`if (left < size && array[left]->freq < array[smallest]->freq) smallest = left;`.
The right operand of `&&` is evaluated only when the left one holds. -/
def pickSmaller (minHeap : MinHeap) (child smallest : Nat) : Except Fault Nat :=
  if child < minHeap.size then
    (freqAt minHeap.array child).bind fun c =>
    (freqAt minHeap.array smallest).bind fun s =>
    .ok (if c < s then child else smallest)
  else .ok smallest

/-- Function `minHeapify` with a recursion budget.  `idx` is an `int`; computing `2 * idx + 2`
beyond `INT_MAX` is a signed overflow. -/
def minHeapifyAux : Nat → MinHeap → Nat → Except Fault MinHeap
  | 0, _, _ => .error .fuel
  | fuel + 1, minHeap, idx =>
    if 2 ^ 31 ≤ 2 * idx + 2 then .error .overflow
    else
      (pickSmaller minHeap (2 * idx + 1) idx).bind fun smallest1 =>
      (pickSmaller minHeap (2 * idx + 2) smallest1).bind fun smallest =>
      if smallest ≠ idx then
        (swapMinHeapNode minHeap.array smallest idx).bind fun array1 =>
        minHeapifyAux fuel { minHeap with array := array1 } smallest
      else .ok minHeap

/-- Function `minHeapify`: each recursive call moves to a strictly larger index below `size`, so
`size + 1` calls are enough. -/
def minHeapify (minHeap : MinHeap) (idx : Nat) : Except Fault MinHeap :=
  minHeapifyAux (minHeap.size + 1) minHeap idx

/-- Function `isSizeOne`. -/
def isSizeOne (minHeap : MinHeap) : Bool :=
  minHeap.size == 1

/-- The value of `size - 1` in `unsigned` arithmetic. -/
def decU32 (n : Nat) : Nat :=
  (n + 2 ^ 32 - 1) % 2 ^ 32

/-- Function `extractMin`: no emptiness check; `array[0]` and `array[size - 1]` are read as they
are, with `size - 1` computed in `unsigned`. -/
def extractMin (minHeap : MinHeap) : Except Fault (MinHeapNode × MinHeap) :=
  (readCell minHeap.array 0).bind fun temp =>
  (readCell minHeap.array (decU32 minHeap.size)).bind fun last =>
  (writeCell minHeap.array 0 last).bind fun array1 =>
  (minHeapify { minHeap with size := decU32 minHeap.size, array := array1 } 0).bind
    fun minHeap1 => .ok (temp, minHeap1)

/-- The `while` loop of `insertMinHeap`: as long as `i != 0` and the new node's frequency is
below its parent's, the parent moves down.  Returns the array and the final `i`. -/
def insertLoop (minHeapNode : MinHeapNode) :
    Nat → List MinHeapNode → Nat → Except Fault (List MinHeapNode × Nat)
  | 0, _, _ => .error .fuel
  | fuel + 1, array, i =>
    if i ≠ 0 then
      (freqOf minHeapNode).bind fun nf =>
      (freqAt array ((i - 1) / 2)).bind fun pf =>
      if nf < pf then
        (readCell array ((i - 1) / 2)).bind fun parent =>
        (writeCell array i parent).bind fun array1 =>
        insertLoop minHeapNode fuel array1 ((i - 1) / 2)
      else .ok (array, i)
    else .ok (array, i)

/-- Function `insertMinHeap`.  `i` is an `int` initialised from the `unsigned` `size - 1`; a value
from `2 ^ 31` on becomes a negative index. -/
def insertMinHeap (minHeap : MinHeap) (minHeapNode : MinHeapNode) : Except Fault MinHeap :=
  let size1 := (minHeap.size + 1) % 2 ^ 32
  let i := decU32 size1
  if 2 ^ 31 ≤ i then .error .outOfBounds
  else
    (insertLoop minHeapNode (i + 1) minHeap.array i).bind fun r =>
    (writeCell r.1 r.2 minHeapNode).bind fun array1 =>
    .ok { minHeap with size := size1, array := array1 }

/-- The `for (i = ...; i >= 0; --i) minHeapify(minHeap, i)` loop of `buildMinHeap`, with
`count = i + 1` iterations left. -/
def buildMinHeapLoop : Nat → MinHeap → Except Fault MinHeap
  | 0, minHeap => .ok minHeap
  | i + 1, minHeap => (minHeapify minHeap i).bind fun minHeap1 => buildMinHeapLoop i minHeap1

/-- Conversion of an `unsigned` to `int`. -/
def toInt32 (u : Nat) : Int :=
  if u < 2 ^ 31 then (u : Int) else (u : Int) - 2 ^ 32

/-- Function `buildMinHeap`: `n = size - 1` as an `int`, first index `(n - 1) / 2` with C's division
(truncation towards zero). -/
def buildMinHeap (minHeap : MinHeap) : Except Fault MinHeap :=
  let n : Int := toInt32 (decU32 minHeap.size)
  if n - 1 < -(2 ^ 31) then .error .overflow
  else buildMinHeapLoop (Int.tdiv (n - 1) 2 + 1).toNat minHeap

/-- The `while (!isSizeOne(minHeap))` loop of `buildHuffmanTree`.  The node `top` is
`newNode('$', left->freq + right->freq)` with its two children set, `'$'` being byte 36 and
the sum being computed in `unsigned`. -/
def buildHuffmanLoop : Nat → MinHeap → Except Fault MinHeap
  | 0, _ => .error .fuel
  | fuel + 1, minHeap =>
    if isSizeOne minHeap then .ok minHeap
    else
      (extractMin minHeap).bind fun l =>
      (extractMin l.2).bind fun r =>
      (freqOf l.1).bind fun lf =>
      (freqOf r.1).bind fun rf =>
      (insertMinHeap r.2 (.mk 36 ((lf + rf) % 2 ^ 32) l.1 r.1)).bind fun minHeap1 =>
      buildHuffmanLoop fuel minHeap1

/-- Function `buildHuffmanTree(data, freq, size)`: the two parallel arrays are a list of
pairs and `size` is its length.  Every merge lowers `size` by one, so `size + 1` loop
tests are enough. -/
def buildHuffmanTree (symbols : List (Byte × Nat)) : Except Fault MinHeapNode :=
  let minHeap : MinHeap :=
    { createMinHeap symbols.length with
      size := symbols.length
      array := symbols.map fun s => newNode s.1 s.2 }
  (buildMinHeap minHeap).bind fun minHeap1 =>
  (buildHuffmanLoop (symbols.length + 1) minHeap1).bind fun minHeap2 =>
  (extractMin minHeap2).bind fun r => .ok r.1

/-- A codeword: the characters of the C string, `'1'` as `true` and `'0'` as `false`. -/
abbrev Code := List Bool

/-- The array `char* huffmanCodes[256]`; `none` is a `NULL` entry. -/
abbrev CodeTable := Byte → Option Code

/-- Write `arr[top] = b` into the path buffer `int arr[MAX_TREE_HT]`. -/
def writeArr (arr : List Bool) (top : Nat) (b : Bool) : Except Fault (List Bool) :=
  if top < arr.length then .ok (arr.set top b) else .error .outOfBounds

/-- Function `storeCodes(root, arr, top, huffmanCodes)`; returns the path buffer and the
table as the call leaves them.  The three `if` statements are taken in the order of the
source. -/
def storeCodes : MinHeapNode → List Bool → Nat → CodeTable →
    Except Fault (List Bool × CodeTable)
  | .null, _, _, _ => .error .nullDeref
  | .mk data _ left right, arr, top, huffmanCodes =>
    (if left.isNull then .ok (arr, huffmanCodes)
     else (writeArr arr top false).bind fun arr1 =>
       storeCodes left arr1 (top + 1) huffmanCodes).bind fun s1 =>
    (if right.isNull then .ok s1
     else (writeArr s1.1 top true).bind fun arr1 =>
       storeCodes right arr1 (top + 1) s1.2).bind fun s2 =>
    if left.isNull && right.isNull then
      .ok (s2.1, Function.update s2.2 data (some (s2.1.take top)))
    else .ok s2

/-- Function `generateCodes(data, freq, size, huffmanCodes)`: the tree is built and walked with
`top = 0` and a fresh path buffer of `MAX_TREE_HT` cells.  The cells are indeterminate in C
and are represented by `false`; `storeCodes` only reads cells it has written. -/
def generateCodes (symbols : List (Byte × Nat)) (huffmanCodes : CodeTable) :
    Except Fault CodeTable :=
  (buildHuffmanTree symbols).bind fun root =>
  (storeCodes root (List.replicate MAX_TREE_HT false) 0 huffmanCodes).bind fun s =>
  .ok s.2

/-- The table `unsigned freq[256]`. -/
abbrev FreqTable := Byte → Nat

/-- The first read loop of `compressFile`: `freq[c]++` in `unsigned` arithmetic and
`originalSize++` in `long long` arithmetic, where passing `2 ^ 63 - 1` is an overflow. -/
def tally : List Byte → FreqTable × Int → Except Fault (FreqTable × Int)
  | [], st => .ok st
  | c :: rest, st =>
    if 2 ^ 63 ≤ st.2 + 1 then .error .overflow
    else tally rest (Function.update st.1 c ((st.1 c + 1) % 2 ^ 32), st.2 + 1)

/-- The loop `for (i = 0; i < 256; i++) if (freq[i] > 0) { data[size] = i;
char_freq[size] = freq[i]; size++; }`, run over the indices `is`. -/
def collectSymbols (freq : FreqTable) (is : List Byte) : List (Byte × Nat) :=
  is.foldl (fun acc i => if freq i > 0 then acc ++ [(i, freq i)] else acc) []

/-- The encoder's bit buffer together with the bytes written so far. -/
structure BitWriter where
  buffer : Nat
  bit_count : Nat
  out : List Byte
  deriving DecidableEq, Repr

/-- The body of the inner encoder loop for one character of a codeword:
`buffer <<= 1; if (code[i] == '1') buffer |= 1; bit_count++;` and the flush at eight bits.
`buffer` is an `unsigned char`. -/
def putBit (w : BitWriter) (b : Bool) : BitWriter :=
  let buffer1 := (w.buffer * 2) % 256
  let buffer2 := if b then buffer1 ||| 1 else buffer1
  if w.bit_count + 1 = 8 then
    { buffer := 0, bit_count := 0, out := w.out ++ [Fin.ofNat buffer2] }
  else { buffer := buffer2, bit_count := w.bit_count + 1, out := w.out }

/-- The second read loop of `compressFile`: each byte's codeword is fetched (a `NULL`
entry is dereferenced) and its characters are pushed in order. -/
def encodeLoop (huffmanCodes : CodeTable) : List Byte → BitWriter → Except Fault BitWriter
  | [], w => .ok w
  | c :: rest, w =>
    match huffmanCodes c with
    | none => .error .nullDeref
    | some code => encodeLoop huffmanCodes rest (code.foldl putBit w)

/-- The loop `while (bit_count > 0 && bit_count < 8) { buffer <<= 1; bit_count++; }`. -/
def padLoop : Nat → BitWriter → Except Fault BitWriter
  | 0, _ => .error .fuel
  | fuel + 1, w =>
    if 0 < w.bit_count ∧ w.bit_count < 8 then
      padLoop fuel { w with buffer := (w.buffer * 2) % 256, bit_count := w.bit_count + 1 }
    else .ok w

/-- The tail of the encoder: padding, then the final `fwrite` when `bit_count == 8`. -/
def flushBits (w : BitWriter) : Except Fault (List Byte) :=
  (padLoop 8 w).bind fun w1 =>
  .ok (if w1.bit_count = 8 then w1.out ++ [Fin.ofNat w1.buffer] else w1.out)

/-- The bitstream encoder of `compressFile`: everything written after the header. -/
def encode (input : List Byte) (huffmanCodes : CodeTable) : Except Fault (List Byte) :=
  (encodeLoop huffmanCodes input { buffer := 0, bit_count := 0, out := [] }).bind flushBits

/-- The contents of a compressed file: the `long long` length, the 256 `unsigned`
counts and the packed bytes that follow the header. -/
structure Container where
  originalSize : Int
  freq : FreqTable
  packed : List Byte

/-- Function `compressFile` on the contents of the input file; the result is the contents of
the output file.  The code table is generated before the output file is opened, so a
fault there leaves no container. -/
def compressFile (input : List Byte) : Except Fault Container :=
  (tally input (fun _ => 0, 0)).bind fun t =>
  (generateCodes (collectSymbols t.1 (List.finRange 256)) (fun _ => none)).bind
    fun huffmanCodes =>
  (encode input huffmanCodes).bind fun packed =>
  .ok { originalSize := t.2, freq := t.1, packed := packed }

/-- The decoder's variables: the cursor, the `long long` counter and the bytes written. -/
structure DecodeState where
  current : MinHeapNode
  decodedCount : Int
  output : List Byte
  deriving DecidableEq, Repr

/-- The body of the decoder's inner loop after the `break` test, for one bit:
`current = bit ? current->right : current->left`, then the leaf test on the new
`current`, which dereferences it. -/
def decodeBit (root : MinHeapNode) (st : DecodeState) (bit : Bool) :
    Except Fault DecodeState :=
  match st.current with
  | .null => .error .nullDeref
  | .mk _ _ left right =>
    match (if bit then right else left) with
    | .null => .error .nullDeref
    | .mk data freq left1 right1 =>
      if left1.isNull && right1.isNull then
        .ok { current := root, decodedCount := st.decodedCount + 1,
              output := st.output ++ [data] }
      else .ok { st with current := .mk data freq left1 right1 }

/-- The loop `for (i = 7; i >= 0; i--)` over one packed byte, with `n = i + 1`; the bit is
`(buffer >> i) & 1`.  On a fault the state reached before the faulting bit is returned
together with the fault. -/
def decodeByte (root : MinHeapNode) (originalSize : Int) (buffer : Byte) :
    Nat → DecodeState → DecodeState × Option Fault
  | 0, st => (st, none)
  | i + 1, st =>
    if st.decodedCount ≥ originalSize then (st, none)
    else
      match decodeBit root st (buffer.val / 2 ^ i % 2 == 1) with
      | .ok st1 => decodeByte root originalSize buffer i st1
      | .error f => (st, some f)

/-- The loop `while (decodedCount < originalSize && fread(&buffer, 1, 1, inputFile))`. -/
def decodeLoop (root : MinHeapNode) (originalSize : Int) :
    List Byte → DecodeState → DecodeState × Option Fault
  | [], st => (st, none)
  | buffer :: rest, st =>
    if st.decodedCount < originalSize then
      match decodeByte root originalSize buffer 8 st with
      | (st1, none) => decodeLoop root originalSize rest st1
      | (st1, some f) => (st1, some f)
    else (st, none)

/-- The bitstream decoder of `decompressFile`, started with `current = root` and
`decodedCount = 0`. -/
def decode (packed : List Byte) (root : MinHeapNode) (originalSize : Int) :
    DecodeState × Option Fault :=
  decodeLoop root originalSize packed { current := root, decodedCount := 0, output := [] }

/-- Function `decompressFile` on the contents of a compressed file; the result is the
contents of the output file. -/
def decompressFile (c : Container) : Except Fault (List Byte) :=
  (buildHuffmanTree (collectSymbols c.freq (List.finRange 256))).bind fun root =>
  match decode c.packed root c.originalSize with
  | (st, none) => .ok st.output
  | (_, some f) => .error f

/-! ## Notions used to state the properties -/

/-- The bits of `buffer` that the decoder's `for` loop reads when started at `i = n - 1`,
in reading order: `(buffer >> i) & 1` for `i = n - 1` down to `0`. -/
def bitsFrom (buffer : Byte) : Nat → List Bool
  | 0 => []
  | i + 1 => (buffer.val / 2 ^ i % 2 == 1) :: bitsFrom buffer i

/-- The eight bits of a packed byte, most significant first. -/
def bitsOfByte (buffer : Byte) : List Bool :=
  bitsFrom buffer 8

/-- The bit sequence of a packed byte sequence, each byte most significant bit first. -/
def bitsOfBytes (packed : List Byte) : List Bool :=
  packed.flatMap bitsOfByte

/-- The decoder's loop body (the `break` test followed by `decodeBit`) run over a bit
sequence instead of over bytes; `decodeLoop_eq_decodeBits` shows that the byte loops of
`decompressFile` compute exactly this on the bits of the packed bytes. -/
def decodeBits (root : MinHeapNode) (originalSize : Int) :
    List Bool → DecodeState → DecodeState × Option Fault
  | [], st => (st, none)
  | b :: bs, st =>
    if st.decodedCount ≥ originalSize then (st, none)
    else
      match decodeBit root st b with
      | .ok st1 => decodeBits root originalSize bs st1
      | .error f => (st, some f)

/-- The leaf test of the source: `!root->left && !root->right` on a non-`NULL` node. -/
def MinHeapNode.isLeaf : MinHeapNode → Bool
  | .null => false
  | .mk _ _ left right => left.isNull && right.isNull

/-- A tree in the sense of the data model: not `NULL`, and every node is a leaf or has two
children that are trees. -/
def MinHeapNode.isFull : MinHeapNode → Bool
  | .null => false
  | .mk _ _ left right => (left.isNull && right.isNull) || (left.isFull && right.isFull)

/-- Number of edges on the longest path from the node down to a leaf. -/
def MinHeapNode.height : MinHeapNode → Nat
  | .null => 0
  | .mk _ _ left right =>
    if left.isNull && right.isNull then 0 else max left.height right.height + 1

/-- The `(symbol, frequency)` pairs at the leaves, left to right. -/
def MinHeapNode.leaves : MinHeapNode → List (Byte × Nat)
  | .null => []
  | .mk data freq left right =>
    if left.isNull && right.isNull then [(data, freq)] else left.leaves ++ right.leaves

/-- The symbol of every leaf paired with the edge labels on the way down to it, `false` for
a left edge and `true` for a right edge, leaves taken left to right. -/
def MinHeapNode.codes : MinHeapNode → List (Byte × Code)
  | .null => []
  | .mk data _ left right =>
    if left.isNull && right.isNull then [(data, [])]
    else (left.codes.map fun e => (e.1, false :: e.2)) ++
         (right.codes.map fun e => (e.1, true :: e.2))

/-- The sum of the frequencies stored at the leaves. -/
def MinHeapNode.leafSum (t : MinHeapNode) : Nat :=
  (t.leaves.map Prod.snd).sum

/-- The `freq` field, `0` for `NULL`. -/
def MinHeapNode.freqField : MinHeapNode → Nat
  | .null => 0
  | .mk _ freq _ _ => freq

/-- Every internal node's frequency is the exact sum of its two children's. -/
def MinHeapNode.sumsChildren : MinHeapNode → Bool
  | .null => true
  | .mk _ freq left right =>
    (left.isNull && right.isNull) ||
      (freq == left.freqField + right.freqField && left.sumsChildren && right.sumsChildren)

/-- The entries of the queue: the first `size` cells of the array. -/
def MinHeap.live (minHeap : MinHeap) : List MinHeapNode :=
  minHeap.array.take minHeap.size

/-- The `n` low bits of `x`, most significant first. -/
def lowBits : Nat → Nat → List Bool
  | 0, _ => []
  | n + 1, x => lowBits n (x / 2) ++ [x % 2 == 1]

/-- The bits a writer has accepted so far: those of the bytes written, then the `bit_count`
low bits of `buffer`, most significant first. -/
def BitWriter.bits (w : BitWriter) : List Bool :=
  bitsOfBytes w.out ++ lowBits w.bit_count w.buffer

/-- The concatenation of the codewords of the input bytes, in input order. -/
def codeStream (huffmanCodes : CodeTable) (input : List Byte) : List Bool :=
  input.flatMap fun c => (huffmanCodes c).getD []

/-- The table after the assignments `huffmanCodes[e.1] = e.2`, made in list order. -/
def applyCodes (huffmanCodes : CodeTable) (entries : List (Byte × Code)) : CodeTable :=
  entries.foldl (fun tb e => Function.update tb e.1 (some e.2)) huffmanCodes

/-- The node reached from `t` by following the edge labels of `path`, `false` for the left
link and `true` for the right link; following a link of `NULL` stays at `NULL`. -/
def MinHeapNode.descend : MinHeapNode → List Bool → MinHeapNode
  | t, [] => t
  | .null, _ :: _ => .null
  | .mk _ _ left right, b :: path => (if b then right else left).descend path

/-- Number of nodes that are not leaves. -/
def MinHeapNode.internalCount : MinHeapNode → Nat
  | .null => 0
  | .mk _ _ left right =>
    if left.isNull && right.isNull then 0 else left.internalCount + right.internalCount + 1

/-- The sum over the leaves below a node placed at depth `d` of frequency times depth. -/
def MinHeapNode.weightedDepthAt : Nat → MinHeapNode → Nat
  | _, .null => 0
  | d, .mk _ freq left right =>
    if left.isNull && right.isNull then freq * d
    else left.weightedDepthAt (d + 1) + right.weightedDepthAt (d + 1)

/-- The weighted path length of a tree: the sum over its leaves of frequency times depth. -/
def MinHeapNode.weightedDepth (t : MinHeapNode) : Nat :=
  t.weightedDepthAt 0

/-- The frequency of the node in cell `i` of the array, `0` when there is no such cell. -/
def keyAt (array : List MinHeapNode) (i : Nat) : Nat :=
  match array[i]? with
  | some p => p.freqField
  | none => 0

/-- Heap order: the frequency in every cell `i` of the queue is at least the frequency in the
parent cell `(i - 1) / 2` (cell `0` is its own parent in this formula). -/
def MinHeap.heapOrdered (minHeap : MinHeap) : Bool :=
  (List.range minHeap.size).all fun i =>
    decide (keyAt minHeap.array ((i - 1) / 2) ≤ keyAt minHeap.array i)

/-- A call on the queue: `insertMinHeap` of a node, or `extractMin`. -/
inductive QueueOp where
  | insert (minHeapNode : MinHeapNode) : QueueOp
  | extract : QueueOp
  deriving DecidableEq, Repr

/-- The queue after one call. -/
def runOp (minHeap : MinHeap) : QueueOp → Except Fault MinHeap
  | .insert minHeapNode => insertMinHeap minHeap minHeapNode
  | .extract => (extractMin minHeap).bind fun r => .ok r.2

/-- The queue after a sequence of calls, made in list order. -/
def runOps : MinHeap → List QueueOp → Except Fault MinHeap
  | minHeap, [] => .ok minHeap
  | minHeap, op :: ops => (runOp minHeap op).bind fun minHeap1 => runOps minHeap1 ops

/-- A sequence of calls, started on a queue of `size` entries, that inserts only nodes, never
inserts into a queue that already holds `capacity` entries and never extracts from an empty
queue. -/
def admissible (capacity : Nat) : Nat → List QueueOp → Bool
  | _, [] => true
  | size, .insert minHeapNode :: ops =>
    !minHeapNode.isNull && decide (size < capacity) && admissible capacity (size + 1) ops
  | size, .extract :: ops => decide (0 < size) && admissible capacity (size - 1) ops

/-- One merge step, the body of the loop of `buildHuffmanTree`: two `extractMin`, one new
node, one `insertMinHeap`. -/
def mergeStep (minHeap : MinHeap) : Except Fault MinHeap :=
  (extractMin minHeap).bind fun l =>
  (extractMin l.2).bind fun r =>
  (freqOf l.1).bind fun lf =>
  (freqOf r.1).bind fun rf =>
  insertMinHeap r.2 (.mk 36 ((lf + rf) % 2 ^ 32) l.1 r.1)

/-- The queue after `k` merge steps. -/
def mergeSteps : Nat → MinHeap → Except Fault MinHeap
  | 0, minHeap => .ok minHeap
  | k + 1, minHeap => (mergeSteps k minHeap).bind mergeStep

/-- The `(frequency, depth)` pairs of the leaves below a node placed at depth `d`, left to
right. -/
def MinHeapNode.leafDepthsAt : Nat → MinHeapNode → List (Nat × Nat)
  | _, .null => []
  | d, .mk _ freq left right =>
    if left.isNull && right.isNull then [(freq, d)]
    else left.leafDepthsAt (d + 1) ++ right.leafDepthsAt (d + 1)

/-- The weighted path length of a list of `(weight, depth)` pairs. -/
def pathCost (L : List (Nat × Nat)) : Nat :=
  (L.map fun x => x.1 * x.2).sum

/-- The Kraft sum of a list of `(weight, depth)` pairs scaled by `2 ^ D`. -/
def kraftSum (D : Nat) (L : List (Nat × Nat)) : Nat :=
  (L.map fun x => 2 ^ (D - x.2)).sum

/-! ## The decoder as a bit-level loop -/

theorem decodeByte_eq_decodeBits (root : MinHeapNode) (k : Int) (buffer : Byte) :
    ∀ (n : Nat) (st : DecodeState),
      decodeByte root k buffer n st = decodeBits root k (bitsFrom buffer n) st := by
  intro n
  induction n with
  | zero => intro st; rfl
  | succ i ih =>
    intro st
    simp only [decodeByte, bitsFrom, decodeBits]
    split
    · rfl
    · cases h : decodeBit root st (buffer.val / 2 ^ i % 2 == 1) with
      | ok st1 => simp only [ih]
      | error f => rfl

theorem decodeBits_append (root : MinHeapNode) (k : Int) :
    ∀ (bs cs : List Bool) (st : DecodeState),
      decodeBits root k (bs ++ cs) st =
        match decodeBits root k bs st with
        | (st1, none) => decodeBits root k cs st1
        | (st1, some f) => (st1, some f) := by
  intro bs
  induction bs with
  | nil => intro cs st; rfl
  | cons b bs ih =>
    intro cs st
    simp only [List.cons_append, decodeBits]
    split
    · rename_i hge
      cases cs with
      | nil => rfl
      | cons c cs => simp only [decodeBits, if_pos hge]
    · cases h : decodeBit root st b with
      | ok st1 => exact ih cs st1
      | error f => rfl

theorem decodeBits_done (root : MinHeapNode) (k : Int) (bs : List Bool) (st : DecodeState)
    (h : st.decodedCount ≥ k) : decodeBits root k bs st = (st, none) := by
  cases bs with
  | nil => rfl
  | cons b bs => simp only [decodeBits, if_pos h]

theorem decodeLoop_eq_decodeBits (root : MinHeapNode) (k : Int) :
    ∀ (packed : List Byte) (st : DecodeState),
      decodeLoop root k packed st = decodeBits root k (bitsOfBytes packed) st := by
  intro packed
  induction packed with
  | nil => intro st; rfl
  | cons b rest ih =>
    intro st
    have hb : bitsOfBytes (b :: rest) = bitsOfByte b ++ bitsOfBytes rest := by
      simp [bitsOfBytes]
    rw [hb, decodeBits_append]
    simp only [decodeLoop]
    by_cases hlt : st.decodedCount < k
    · rw [if_pos hlt, decodeByte_eq_decodeBits]
      simp only [bitsOfByte]
      split <;> simp_all
    · rw [if_neg hlt, decodeBits_done root k _ st (by omega)]
      simp only []
      rw [decodeBits_done root k _ st (by omega)]

/-! ## The decoder stops at the stored count -/

theorem decodeBit_cases (root : MinHeapNode) (st st1 : DecodeState) (b : Bool)
    (h : decodeBit root st b = .ok st1) :
    (st1.decodedCount = st.decodedCount ∧ st1.output = st.output) ∨
    (st1.decodedCount = st.decodedCount + 1 ∧ st1.current = root ∧
      ∃ d, st1.output = st.output ++ [d]) := by
  unfold decodeBit at h
  split at h
  · cases h
  · split at h
    · cases h
    · split at h
      · cases h
        exact Or.inr ⟨rfl, rfl, _, rfl⟩
      · cases h
        exact Or.inl ⟨rfl, rfl⟩

/-- The number of bytes written always equals `decodedCount`, and it never passes
`originalSize`. -/
theorem decodeBits_count (root : MinHeapNode) (k : Int) :
    ∀ (bs : List Bool) (st : DecodeState),
      (st.output.length : Int) = st.decodedCount → st.decodedCount ≤ k →
      ((decodeBits root k bs st).1.output.length : Int) = (decodeBits root k bs st).1.decodedCount ∧
        (decodeBits root k bs st).1.decodedCount ≤ k := by
  intro bs
  induction bs with
  | nil => intro st h1 h2; exact ⟨h1, h2⟩
  | cons b bs ih =>
    intro st h1 h2
    simp only [decodeBits]
    split
    · exact ⟨h1, h2⟩
    · rename_i hlt
      cases h : decodeBit root st b with
      | error f => exact ⟨h1, h2⟩
      | ok st1 =>
        simp only []
        rcases decodeBit_cases root st st1 b h with ⟨hc, ho⟩ | ⟨hc, _, d, ho⟩
        · exact ih st1 (by rw [ho, hc]; exact h1) (by omega)
        · refine ih st1 ?_ (by omega)
          rw [ho, hc, List.length_append, List.length_singleton]
          push_cast
          omega

/-- A fault is only raised while symbols are still missing. -/
theorem decodeBits_fault_lt (root : MinHeapNode) (k : Int) :
    ∀ (bs : List Bool) (st : DecodeState) (f : Fault),
      (decodeBits root k bs st).2 = some f → (decodeBits root k bs st).1.decodedCount < k := by
  intro bs
  induction bs with
  | nil => intro st f h; cases h
  | cons b bs ih =>
    intro st f
    simp only [decodeBits]
    split
    · intro h; cases h
    · rename_i hlt
      cases h : decodeBit root st b with
      | error f1 => intro _; simp only []; omega
      | ok st1 => exact ih st1 f

/-- Once a bit prefix has produced `originalSize` symbols, nothing after it is read. -/
theorem decodeBits_prefix_stable (root : MinHeapNode) (k : Int) (pre suf : List Bool)
    (st : DecodeState) (h : (decodeBits root k pre st).1.decodedCount ≥ k) :
    decodeBits root k (pre ++ suf) st = decodeBits root k pre st := by
  rw [decodeBits_append]
  cases hr : decodeBits root k pre st with
  | mk st1 fo =>
    rw [hr] at h
    cases fo with
    | none => exact decodeBits_done root k suf st1 h
    | some f => rfl

/-- Claim C7. The decode loop of `decompressFile` stops at the stored count.  For every `root`
(in particular every tree whose non-leaf nodes have two children), every
`originalSize = k ≥ 0` and all packed byte sequences `p`, `e`: the output never has more
than `k` bytes; if decoding `p` yields `k` bytes, decoding `p ++ e` gives the same result;
more finely, if some bit prefix `pre` of the packed bits of `q` already yields `k` bytes,
the result on `q` is the result on `pre`, so no later bit (padding in the same byte, or
further bytes) is consumed; and with `k = 0` nothing is output whatever `p` is. -/
theorem decode_stops_at_count (root : MinHeapNode) (k : Int) (p e : List Byte)
    (hk : 0 ≤ k) :
    ((decode p root k).1.output.length : Int) ≤ k ∧
    (((decode p root k).1.output.length : Int) = k →
      decode (p ++ e) root k = decode p root k) ∧
    (∀ (q : List Byte) (pre : List Bool), pre <+: bitsOfBytes q →
      (((decodeBits root k pre
          { current := root, decodedCount := 0, output := [] }).1.output.length : Int) = k) →
      decode q root k =
        decodeBits root k pre { current := root, decodedCount := 0, output := [] }) ∧
    decode p root 0 = ({ current := root, decodedCount := 0, output := [] }, none) := by
  have hinv := fun bs => decodeBits_count root k bs
    { current := root, decodedCount := 0, output := [] } rfl hk
  refine ⟨?_, ?_, ?_, ?_⟩
  · unfold decode
    rw [decodeLoop_eq_decodeBits]
    have := hinv (bitsOfBytes p)
    omega
  · intro hlen
    unfold decode at hlen ⊢
    rw [decodeLoop_eq_decodeBits] at hlen ⊢
    rw [decodeLoop_eq_decodeBits]
    have hb : bitsOfBytes (p ++ e) = bitsOfBytes p ++ bitsOfBytes e := by
      simp [bitsOfBytes]
    rw [hb]
    apply decodeBits_prefix_stable
    have := hinv (bitsOfBytes p)
    omega
  · intro q pre hpre hlen
    obtain ⟨suf, hsuf⟩ := hpre
    unfold decode
    rw [decodeLoop_eq_decodeBits, ← hsuf]
    apply decodeBits_prefix_stable
    have := hinv pre
    omega
  · unfold decode
    rw [decodeLoop_eq_decodeBits]
    exact decodeBits_done root 0 _ _ (le_refl _)

/-- Instance of `decode_stops_at_count` on the two-leaf tree, stored count 2 and the packed
byte `0x40` followed by `0xff`. -/
theorem decode_stops_at_count_witness :
    (0 : Int) ≤ 2 ∧
    ((decode [0x40] (.mk 36 2 (newNode 97 1) (newNode 98 1)) 2).1.output.length : Int) ≤ 2 ∧
    decode ([0x40] ++ [0xff]) (.mk 36 2 (newNode 97 1) (newNode 98 1)) 2 =
      decode [0x40] (.mk 36 2 (newNode 97 1) (newNode 98 1)) 2 :=
  ⟨by decide,
   (decode_stops_at_count (.mk 36 2 (newNode 97 1) (newNode 98 1)) 2 [0x40] [0xff]
     (by decide)).1,
   (decode_stops_at_count (.mk 36 2 (newNode 97 1) (newNode 98 1)) 2 [0x40] [0xff]
     (by decide)).2.1 (by decide)⟩

/-! ## The priority queue keeps its entries -/

theorem set_set_perm {α : Type} [DecidableEq α] (l : List α) (a b : Nat) (x y : α)
    (ha : l[a]? = some x) (hb : l[b]? = some y) : ((l.set a y).set b x).Perm l := by
  have hal : a < l.length := by
    by_contra hc
    rw [List.getElem?_eq_none (by omega)] at ha
    cases ha
  have hbl : b < l.length := by
    by_contra hc
    rw [List.getElem?_eq_none (by omega)] at hb
    cases hb
  have hxa : l[a] = x := by
    rw [List.getElem?_eq_getElem hal] at ha
    exact Option.some.inj ha
  have hyb : l[b] = y := by
    rw [List.getElem?_eq_getElem hbl] at hb
    exact Option.some.inj hb
  by_cases hab : a = b
  · subst hab
    have hxy : x = y := by rw [← hxa, ← hyb]
    subst hxy
    rw [List.set_set]
    have : l.set a x = l := by
      apply List.ext_getElem?
      intro i
      rw [List.getElem?_set]
      split
      · rename_i hai
        subst hai
        exact ha.symm
      · rfl
    rw [this]
  · rw [List.perm_iff_count]
    intro c
    have hbl2 : b < (l.set a y).length := by rw [List.length_set]; exact hbl
    rw [List.count_set x c (l.set a y) b hbl2, List.count_set y c l a hal]
    have hb2 : (l.set a y)[b] = y := by
      rw [List.getElem_set_ne hab]
      exact hyb
    rw [hb2, hxa]
    have hx : (if (x == c) = true then 1 else 0) ≤ List.count c l := by
      split
      · rename_i hxc
        have hxc2 : x = c := by simpa using hxc
        subst hxc2
        have : x ∈ l := by rw [← hxa]; exact List.getElem_mem hal
        exact List.count_pos_iff.mpr this
      · exact Nat.zero_le _
    omega

theorem take_swap_perm {α : Type} [DecidableEq α] (l : List α) (n a b : Nat) (x y : α)
    (han : a < n) (hbn : b < n) (ha : l[a]? = some x) (hb : l[b]? = some y) :
    (((l.set a y).set b x).take n).Perm (l.take n) := by
  rw [List.set_take, List.set_take]
  apply set_set_perm
  · rw [List.getElem?_take_of_lt han]; exact ha
  · rw [List.getElem?_take_of_lt hbn]; exact hb

theorem readCell_of_getElem? (array : List MinHeapNode) (i : Nat) (p : MinHeapNode)
    (h : array[i]? = some p) : readCell array i = .ok p := by
  unfold readCell
  rw [h]

theorem writeCell_of_lt (array : List MinHeapNode) (i : Nat) (p : MinHeapNode)
    (h : i < array.length) : writeCell array i p = .ok (array.set i p) := by
  unfold writeCell
  rw [if_pos h]

theorem freqOf_of_ne_null (p : MinHeapNode) (h : p ≠ .null) :
    freqOf p = .ok p.freqField := by
  cases p with
  | null => exact absurd rfl h
  | mk d f l r => rfl

/-- Inside the queue every cell holds a node. -/
theorem live_cell (h : MinHeap) (hlen : h.size ≤ h.array.length)
    (hnn : ∀ p ∈ h.live, p ≠ .null) (i : Nat) (hi : i < h.size) :
    ∃ p, h.array[i]? = some p ∧ p ≠ .null ∧ p ∈ h.live := by
  have hil : i < h.array.length := by omega
  refine ⟨h.array[i], List.getElem?_eq_getElem hil, ?_, ?_⟩
  · apply hnn
    unfold MinHeap.live
    rw [List.mem_take_iff_getElem]
    exact ⟨i, by omega, rfl⟩
  · unfold MinHeap.live
    rw [List.mem_take_iff_getElem]
    exact ⟨i, by omega, rfl⟩

theorem freqAt_live (h : MinHeap) (hlen : h.size ≤ h.array.length)
    (hnn : ∀ p ∈ h.live, p ≠ .null) (i : Nat) (hi : i < h.size) :
    ∃ f, freqAt h.array i = .ok f := by
  obtain ⟨p, hp, hpn, _⟩ := live_cell h hlen hnn i hi
  refine ⟨p.freqField, ?_⟩
  unfold freqAt
  rw [readCell_of_getElem? _ _ _ hp]
  exact freqOf_of_ne_null p hpn

theorem pickSmaller_spec (h : MinHeap) (hlen : h.size ≤ h.array.length)
    (hnn : ∀ p ∈ h.live, p ≠ .null) (child smallest : Nat)
    (hs : child < h.size → smallest < h.size) :
    ∃ s, pickSmaller h child smallest = .ok s ∧
      (s = smallest ∨ (s = child ∧ child < h.size)) := by
  unfold pickSmaller
  by_cases hc : child < h.size
  · rw [if_pos hc]
    obtain ⟨fc, hfc⟩ := freqAt_live h hlen hnn child hc
    obtain ⟨fs, hfs⟩ := freqAt_live h hlen hnn smallest (hs hc)
    rw [hfc, hfs]
    simp only [Except.bind]
    by_cases hlt : fc < fs
    · exact ⟨child, by rw [if_pos hlt], Or.inr ⟨rfl, hc⟩⟩
    · exact ⟨smallest, by rw [if_neg hlt], Or.inl rfl⟩
  · rw [if_neg hc]
    exact ⟨smallest, rfl, Or.inl rfl⟩

theorem swapMinHeapNode_spec (h : MinHeap) (hlen : h.size ≤ h.array.length)
    (hnn : ∀ p ∈ h.live, p ≠ .null) (a b : Nat) (ha : a < h.size) (hb : b < h.size) :
    ∃ array1, swapMinHeapNode h.array a b = .ok array1 ∧
      array1.length = h.array.length ∧ (array1.take h.size).Perm h.live := by
  obtain ⟨pa, hpa, _, _⟩ := live_cell h hlen hnn a ha
  obtain ⟨pb, hpb, _, _⟩ := live_cell h hlen hnn b hb
  refine ⟨(h.array.set a pb).set b pa, ?_, ?_, ?_⟩
  · unfold swapMinHeapNode
    rw [readCell_of_getElem? _ _ _ hpa, readCell_of_getElem? _ _ _ hpb]
    simp only [Except.bind]
    rw [writeCell_of_lt _ _ _ (by omega)]
    simp only []
    rw [writeCell_of_lt _ _ _ (by rw [List.length_set]; omega)]
  · rw [List.length_set, List.length_set]
  · exact take_swap_perm h.array h.size a b pa pb ha hb hpa hpb

/-- Function `minHeapify` succeeds on a queue of fewer than `2 ^ 30 - 1` nodes, given enough recursion
budget, and only permutes the entries. -/
theorem minHeapifyAux_spec :
    ∀ (fuel : Nat) (h : MinHeap) (idx : Nat), h.size ≤ h.array.length → h.size + 1 < 2 ^ 30 →
      (∀ p ∈ h.live, p ≠ .null) → idx ≤ h.size → h.size < fuel + idx →
      ∃ h1, minHeapifyAux fuel h idx = .ok h1 ∧ h1.size = h.size ∧
        h1.capacity = h.capacity ∧ h1.array.length = h.array.length ∧ h1.live.Perm h.live := by
  intro fuel
  induction fuel with
  | zero => intro h idx _ _ _ hidx hfuel; omega
  | succ fuel ih =>
    intro h idx hlen hsz hnn hidx hfuel
    unfold minHeapifyAux
    rw [if_neg (by omega)]
    obtain ⟨s1, hs1, hc1⟩ := pickSmaller_spec h hlen hnn (2 * idx + 1) idx (by omega)
    rw [hs1]
    simp only [Except.bind]
    obtain ⟨s, hs, hc⟩ := pickSmaller_spec h hlen hnn (2 * idx + 2) s1 (by omega)
    rw [hs]
    simp only []
    by_cases hne : s ≠ idx
    · rw [if_pos hne]
      have hss : s < h.size ∧ idx < s := by omega
      obtain ⟨array1, hsw, hl1, hp1⟩ :=
        swapMinHeapNode_spec h hlen hnn s idx hss.1 (by omega)
      rw [hsw]
      simp only []
      have hnn1 : ∀ p ∈ MinHeap.live { h with array := array1 }, p ≠ .null := by
        intro p hp
        exact hnn p (hp1.subset hp)
      obtain ⟨h1, hr, e1, e2, e3, e4⟩ := ih { h with array := array1 } s
        (by simp only []; omega) hsz hnn1 (by simp only []; omega) (by simp only []; omega)
      exact ⟨h1, hr, e1, e2, by rw [e3]; exact hl1, e4.trans hp1⟩
    · rw [if_neg hne]
      exact ⟨h, rfl, rfl, rfl, rfl, List.Perm.refl _⟩

theorem minHeapify_spec (h : MinHeap) (idx : Nat) (hlen : h.size ≤ h.array.length)
    (hsz : h.size + 1 < 2 ^ 30) (hnn : ∀ p ∈ h.live, p ≠ .null) (hidx : idx ≤ h.size) :
    ∃ h1, minHeapify h idx = .ok h1 ∧ h1.size = h.size ∧
      h1.capacity = h.capacity ∧ h1.array.length = h.array.length ∧ h1.live.Perm h.live :=
  minHeapifyAux_spec (h.size + 1) h idx hlen hsz hnn hidx (by omega)

theorem decU32_of_pos (n : Nat) (h1 : 1 ≤ n) (h2 : n < 2 ^ 32) : decU32 n = n - 1 := by
  unfold decU32
  omega

/-- Function `extractMin` on a non-empty queue returns one of its entries and keeps the others. -/
theorem extractMin_spec (h : MinHeap) (hpos : 1 ≤ h.size) (hlen : h.size ≤ h.array.length)
    (hsz : h.size + 1 < 2 ^ 30) (hnn : ∀ p ∈ h.live, p ≠ .null) :
    ∃ temp h1, extractMin h = .ok (temp, h1) ∧ h1.size = h.size - 1 ∧
      h1.capacity = h.capacity ∧ h1.array.length = h.array.length ∧
      (temp :: h1.live).Perm h.live := by
  obtain ⟨size, capacity, array⟩ := h
  simp only [MinHeap.live] at *
  have hdec : decU32 size = size - 1 := decU32_of_pos size hpos (by omega)
  cases array with
  | nil => simp only [List.length_nil] at hlen; omega
  | cons a0 rest =>
    obtain ⟨n, rfl⟩ : ∃ n, size = n + 1 := ⟨size - 1, by omega⟩
    simp only [List.length_cons] at hlen
    have hn : n < (a0 :: rest).length := by simp only [List.length_cons]; omega
    have hperm : (a0 :: ((a0 :: rest)[n] :: rest).take n).Perm ((a0 :: rest).take (n + 1)) := by
      cases n with
      | zero => simp
      | succ m =>
        have hm : m < rest.length := by omega
        simp only [List.take_succ_cons, List.getElem_cons_succ]
        rw [List.take_succ, List.getElem?_eq_getElem hm]
        simp only [Option.toList]
        exact (List.perm_append_singleton _ _).symm.cons a0
    have hnn0 : ∀ p ∈ MinHeap.live
        { size := n, capacity := capacity, array := (a0 :: rest)[n] :: rest }, p ≠ .null := by
      intro p hp
      exact hnn p (hperm.subset (List.mem_cons_of_mem _ hp))
    obtain ⟨h1, hr, e1, e2, e3, e4⟩ := minHeapify_spec
      { size := n, capacity := capacity, array := (a0 :: rest)[n] :: rest } 0
      (by simp only [List.length_cons]; omega) (by simp only []; omega) hnn0 (Nat.zero_le _)
    refine ⟨a0, h1, ?_, e1, e2, by rw [e3]; simp, ?_⟩
    · unfold extractMin
      simp only [hdec, Nat.add_sub_cancel]
      rw [readCell_of_getElem? _ 0 a0 (by simp)]
      simp only [Except.bind]
      rw [readCell_of_getElem? _ n _ (List.getElem?_eq_getElem hn)]
      simp only []
      rw [writeCell_of_lt _ _ _ (by simp)]
      simp only [List.set_cons_zero]
      rw [hr]
    · exact (e4.cons a0).trans hperm

theorem insertLoop_spec (node : MinHeapNode) (hnode : node ≠ .null) (n : Nat)
    (L0 : List MinHeapNode) (hL0 : ∀ p ∈ L0, p ≠ .null) :
    ∀ (fuel : Nat) (array : List MinHeapNode) (i : Nat), i ≤ n → n < array.length →
      i < fuel → ((array.set i node).take (n + 1)).Perm (node :: L0) →
      ∃ array1 j, insertLoop node fuel array i = .ok (array1, j) ∧ j ≤ n ∧
        array1.length = array.length ∧
        ((array1.set j node).take (n + 1)).Perm (node :: L0) := by
  intro fuel
  induction fuel with
  | zero => intro array i _ _ hf _; omega
  | succ fuel ih =>
    intro array i hin hlen hf hperm
    unfold insertLoop
    by_cases hi : i ≠ 0
    · rw [if_pos hi, freqOf_of_ne_null node hnode]
      simp only [Except.bind]
      have hpi : (i - 1) / 2 < i := by omega
      have hpl : (i - 1) / 2 < array.length := by omega
      have hcell : (array.set i node)[(i - 1) / 2]? = some array[(i - 1) / 2] := by
        rw [List.getElem?_set_ne (by omega), List.getElem?_eq_getElem hpl]
      have hq : array[(i - 1) / 2] ≠ .null := by
        have hmem : array[(i - 1) / 2] ∈ (array.set i node).take (n + 1) := by
          apply List.getElem?_mem (n := (i - 1) / 2)
          rw [List.getElem?_take_of_lt (by omega)]
          exact hcell
        rcases List.mem_cons.mp (hperm.subset hmem) with h1 | h1
        · rw [h1]; exact hnode
        · exact hL0 _ h1
      have hread : readCell array ((i - 1) / 2) = .ok array[(i - 1) / 2] :=
        readCell_of_getElem? _ _ _ (List.getElem?_eq_getElem hpl)
      unfold freqAt
      rw [hread]
      simp only [Except.bind]
      rw [freqOf_of_ne_null _ hq]
      simp only []
      by_cases hlt : node.freqField < (array[(i - 1) / 2]).freqField
      · rw [if_pos hlt, writeCell_of_lt _ _ _ (by omega)]
        simp only []
        have hperm1 : ((((array.set i array[(i - 1) / 2]).set ((i - 1) / 2) node)).take
            (n + 1)).Perm (node :: L0) := by
          have hsw := take_swap_perm (array.set i node) (n + 1) i ((i - 1) / 2) node
            array[(i - 1) / 2] (by omega) (by omega)
            (by rw [List.getElem?_set_self (by omega)]) hcell
          rw [List.set_set] at hsw
          exact hsw.trans hperm
        obtain ⟨array1, j, hr, hj, hl, hp⟩ := ih (array.set i array[(i - 1) / 2])
          ((i - 1) / 2) (by omega) (by rw [List.length_set]; exact hlen) (by omega) hperm1
        exact ⟨array1, j, hr, hj, by rw [hl, List.length_set], hp⟩
      · rw [if_neg hlt]
        exact ⟨array, i, rfl, hin, rfl, hperm⟩
    · rw [if_neg hi]
      exact ⟨array, i, rfl, hin, rfl, hperm⟩

/-- Function `insertMinHeap` into a queue with a free cell adds the node and keeps the others. -/
theorem insertMinHeap_spec (h : MinHeap) (node : MinHeapNode) (hnode : node ≠ .null)
    (hlen : h.size < h.array.length) (hsz : h.size + 2 < 2 ^ 30)
    (hnn : ∀ p ∈ h.live, p ≠ .null) :
    ∃ h1, insertMinHeap h node = .ok h1 ∧ h1.size = h.size + 1 ∧
      h1.capacity = h.capacity ∧ h1.array.length = h.array.length ∧
      h1.live.Perm (node :: h.live) := by
  have hs1 : (h.size + 1) % 2 ^ 32 = h.size + 1 := Nat.mod_eq_of_lt (by omega)
  have hdec : decU32 (h.size + 1) = h.size := by
    rw [decU32_of_pos _ (by omega) (by omega)]; omega
  have hinit : ((h.array.set h.size node).take (h.size + 1)).Perm (node :: h.live) := by
    rw [List.take_succ, List.getElem?_set_self hlen, List.set_take,
      List.set_eq_of_length_le (by rw [List.length_take]; omega)]
    simp only [Option.toList]
    exact List.perm_append_singleton _ _
  obtain ⟨array1, j, hr, hj, hl, hp⟩ := insertLoop_spec node hnode h.size h.live hnn
    (h.size + 1) h.array h.size (le_refl _) hlen (by omega) hinit
  refine ⟨{ h with size := h.size + 1, array := array1.set j node }, ?_, rfl, rfl, ?_, hp⟩
  · unfold insertMinHeap
    simp only [hs1, hdec]
    rw [if_neg (by omega), hr]
    simp only [Except.bind]
    rw [writeCell_of_lt _ _ _ (by omega)]
  · simp only [List.length_set]
    exact hl

theorem buildMinHeapLoop_spec :
    ∀ (count : Nat) (h : MinHeap), count ≤ h.size + 1 → h.size ≤ h.array.length →
      h.size + 1 < 2 ^ 30 → (∀ p ∈ h.live, p ≠ .null) →
      ∃ h1, buildMinHeapLoop count h = .ok h1 ∧ h1.size = h.size ∧
        h1.capacity = h.capacity ∧ h1.array.length = h.array.length ∧ h1.live.Perm h.live := by
  intro count
  induction count with
  | zero =>
    intro h _ _ _ _
    exact ⟨h, rfl, rfl, rfl, rfl, List.Perm.refl _⟩
  | succ i ih =>
    intro h hc hlen hsz hnn
    obtain ⟨h1, hr, e1, e2, e3, e4⟩ := minHeapify_spec h i hlen hsz hnn (by omega)
    have hnn1 : ∀ p ∈ h1.live, p ≠ .null := fun p hp => hnn p (e4.subset hp)
    obtain ⟨h2, hr2, f1, f2, f3, f4⟩ := ih h1 (by omega) (by omega) (by omega) hnn1
    refine ⟨h2, ?_, by omega, by rw [f2, e2], by omega, f4.trans e4⟩
    unfold buildMinHeapLoop
    rw [hr]
    exact hr2

/-- The first index of the `buildMinHeap` loop, as the number of iterations. -/
theorem buildMinHeap_count (size : Nat) (hsz : size + 1 < 2 ^ 30) :
    ¬ (toInt32 (decU32 size) - 1 < -(2 ^ 31)) ∧
      (Int.tdiv (toInt32 (decU32 size) - 1) 2 + 1).toNat =
        if size = 1 then 1 else size / 2 := by
  rcases Nat.lt_or_ge size 2 with h2 | h2
  · interval_cases size
    · constructor <;> decide
    · constructor <;> decide
  · have hdec : decU32 size = size - 1 := decU32_of_pos size (by omega) (by omega)
    have hint : toInt32 (size - 1) = ((size - 1 : Nat) : Int) := by
      unfold toInt32
      rw [if_pos (by omega)]
    rw [hdec, hint]
    constructor
    · omega
    · rw [Int.tdiv_eq_ediv (by omega) (by omega), if_neg (by omega)]
      omega

/-- Function `buildMinHeap` succeeds and only permutes the entries. -/
theorem buildMinHeap_spec (h : MinHeap) (hlen : h.size ≤ h.array.length)
    (hsz : h.size + 1 < 2 ^ 30) (hnn : ∀ p ∈ h.live, p ≠ .null) :
    ∃ h1, buildMinHeap h = .ok h1 ∧ h1.size = h.size ∧
      h1.capacity = h.capacity ∧ h1.array.length = h.array.length ∧ h1.live.Perm h.live := by
  obtain ⟨hov, hcount⟩ := buildMinHeap_count h.size hsz
  unfold buildMinHeap
  simp only []
  rw [if_neg hov, hcount]
  exact buildMinHeapLoop_spec _ h (by split <;> omega) hlen hsz hnn

/-! ## Tree construction preserves every merge-stable property of the queue -/

theorem bind_ok {α β : Type} (a : α) (f : α → Except Fault β) :
    (Except.ok a).bind f = f a := rfl

/-- The merge loop of `buildHuffmanTree` ends with a queue of size one and keeps every
property `I` of the multiset of queue entries that survives one merge. -/
theorem buildHuffmanLoop_spec (I : List MinHeapNode → Prop)
    (hperm : ∀ a b : List MinHeapNode, a.Perm b → I a → I b)
    (hnn : ∀ a, I a → ∀ p ∈ a, p ≠ MinHeapNode.null)
    (hmerge : ∀ l r rest, I (l :: r :: rest) →
      I (.mk 36 ((l.freqField + r.freqField) % 2 ^ 32) l r :: rest)) :
    ∀ (fuel : Nat) (h : MinHeap), 1 ≤ h.size → h.size ≤ fuel → h.size ≤ h.array.length →
      h.size + 1 < 2 ^ 30 → I h.live →
      ∃ h1, buildHuffmanLoop fuel h = .ok h1 ∧ h1.size = 1 ∧
        h1.array.length = h.array.length ∧ I h1.live := by
  intro fuel
  induction fuel with
  | zero => intro h h1 h2 _ _ _; omega
  | succ fuel ih =>
    intro h hpos hfuel hlen hsz hI
    unfold buildHuffmanLoop
    by_cases hone : h.size = 1
    · have : isSizeOne h = true := by unfold isSizeOne; simp [hone]
      rw [if_pos this]
      exact ⟨h, rfl, hone, rfl, hI⟩
    · have : ¬ (isSizeOne h = true) := by unfold isSizeOne; simp [hone]
      rw [if_neg this]
      obtain ⟨l, h1, hr1, a1, _, a3, a4⟩ := extractMin_spec h hpos hlen hsz (hnn _ hI)
      have hnn1 : ∀ p ∈ h1.live, p ≠ .null :=
        fun p hp => hnn _ hI p (a4.subset (List.mem_cons_of_mem _ hp))
      obtain ⟨r, h2, hr2, b1, _, b3, b4⟩ :=
        extractMin_spec h1 (by omega) (by omega) (by omega) hnn1
      have hnn2 : ∀ p ∈ h2.live, p ≠ .null :=
        fun p hp => hnn1 p (b4.subset (List.mem_cons_of_mem _ hp))
      have hall : (l :: r :: h2.live).Perm h.live := (b4.cons l).trans a4
      have hI2 : I (l :: r :: h2.live) := hperm _ _ hall.symm hI
      have hl : l ≠ .null := hnn _ hI2 l (List.mem_cons_self _ _)
      have hr : r ≠ .null := hnn _ hI2 r (List.mem_cons_of_mem _ (List.mem_cons_self _ _))
      obtain ⟨h3, hr3, c1, _, c3, c4⟩ := insertMinHeap_spec h2
        (.mk 36 ((l.freqField + r.freqField) % 2 ^ 32) l r) (by intro hc; cases hc)
        (by omega) (by omega) hnn2
      have hI3 : I h3.live := hperm _ _ c4.symm (hmerge l r _ hI2)
      obtain ⟨h4, hr4, d1, d2, d3⟩ := ih h3 (by omega) (by omega) (by omega) (by omega) hI3
      refine ⟨h4, ?_, d1, by omega, d3⟩
      rw [hr1, bind_ok]
      simp only []
      rw [hr2, bind_ok]
      simp only []
      rw [freqOf_of_ne_null l hl, bind_ok, freqOf_of_ne_null r hr, bind_ok, hr3, bind_ok]
      exact hr4

/-- Function `buildHuffmanTree` on a non-empty symbol list returns a node, and every merge-stable
property that holds of the list of fresh leaves holds of the list made of that node. -/
theorem buildHuffmanTree_spec (I : List MinHeapNode → Prop)
    (hperm : ∀ a b : List MinHeapNode, a.Perm b → I a → I b)
    (hnn : ∀ a, I a → ∀ p ∈ a, p ≠ MinHeapNode.null)
    (hmerge : ∀ l r rest, I (l :: r :: rest) →
      I (.mk 36 ((l.freqField + r.freqField) % 2 ^ 32) l r :: rest))
    (symbols : List (Byte × Nat)) (hne : symbols ≠ []) (hsz : symbols.length + 1 < 2 ^ 30)
    (hinit : I (symbols.map fun s => newNode s.1 s.2)) :
    ∃ t, buildHuffmanTree symbols = .ok t ∧ I [t] := by
  have hpos : 1 ≤ symbols.length := List.length_pos.mpr hne
  have hlive0 : MinHeap.live
      { createMinHeap symbols.length with
        size := symbols.length
        array := symbols.map fun s => newNode s.1 s.2 } =
      symbols.map fun s => newNode s.1 s.2 := by
    unfold MinHeap.live
    simp only []
    rw [List.take_of_length_le (by simp)]
  obtain ⟨h1, hr1, a1, _, a3, a4⟩ := buildMinHeap_spec
    { createMinHeap symbols.length with
      size := symbols.length
      array := symbols.map fun s => newNode s.1 s.2 }
    (by simp) hsz (by rw [hlive0]; exact hnn _ hinit)
  simp only [List.length_map] at a1 a3
  rw [hlive0] at a4
  obtain ⟨h2, hr2, b1, b3, b4⟩ := buildHuffmanLoop_spec I hperm hnn hmerge
    (symbols.length + 1) h1 (by omega) (by omega) (by omega) (by omega)
    (hperm _ _ a4.symm hinit)
  obtain ⟨t, h3, hr3, c1, _, _, c4⟩ := extractMin_spec h2 (by omega) (by omega) (by omega)
    (hnn _ b4)
  have hnil : h3.live = [] := by
    unfold MinHeap.live
    rw [c1, b1]
    rfl
  rw [hnil] at c4
  refine ⟨t, ?_, hperm _ _ c4.symm b4⟩
  unfold buildHuffmanTree
  simp only []
  rw [hr1, bind_ok, hr2, bind_ok, hr3, bind_ok]

/-! ## Shape of the built tree -/

theorem isFull_ne_null (t : MinHeapNode) (h : t.isFull = true) : t ≠ .null := by
  intro hc
  rw [hc] at h
  cases h

theorem isNull_eq_false (t : MinHeapNode) (h : t ≠ .null) : t.isNull = false := by
  cases t with
  | null => exact absurd rfl h
  | mk d f l r => rfl

theorem leaves_merge (d : Byte) (f : Nat) (l r : MinHeapNode) (hl : l ≠ .null) :
    (MinHeapNode.mk d f l r).leaves = l.leaves ++ r.leaves := by
  simp only [MinHeapNode.leaves, isNull_eq_false l hl, Bool.false_and]
  rfl

/-- Function `buildHuffmanTree` on a non-empty symbol list returns a tree in which every node is a
leaf or has two children, and whose leaves carry exactly the given symbols with their
frequencies (as stored in an `unsigned`). -/
theorem buildHuffmanTree_full (symbols : List (Byte × Nat)) (hne : symbols ≠ [])
    (hsz : symbols.length + 1 < 2 ^ 30) :
    ∃ t, buildHuffmanTree symbols = .ok t ∧ t.isFull = true ∧
      t.leaves.Perm (symbols.map fun s => (s.1, s.2 % 2 ^ 32)) := by
  obtain ⟨t, ht, hfull, hleaves⟩ := buildHuffmanTree_spec
    (fun a => (∀ p ∈ a, p.isFull = true) ∧
      (a.flatMap MinHeapNode.leaves).Perm (symbols.map fun s => (s.1, s.2 % 2 ^ 32)))
    (by
      intro a b hab ⟨h1, h2⟩
      exact ⟨fun p hp => h1 p (hab.symm.subset hp),
        (List.Perm.flatMap_right _ hab.symm).trans h2⟩)
    (by
      intro a ⟨h1, _⟩ p hp
      exact isFull_ne_null p (h1 p hp))
    (by
      intro l r rest ⟨h1, h2⟩
      have hl : l.isFull = true := h1 l (List.mem_cons_self _ _)
      have hr : r.isFull = true := h1 r (List.mem_cons_of_mem _ (List.mem_cons_self _ _))
      constructor
      · intro p hp
        rcases List.mem_cons.mp hp with rfl | hp
        · simp only [MinHeapNode.isFull, hl, hr, Bool.and_self, Bool.or_true]
        · exact h1 p (List.mem_cons_of_mem _ (List.mem_cons_of_mem _ hp))
      · rw [List.flatMap_cons, leaves_merge _ _ l r (isFull_ne_null l hl)]
        simpa [List.flatMap_cons, List.append_assoc] using h2)
    symbols hne hsz
    (by
      constructor
      · intro p hp
        rw [List.mem_map] at hp
        obtain ⟨s, _, rfl⟩ := hp
        rfl
      · have : ∀ l : List (Byte × Nat),
            (l.map fun s => newNode s.1 s.2).flatMap MinHeapNode.leaves =
              l.map fun s => (s.1, s.2 % 2 ^ 32) := by
          intro l
          induction l with
          | nil => rfl
          | cons s l ih =>
            rw [List.map_cons, List.flatMap_cons, ih]
            rfl
        rw [this])
  refine ⟨t, ht, hfull t (List.mem_singleton_self t), ?_⟩
  simpa using hleaves

theorem isNull_iff (t : MinHeapNode) : t.isNull = true ↔ t = .null := by
  cases t with
  | null => exact ⟨fun _ => rfl, fun _ => rfl⟩
  | mk d f l r => exact ⟨fun h => (by cases h), fun h => (by cases h)⟩

theorem isFull_cases (d : Byte) (f : Nat) (l r : MinHeapNode)
    (h : (MinHeapNode.mk d f l r).isFull = true) :
    (l = .null ∧ r = .null) ∨ (l.isFull = true ∧ r.isFull = true) := by
  simp only [MinHeapNode.isFull, Bool.or_eq_true, Bool.and_eq_true, isNull_iff] at h
  exact h

/-- In a tree every root-to-leaf path is shorter than the number of leaves. -/
theorem height_lt_leaves (t : MinHeapNode) (h : t.isFull = true) :
    t.height + 1 ≤ t.leaves.length := by
  induction t with
  | null => cases h
  | mk d f l r ihl ihr =>
    rcases isFull_cases d f l r h with ⟨rfl, rfl⟩ | ⟨hl, hr⟩
    · simp [MinHeapNode.height, MinHeapNode.leaves, MinHeapNode.isNull]
    · have h1 := ihl hl
      have h2 := ihr hr
      simp only [MinHeapNode.height, MinHeapNode.leaves,
        isNull_eq_false l (isFull_ne_null l hl), Bool.false_and, List.length_append]
      simp only [Bool.false_eq_true, if_false]
      rw [List.length_append]
      omega

/-! ## The code table is the table of root-to-leaf paths -/

theorem applyCodes_append (tbl : CodeTable) (xs ys : List (Byte × Code)) :
    applyCodes tbl (xs ++ ys) = applyCodes (applyCodes tbl xs) ys := by
  unfold applyCodes
  rw [List.foldl_append]

/-- Function `storeCodes` on a tree, with room in the path buffer for its height, records for every
leaf the buffer prefix `arr[0..top)` followed by the leaf's path, and returns the buffer
with that prefix unchanged. -/
theorem storeCodes_spec :
    ∀ (t : MinHeapNode), t.isFull = true → ∀ (arr : List Bool) (top : Nat) (tbl : CodeTable),
      top + t.height ≤ arr.length →
      ∃ arr1, storeCodes t arr top tbl =
          .ok (arr1, applyCodes tbl (t.codes.map fun e => (e.1, arr.take top ++ e.2))) ∧
        arr1.length = arr.length ∧ arr1.take top = arr.take top := by
  intro t
  induction t with
  | null => intro h; cases h
  | mk d f l r ihl ihr =>
    intro hfull arr top tbl hroom
    rcases isFull_cases d f l r hfull with ⟨rfl, rfl⟩ | ⟨hl, hr⟩
    · refine ⟨arr, ?_, rfl, rfl⟩
      simp [storeCodes, MinHeapNode.isNull, MinHeapNode.codes, applyCodes, bind_ok]
    · have hln := isNull_eq_false l (isFull_ne_null l hl)
      have hrn := isNull_eq_false r (isFull_ne_null r hr)
      have hh : (MinHeapNode.mk d f l r).height = max l.height r.height + 1 := by
        simp only [MinHeapNode.height, hln, Bool.false_and]
        rfl
      rw [hh] at hroom
      have htop : top < arr.length := by omega
      obtain ⟨arr1, hs1, hl1, ht1⟩ := ihl hl (arr.set top false) (top + 1) tbl
        (by rw [List.length_set]; omega)
      rw [List.length_set] at hl1
      obtain ⟨arr2, hs2, hl2, ht2⟩ := ihr hr (arr1.set top true) (top + 1)
        (applyCodes tbl (l.codes.map fun e => (e.1, (arr.set top false).take (top + 1) ++ e.2)))
        (by rw [List.length_set]; omega)
      rw [List.length_set] at hl2
      have htake : ∀ (a : List Bool) (b : Bool), top < a.length →
          (a.set top b).take (top + 1) = a.take top ++ [b] := by
        intro a b ha
        rw [List.take_succ, List.getElem?_set_self ha, List.set_take,
          List.set_eq_of_length_le (by rw [List.length_take]; omega)]
        rfl
      have htake0 : ∀ (a : List Bool) (b : Bool), (a.set top b).take top = a.take top := by
        intro a b
        rw [List.set_take, List.set_eq_of_length_le (by rw [List.length_take]; omega)]
      have hpre1 : arr1.take top = arr.take top := by
        have := congrArg (List.take top) ht1
        simp only [List.take_take, Nat.min_eq_left (Nat.le_succ top)] at this
        rw [htake0] at this
        exact this
      have hpre2 : arr2.take top = arr.take top := by
        have := congrArg (List.take top) ht2
        simp only [List.take_take, Nat.min_eq_left (Nat.le_succ top)] at this
        rw [htake0] at this
        exact this.trans hpre1
      refine ⟨arr2, ?_, by omega, hpre2⟩
      unfold storeCodes
      simp only [hln, hrn, Bool.false_and, Bool.false_eq_true, if_false]
      unfold writeArr
      rw [if_pos htop, bind_ok, hs1, bind_ok]
      simp only []
      rw [if_pos (by omega), bind_ok, hs2, bind_ok]
      rw [htake arr false htop, htake arr1 true (by omega), hpre1]
      have hcodes : (MinHeapNode.mk d f l r).codes =
          (l.codes.map fun e => (e.1, false :: e.2)) ++
            (r.codes.map fun e => (e.1, true :: e.2)) := by
        simp only [MinHeapNode.codes, hln, Bool.false_and]
        rfl
      rw [hcodes, List.map_append, applyCodes_append, List.map_map, List.map_map]
      simp [Function.comp_def]

/-- Two leaves of one tree whose paths are prefix-related are the same leaf. -/
theorem codes_prefix_eq :
    ∀ (t : MinHeapNode) (e1 e2 : Byte × Code), e1 ∈ t.codes → e2 ∈ t.codes →
      e1.2 <+: e2.2 → e1 = e2 := by
  intro t
  induction t with
  | null => intro e1 e2 h1; cases h1
  | mk d f l r ihl ihr =>
    intro e1 e2 h1 h2 hpre
    simp only [MinHeapNode.codes] at h1 h2
    split at h1
    · rename_i hleaf
      rw [if_pos hleaf] at h2
      rw [List.mem_singleton] at h1 h2
      rw [h1, h2]
    · rename_i hleaf
      rw [if_neg hleaf] at h2
      rw [List.mem_append, List.mem_map, List.mem_map] at h1 h2
      rcases h1 with ⟨x1, hx1, rfl⟩ | ⟨x1, hx1, rfl⟩ <;>
        rcases h2 with ⟨x2, hx2, rfl⟩ | ⟨x2, hx2, rfl⟩
      · have hp : x1.2 <+: x2.2 := by
          simpa [List.cons_prefix_cons] using hpre
        rw [ihl x1 x2 hx1 hx2 hp]
      · simp [List.cons_prefix_cons] at hpre
      · simp [List.cons_prefix_cons] at hpre
      · have hp : x1.2 <+: x2.2 := by
          simpa [List.cons_prefix_cons] using hpre
        rw [ihr x1 x2 hx1 hx2 hp]

theorem applyCodes_some (entries : List (Byte × Code)) :
    ∀ (tbl : CodeTable) (a : Byte) (c : Code), applyCodes tbl entries a = some c →
      (a, c) ∈ entries ∨ tbl a = some c := by
  induction entries with
  | nil => intro tbl a c h; exact Or.inr h
  | cons e rest ih =>
    intro tbl a c h
    have hstep : applyCodes tbl (e :: rest) =
        applyCodes (Function.update tbl e.1 (some e.2)) rest := rfl
    rw [hstep] at h
    rcases ih _ a c h with hmem | hupd
    · exact Or.inl (List.mem_cons_of_mem _ hmem)
    · by_cases hae : a = e.1
      · subst hae
        rw [Function.update_same] at hupd
        left
        have : e.2 = c := Option.some.inj hupd
        rw [← this]
        exact List.mem_cons_self _ _
      · rw [Function.update_noteq hae] at hupd
        exact Or.inr hupd

/-- The table that `generateCodes` fills, starting from the all-`NULL` table, for a symbol
list of at most 256 entries: every entry is the path of a leaf of the built tree. -/
theorem generateCodes_spec (symbols : List (Byte × Nat)) (hne : symbols ≠ [])
    (hlen : symbols.length ≤ 256) :
    ∃ t, buildHuffmanTree symbols = .ok t ∧ t.isFull = true ∧
      t.leaves.Perm (symbols.map fun s => (s.1, s.2 % 2 ^ 32)) ∧
      generateCodes symbols (fun _ => none) = .ok (applyCodes (fun _ => none) t.codes) := by
  obtain ⟨t, ht, hfull, hleaves⟩ := buildHuffmanTree_full symbols hne
    (lt_of_le_of_lt (Nat.add_le_add_right hlen 1) (by norm_num))
  have hh := height_lt_leaves t hfull
  rw [hleaves.length_eq, List.length_map] at hh
  obtain ⟨arr1, hs, _, _⟩ := storeCodes_spec t hfull (List.replicate MAX_TREE_HT false) 0
    (fun _ => none) (by rw [List.length_replicate]; show 0 + t.height ≤ 256; omega)
  refine ⟨t, ht, hfull, hleaves, ?_⟩
  unfold generateCodes
  rw [ht, bind_ok, hs, bind_ok]
  simp

/-! ## Frequency counting -/

/-- The counting loop of `compressFile` on an input of fewer than `2 ^ 63` bytes: every
counter ends as the byte's number of occurrences reduced modulo `2 ^ 32`. -/
theorem tally_spec :
    ∀ (S : List Byte) (f : FreqTable) (n : Int), (∀ b, f b < 2 ^ 32) →
      n + S.length < 2 ^ 63 →
      tally S (f, n) = .ok (fun b => (f b + S.count b) % 2 ^ 32, n + S.length) := by
  intro S
  induction S with
  | nil =>
    intro f n hf _
    unfold tally
    congr 2
    · funext b
      rw [List.count_nil, Nat.add_zero, Nat.mod_eq_of_lt (hf b)]
    · simp
  | cons c rest ih =>
    intro f n hf hn
    rw [List.length_cons] at hn
    push_cast at hn
    unfold tally
    simp only []
    rw [if_neg (by omega), ih _ _ _ (by omega)]
    · congr 2
      · funext b
        rw [List.count_cons]
        by_cases hb : b = c
        · subst hb
          simp only [Function.update_same, beq_self_eq_true, if_true]
          omega
        · have hcb : (c == b) = false := by
            rw [beq_eq_false_iff_ne]
            exact fun h => hb h.symm
          rw [Function.update_noteq hb, hcb]
          simp
      · rw [List.length_cons]
        push_cast
        omega
    · intro b
      by_cases hb : b = c
      · subst hb
        rw [Function.update_same]
        exact Nat.mod_lt _ (by norm_num)
      · rw [Function.update_noteq hb]
        exact hf b

/-- The symbol-collecting loop keeps, in index order, the indices with a non-zero count. -/
theorem collectSymbols_eq (freq : FreqTable) (is : List Byte) :
    collectSymbols freq is = (is.filter fun i => 0 < freq i).map fun i => (i, freq i) := by
  have key : ∀ (is : List Byte) (acc : List (Byte × Nat)),
      is.foldl (fun acc i => if freq i > 0 then acc ++ [(i, freq i)] else acc) acc =
        acc ++ (is.filter fun i => 0 < freq i).map fun i => (i, freq i) := by
    intro is
    induction is with
    | nil => intro acc; simp
    | cons i rest ih =>
      intro acc
      rw [List.foldl_cons, ih]
      by_cases hi : freq i > 0
      · rw [if_pos hi, List.filter_cons_of_pos (by simpa using hi)]
        simp
      · rw [if_neg hi, List.filter_cons_of_neg (by simpa using hi)]
  unfold collectSymbols
  rw [key]
  rfl

theorem sum_filter_pos (g : Byte → Nat) (is : List Byte) :
    ((is.filter fun i => 0 < g i).map g).sum = (is.map g).sum := by
  induction is with
  | nil => rfl
  | cons i rest ih =>
    by_cases hi : 0 < g i
    · rw [List.filter_cons_of_pos (by simpa using hi), List.map_cons, List.sum_cons, ih,
        List.map_cons, List.sum_cons]
    · rw [List.filter_cons_of_neg (by simpa using hi), ih, List.map_cons, List.sum_cons]
      omega

theorem sum_indicator (c : Byte) (is : List Byte) (hnd : is.Nodup) (hc : c ∈ is) :
    (is.map fun b => if c = b then 1 else 0).sum = 1 := by
  induction is with
  | nil => cases hc
  | cons i rest ih =>
    rw [List.nodup_cons] at hnd
    rw [List.map_cons, List.sum_cons]
    by_cases hci : c = i
    · subst hci
      have hz : (rest.map fun b => if c = b then 1 else 0).sum = 0 := by
        apply List.sum_eq_zero
        intro x hx
        rw [List.mem_map] at hx
        obtain ⟨b, hb, rfl⟩ := hx
        have : c ≠ b := fun h => hnd.1 (h ▸ hb)
        rw [if_neg this]
      rw [hz, if_pos rfl]
    · rcases List.mem_cons.mp hc with h | h
      · exact absurd h hci
      · rw [if_neg hci, ih hnd.2 h]

/-- The per-byte counts of an input, summed over all byte values, give its length. -/
theorem sum_count (S : List Byte) (is : List Byte) (hnd : is.Nodup) (hall : ∀ c, c ∈ is) :
    (is.map fun b => S.count b).sum = S.length := by
  induction S with
  | nil => simp
  | cons c rest ih =>
    have : (fun b => (c :: rest).count b) =
        fun b => rest.count b + (if c = b then 1 else 0) := by
      funext b
      rw [List.count_cons]
      by_cases h : c = b
      · simp [h]
      · simp [h]
    rw [this, List.sum_map_add, ih, sum_indicator c is hnd (hall c), List.length_cons]

/-- The symbol list that `compressFile` passes to `generateCodes` for an input of fewer than
`2 ^ 32` bytes: at most 256 entries, unique byte values, positive frequencies that add up to
the input length, and non-empty for a non-empty input. -/
theorem collectSymbols_input (S : List Byte) (hlen : S.length < 2 ^ 32) :
    let symbols := collectSymbols (fun b => (0 + S.count b) % 2 ^ 32) (List.finRange 256)
    symbols.length ≤ 256 ∧ (symbols.map Prod.fst).Nodup ∧
      (symbols.map Prod.snd).sum = S.length ∧ (S ≠ [] → symbols ≠ []) ∧
      (∀ s ∈ symbols, s.2 = S.count s.1 ∧ 0 < s.2) ∧
      (∀ b, 0 < S.count b → (b, S.count b) ∈ symbols) := by
  have hf : (fun b : Byte => (0 + S.count b) % 2 ^ 32) = fun b => S.count b := by
    funext b
    have := List.count_le_length b S
    rw [Nat.zero_add, Nat.mod_eq_of_lt (by omega)]
  simp only [hf, collectSymbols_eq]
  have hsum : ((((List.finRange 256).filter fun i => 0 < S.count i).map
      fun i => (i, S.count i)).map Prod.snd).sum = S.length := by
    rw [List.map_map]
    have := sum_filter_pos (fun b => S.count b) (List.finRange 256)
    rw [sum_count S _ (List.nodup_finRange 256) (List.mem_finRange)] at this
    exact this
  refine ⟨?_, ?_, hsum, ?_, ?_, ?_⟩
  · rw [List.length_map]
    have := List.length_filter_le (fun i => decide (0 < S.count i)) (List.finRange 256)
    rw [List.length_finRange] at this
    exact this
  · rw [List.map_map]
    have : (Prod.fst ∘ fun i : Byte => (i, S.count i)) = id := rfl
    rw [this, List.map_id]
    exact (List.nodup_finRange 256).filter _
  · intro hne hnil
    rw [hnil] at hsum
    have : 0 < S.length := List.length_pos.mpr hne
    simp at hsum
    omega
  · intro s hs
    rw [List.mem_map] at hs
    obtain ⟨i, hi, rfl⟩ := hs
    rw [List.mem_filter] at hi
    exact ⟨rfl, by simpa using hi.2⟩
  · intro b hb
    rw [List.mem_map]
    exact ⟨b, List.mem_filter.mpr ⟨List.mem_finRange b, by simpa using hb⟩, rfl⟩

/-! ## Frequency conservation -/

theorem leafSum_merge (d : Byte) (f : Nat) (l r : MinHeapNode) (hl : l ≠ .null) :
    (MinHeapNode.mk d f l r).leafSum = l.leafSum + r.leafSum := by
  unfold MinHeapNode.leafSum
  rw [leaves_merge d f l r hl, List.map_append, List.sum_append]

theorem buildHuffmanTree_nil : buildHuffmanTree [] = .error .outOfBounds := rfl

/-- When the frequencies of a non-empty symbol list add up to less than `2 ^ 32`, no merge
addition wraps: in the built tree every internal node's frequency is the exact sum of its
children's, every node's frequency is the sum of the leaf frequencies below it, and the
leaf frequencies add up to the total. -/
theorem buildHuffmanTree_sums (symbols : List (Byte × Nat)) (hne : symbols ≠ [])
    (hsz : symbols.length + 1 < 2 ^ 30) (htotal : (symbols.map Prod.snd).sum < 2 ^ 32) :
    ∃ t, buildHuffmanTree symbols = .ok t ∧ t.sumsChildren = true ∧
      t.freqField = t.leafSum ∧ t.leafSum = (symbols.map Prod.snd).sum := by
  obtain ⟨t, ht, hnode, hsum⟩ := buildHuffmanTree_spec
    (fun a => (∀ p ∈ a, p ≠ .null ∧ p.sumsChildren = true ∧ p.freqField = p.leafSum) ∧
      (a.map MinHeapNode.leafSum).sum = (symbols.map Prod.snd).sum)
    (by
      intro a b hab ⟨h1, h2⟩
      exact ⟨fun p hp => h1 p (hab.symm.subset hp), by rw [← h2]; exact (hab.map _).symm.sum_eq⟩)
    (by
      intro a ⟨h1, _⟩ p hp
      exact (h1 p hp).1)
    (by
      intro l r rest ⟨h1, h2⟩
      obtain ⟨hln, hls, hlf⟩ := h1 l (List.mem_cons_self _ _)
      obtain ⟨hrn, hrs, hrf⟩ := h1 r (List.mem_cons_of_mem _ (List.mem_cons_self _ _))
      simp only [List.map_cons, List.sum_cons] at h2
      have hnowrap : (l.freqField + r.freqField) % 2 ^ 32 = l.freqField + r.freqField :=
        Nat.mod_eq_of_lt (by omega)
      rw [hnowrap]
      constructor
      · intro p hp
        rcases List.mem_cons.mp hp with rfl | hp
        · refine ⟨(by intro hc; cases hc), ?_, ?_⟩
          · simp [MinHeapNode.sumsChildren, MinHeapNode.freqField, hls, hrs]
          · rw [leafSum_merge _ _ l r hln, ← hlf, ← hrf]
            rfl
        · exact h1 p (List.mem_cons_of_mem _ (List.mem_cons_of_mem _ hp))
      · simp only [List.map_cons, List.sum_cons]
        rw [leafSum_merge _ _ l r hln, ← h2]
        omega)
    symbols hne hsz
    (by
      have hle : ∀ s ∈ symbols, s.2 < 2 ^ 32 := by
        intro s hs
        have := List.single_le_sum (fun x _ => Nat.zero_le x) s.2
          (List.mem_map.mpr ⟨s, hs, rfl⟩)
        omega
      constructor
      · intro p hp
        rw [List.mem_map] at hp
        obtain ⟨s, _, rfl⟩ := hp
        refine ⟨(by intro hc; cases hc), rfl, ?_⟩
        simp [newNode, MinHeapNode.leafSum, MinHeapNode.leaves, MinHeapNode.freqField,
          MinHeapNode.isNull]
      · rw [List.map_map]
        apply congrArg
        apply List.map_congr_left
        intro s hs
        simp only [Function.comp, newNode, MinHeapNode.leafSum, MinHeapNode.leaves,
          MinHeapNode.isNull, Bool.and_self, if_true, List.map_cons, List.map_nil,
          List.sum_cons, List.sum_nil, Nat.add_zero]
        exact Nat.mod_eq_of_lt (hle s hs))
  obtain ⟨_, h2, h3⟩ := hnode t (List.mem_singleton_self t)
  refine ⟨t, ht, h2, h3, ?_⟩
  simpa using hsum

/-- Claim C5 (as amended). Frequency conservation for inputs of fewer than `2 ^ 32` bytes:
whenever a tree is built from the input's per-byte counts, the sum of its leaf frequencies
is the input length, every node is a leaf or has two children, and every internal node's
frequency is the sum of its two children's; and for a non-empty input the counting loop and
the tree construction do succeed. -/
theorem frequency_conservation (S : List Byte) (hlen : S.length < 2 ^ 32) :
    (∀ freq n t, tally S (fun _ => 0, 0) = .ok (freq, n) →
      buildHuffmanTree (collectSymbols freq (List.finRange 256)) = .ok t →
      t.leafSum = S.length ∧ t.isFull = true ∧ t.sumsChildren = true) ∧
    (S ≠ [] → ∃ freq t, tally S (fun _ => 0, 0) = .ok (freq, (S.length : Int)) ∧
      buildHuffmanTree (collectSymbols freq (List.finRange 256)) = .ok t) := by
  have htally := tally_spec S (fun _ => 0) 0 (fun _ => by norm_num) (by omega)
  obtain ⟨h256, _, hsum, hne, hpos, _⟩ := collectSymbols_input S hlen
  constructor
  · intro freq n t h1 h2
    rw [htally] at h1
    injection h1 with h1
    injection h1 with hfreq hn
    subst hfreq
    by_cases hS : S = []
    · subst hS
      have hnil : collectSymbols (fun b => (0 + ([] : List Byte).count b) % 2 ^ 32)
          (List.finRange 256) = [] := by
        rw [List.eq_nil_iff_forall_not_mem]
        intro s hs
        have := hpos s hs
        rw [List.count_nil] at this
        omega
      rw [hnil, buildHuffmanTree_nil] at h2
      cases h2
    · obtain ⟨t1, ht1, hs1, _, hl1⟩ := buildHuffmanTree_sums _ (hne hS) (by omega)
        (by rw [hsum]; exact hlen)
      obtain ⟨t2, ht2, hfull, _⟩ := buildHuffmanTree_full _ (hne hS) (by omega)
      rw [ht1] at h2 ht2
      injection h2 with h2
      injection ht2 with ht2
      subst h2
      subst ht2
      exact ⟨by rw [hl1, hsum], hfull, hs1⟩
  · intro hS
    obtain ⟨t1, ht1, _⟩ := buildHuffmanTree_sums _ (hne hS) (by omega)
      (by rw [hsum]; exact hlen)
    exact ⟨_, t1, by rw [htally]; simp, ht1⟩

/-- Instance of `frequency_conservation` on the input `aba`. -/
theorem frequency_conservation_witness :
    ([97, 98, 97] : List Byte).length < 2 ^ 32 ∧
    ∃ freq t, tally [97, 98, 97] (fun _ => 0, 0) = .ok (freq, 3) ∧
      buildHuffmanTree (collectSymbols freq (List.finRange 256)) = .ok t ∧
      t.leafSum = 3 ∧ t.isFull = true ∧ t.sumsChildren = true :=
  ⟨by decide,
   match (frequency_conservation [97, 98, 97] (by decide)).2 (by decide) with
   | ⟨freq, t, h1, h2⟩ =>
     ⟨freq, t, h1, h2, (frequency_conservation [97, 98, 97] (by decide)).1 freq 3 t h1 h2⟩⟩

set_option maxRecDepth 100000 in
theorem collectSymbols_only_one :
    collectSymbols (fun b : Byte => if b = 1 then 1 else 0) (List.finRange 256) =
      [(1, 1)] := by
  decide

/-- Claim C5, counterexample. The claim as stated, for every input, fails once a 32-bit counter
wraps: for the input made of `2 ^ 32` zero bytes followed by one byte `1`, the counter of
byte `0` wraps to zero, the tree built from the counts is the single leaf for byte `1`, and
the sum of its leaf frequencies is `1`, not the input length `2 ^ 32 + 1`. -/
theorem frequency_conservation_fails_on_wrap :
    ∃ freq n t,
      tally (List.replicate (2 ^ 32) (0 : Byte) ++ [1]) (fun _ => 0, 0) = .ok (freq, n) ∧
      buildHuffmanTree (collectSymbols freq (List.finRange 256)) = .ok t ∧
      t.leafSum = 1 ∧
      (List.replicate (2 ^ 32) (0 : Byte) ++ [1]).length = 2 ^ 32 + 1 ∧
      t.leafSum ≠ (List.replicate (2 ^ 32) (0 : Byte) ++ [1]).length := by
  have hlen : (List.replicate (2 ^ 32) (0 : Byte) ++ [1]).length = 2 ^ 32 + 1 := by
    rw [List.length_append, List.length_replicate, List.length_singleton]
  have htally := tally_spec (List.replicate (2 ^ 32) (0 : Byte) ++ [1]) (fun _ => 0) 0
    (fun _ => by norm_num) (by rw [hlen]; norm_num)
  have hfreq : (fun b : Byte =>
      ((fun _ => 0) b + (List.replicate (2 ^ 32) (0 : Byte) ++ [1]).count b) % 2 ^ 32) =
      fun b => if b = 1 then 1 else 0 := by
    funext b
    rw [List.count_append, List.count_replicate, List.count_singleton]
    by_cases h0 : b = 0
    · subst h0
      decide
    · by_cases h1 : b = 1
      · subst h1
        decide
      · have e0 : ((0 : Byte) == b) = false := by
          rw [beq_eq_false_iff_ne]; exact fun h => h0 h.symm
        have e1 : ((1 : Byte) == b) = false := by
          rw [beq_eq_false_iff_ne]; exact fun h => h1 h.symm
        rw [e0, e1, if_neg h1]
        rfl
  rw [hfreq] at htally
  refine ⟨_, _, newNode 1 1, htally, ?_, by decide, hlen, ?_⟩
  · rw [collectSymbols_only_one]
    rfl
  · rw [hlen]
    decide

/-! ## The encoder packs the codewords most significant bit first -/

set_option maxRecDepth 100000 in
theorem bitsOfByte_eq_lowBits : ∀ b : Byte, bitsOfByte b = lowBits 8 b.val := by
  decide

set_option maxRecDepth 100000 in
theorem shift_or_one : ∀ x : Fin 128, (x.val * 2 % 256) ||| 1 = x.val * 2 + 1 := by
  decide

theorem bitsOfBytes_append (xs ys : List Byte) :
    bitsOfBytes (xs ++ ys) = bitsOfBytes xs ++ bitsOfBytes ys := by
  simp [bitsOfBytes]

theorem bitsOfBytes_length (xs : List Byte) : (bitsOfBytes xs).length = 8 * xs.length := by
  induction xs with
  | nil => rfl
  | cons b rest ih =>
    have : bitsOfBytes (b :: rest) = bitsOfByte b ++ bitsOfBytes rest := by
      simp [bitsOfBytes]
    rw [this, List.length_append, ih, List.length_cons]
    have : (bitsOfByte b).length = 8 := rfl
    omega

theorem lowBits_length (n x : Nat) : (lowBits n x).length = n := by
  induction n generalizing x with
  | zero => rfl
  | succ n ih => simp [lowBits, ih]

theorem lowBits_shift (n x : Nat) (b : Bool) :
    lowBits (n + 1) (x * 2 + (if b then 1 else 0)) = lowBits n x ++ [b] := by
  have h1 : (x * 2 + (if b then 1 else 0)) / 2 = x := by
    cases b
    · show (x * 2 + 0) / 2 = x
      omega
    · show (x * 2 + 1) / 2 = x
      omega
  have h2 : ((x * 2 + (if b then 1 else 0)) % 2 == 1) = b := by
    cases b
    · have : (x * 2 + 0) % 2 = 0 := by omega
      show ((x * 2 + 0) % 2 == 1) = false
      rw [this]
      rfl
    · have : (x * 2 + 1) % 2 = 1 := by omega
      show ((x * 2 + 1) % 2 == 1) = true
      rw [this]
      rfl
  simp only [lowBits]
  rw [h1, h2]

/-- What the encoder relies on between two bits: fewer than eight bits are pending and
`buffer` holds no other bits. -/
theorem putBit_spec (w : BitWriter) (b : Bool) (hbc : w.bit_count < 8)
    (hbuf : w.buffer < 2 ^ w.bit_count) :
    (putBit w b).bit_count < 8 ∧ (putBit w b).buffer < 2 ^ (putBit w b).bit_count ∧
      (putBit w b).bits = w.bits ++ [b] := by
  have hb128 : w.buffer < 128 := by
    have : 2 ^ w.bit_count ≤ 2 ^ 7 := Nat.pow_le_pow_right (by norm_num) (by omega)
    omega
  have hb2 : (if b then (w.buffer * 2 % 256) ||| 1 else w.buffer * 2 % 256) =
      w.buffer * 2 + (if b then 1 else 0) := by
    cases b
    · show w.buffer * 2 % 256 = w.buffer * 2 + 0
      omega
    · exact shift_or_one ⟨w.buffer, hb128⟩
  have hlt : w.buffer * 2 + (if b then 1 else 0) < 2 ^ (w.bit_count + 1) := by
    rw [Nat.pow_succ]
    cases b
    · show w.buffer * 2 + 0 < _
      omega
    · show w.buffer * 2 + 1 < _
      omega
  unfold putBit
  simp only [hb2]
  by_cases h8 : w.bit_count + 1 = 8
  · rw [if_pos h8]
    refine ⟨by norm_num, by norm_num, ?_⟩
    have h7 : w.bit_count = 7 := by omega
    rw [h7] at hlt
    have hval : (Fin.ofNat (w.buffer * 2 + (if b then 1 else 0)) : Byte).val =
        w.buffer * 2 + (if b then 1 else 0) := Nat.mod_eq_of_lt hlt
    simp only [BitWriter.bits, lowBits, List.append_nil]
    rw [bitsOfBytes_append, List.append_assoc]
    congr 1
    have hone : bitsOfBytes [(Fin.ofNat (w.buffer * 2 + (if b then 1 else 0)) : Byte)] =
        bitsOfByte (Fin.ofNat (w.buffer * 2 + (if b then 1 else 0))) := by
      simp [bitsOfBytes]
    rw [hone, bitsOfByte_eq_lowBits, hval, h7, lowBits_shift]
  · rw [if_neg h8]
    refine ⟨by simp only []; omega, hlt, ?_⟩
    simp only [BitWriter.bits]
    rw [lowBits_shift, List.append_assoc]

theorem foldl_putBit_spec (code : Code) :
    ∀ (w : BitWriter), w.bit_count < 8 → w.buffer < 2 ^ w.bit_count →
      (code.foldl putBit w).bit_count < 8 ∧
        (code.foldl putBit w).buffer < 2 ^ (code.foldl putBit w).bit_count ∧
        (code.foldl putBit w).bits = w.bits ++ code := by
  induction code with
  | nil => intro w h1 h2; exact ⟨h1, h2, by simp⟩
  | cons b rest ih =>
    intro w h1 h2
    obtain ⟨a1, a2, a3⟩ := putBit_spec w b h1 h2
    obtain ⟨b1, b2, b3⟩ := ih (putBit w b) a1 a2
    refine ⟨b1, b2, ?_⟩
    rw [List.foldl_cons, b3, a3, List.append_assoc]
    rfl

/-- The encoding loop appends the codewords of the input bytes, in order. -/
theorem encodeLoop_spec (huffmanCodes : CodeTable) :
    ∀ (input : List Byte) (w : BitWriter), (∀ c ∈ input, (huffmanCodes c).isSome = true) →
      w.bit_count < 8 → w.buffer < 2 ^ w.bit_count →
      ∃ w1, encodeLoop huffmanCodes input w = .ok w1 ∧ w1.bit_count < 8 ∧
        w1.buffer < 2 ^ w1.bit_count ∧ w1.bits = w.bits ++ codeStream huffmanCodes input := by
  intro input
  induction input with
  | nil => intro w _ h1 h2; exact ⟨w, rfl, h1, h2, by simp [codeStream]⟩
  | cons c rest ih =>
    intro w hc h1 h2
    have hsome := hc c (List.mem_cons_self _ _)
    cases hcode : huffmanCodes c with
    | none => rw [hcode] at hsome; cases hsome
    | some code =>
      obtain ⟨a1, a2, a3⟩ := foldl_putBit_spec code w h1 h2
      obtain ⟨w1, hr, b1, b2, b3⟩ := ih (code.foldl putBit w)
        (fun x hx => hc x (List.mem_cons_of_mem _ hx)) a1 a2
      refine ⟨w1, ?_, b1, b2, ?_⟩
      · unfold encodeLoop
        simp only [hcode]
        exact hr
      · rw [b3, a3, List.append_assoc]
        congr 1
        simp [codeStream, hcode]

theorem padLoop_spec :
    ∀ (fuel : Nat) (w : BitWriter), 0 < w.bit_count → w.bit_count ≤ 8 →
      w.buffer < 2 ^ w.bit_count → 8 < fuel + w.bit_count →
      ∃ w1, padLoop fuel w = .ok w1 ∧ w1.bit_count = 8 ∧ w1.out = w.out ∧
        w1.buffer < 256 ∧
        lowBits 8 w1.buffer =
          lowBits w.bit_count w.buffer ++ List.replicate (8 - w.bit_count) false := by
  intro fuel
  induction fuel with
  | zero => intro w _ _ _ hf; omega
  | succ fuel ih =>
    intro w hpos hle hbuf hf
    unfold padLoop
    by_cases h8 : w.bit_count < 8
    · rw [if_pos ⟨hpos, h8⟩]
      have hlt : w.buffer * 2 < 2 ^ (w.bit_count + 1) := by
        rw [Nat.pow_succ]; omega
      have hle256 : 2 ^ (w.bit_count + 1) ≤ 2 ^ 8 :=
        Nat.pow_le_pow_right (by norm_num) (by omega)
      have hmod : w.buffer * 2 % 256 = w.buffer * 2 := Nat.mod_eq_of_lt (by omega)
      obtain ⟨w1, hr, a1, a2, a3, a4⟩ := ih
        { w with buffer := (w.buffer * 2) % 256, bit_count := w.bit_count + 1 }
        (by simp only []; omega) (by simp only []; omega)
        (by simp only []; rw [hmod]; exact hlt) (by simp only []; omega)
      refine ⟨w1, hr, a1, a2, a3, ?_⟩
      rw [a4]
      simp only [hmod]
      have := lowBits_shift w.bit_count w.buffer false
      simp only [Bool.false_eq_true, if_false, Nat.add_zero] at this
      rw [this, List.append_assoc]
      congr 1
      have : 8 - w.bit_count = (8 - (w.bit_count + 1)) + 1 := by omega
      rw [this, List.replicate_succ]
      rfl
    · rw [if_neg (by omega)]
      have h : w.bit_count = 8 := by omega
      refine ⟨w, rfl, h, rfl, by rw [h] at hbuf; exact hbuf, ?_⟩
      rw [h]
      simp

/-- The tail of the encoder completes a pending partial byte with zero bits and writes
nothing when no bit is pending. -/
theorem flushBits_spec (w : BitWriter) (hbc : w.bit_count < 8)
    (hbuf : w.buffer < 2 ^ w.bit_count) :
    ∃ out, flushBits w = .ok out ∧
      bitsOfBytes out = w.bits ++ List.replicate ((8 - w.bit_count) % 8) false := by
  unfold flushBits
  by_cases h0 : w.bit_count = 0
  · have hpad : padLoop 8 w = .ok w := by
      unfold padLoop
      rw [if_neg (by omega)]
    rw [hpad, bind_ok, if_neg (by omega)]
    refine ⟨w.out, rfl, ?_⟩
    simp [BitWriter.bits, h0, lowBits]
  · obtain ⟨w1, hr, a1, a2, a3, a4⟩ := padLoop_spec 8 w (by omega) (by omega) hbuf (by omega)
    rw [hr, bind_ok, if_pos a1]
    refine ⟨_, rfl, ?_⟩
    have hval : (Fin.ofNat w1.buffer : Byte).val = w1.buffer := Nat.mod_eq_of_lt a3
    have hone : bitsOfBytes [(Fin.ofNat w1.buffer : Byte)] = bitsOfByte (Fin.ofNat w1.buffer) := by
      simp [bitsOfBytes]
    rw [bitsOfBytes_append, hone, bitsOfByte_eq_lowBits, hval, a4, a2,
      Nat.mod_eq_of_lt (by omega)]
    simp [BitWriter.bits]

/-- The encoder's output for a table that has a codeword for each input byte. -/
theorem encode_spec (input : List Byte) (huffmanCodes : CodeTable)
    (hcodes : ∀ c ∈ input, (huffmanCodes c).isSome = true) :
    ∃ out pad, encode input huffmanCodes = .ok out ∧ pad < 8 ∧
      bitsOfBytes out = codeStream huffmanCodes input ++ List.replicate pad false ∧
      out.length = ((codeStream huffmanCodes input).length + 7) / 8 ∧
      ((codeStream huffmanCodes input).length % 8 = 0 →
        pad = 0 ∧ 8 * out.length = (codeStream huffmanCodes input).length) := by
  obtain ⟨w1, hr, a1, a2, a3⟩ := encodeLoop_spec huffmanCodes input
    { buffer := 0, bit_count := 0, out := [] } hcodes (by norm_num) (by norm_num)
  obtain ⟨out, ho, hbits⟩ := flushBits_spec w1 a1 a2
  have hinit : BitWriter.bits { buffer := 0, bit_count := 0, out := [] } = [] := rfl
  rw [a3, hinit, List.nil_append] at hbits
  have hlen := congrArg List.length hbits
  rw [bitsOfBytes_length, List.length_append, List.length_replicate] at hlen
  have hpad : (8 - w1.bit_count) % 8 < 8 := Nat.mod_lt _ (by norm_num)
  refine ⟨out, (8 - w1.bit_count) % 8, ?_, hpad, hbits, by omega, fun h => by omega⟩
  unfold encode
  rw [hr, bind_ok, ho]

/-- Claim C6. Encoder packing.  For every input and every code table with a codeword for each
input byte, the encoder succeeds, and the bytes it emits, read most significant bit first,
are the concatenation of the input bytes' codewords in input order followed by `pad < 8`
zero bits; so with `T` codeword bits exactly `⌈T / 8⌉ = (T + 7) / 8` bytes are emitted, and
when `T` is a multiple of 8 (including `T = 0`) there is no padding and no extra byte. -/
theorem encode_packing (input : List Byte) (huffmanCodes : CodeTable)
    (hcodes : ∀ c ∈ input, (huffmanCodes c).isSome = true) :
    ∃ out pad, encode input huffmanCodes = .ok out ∧ pad < 8 ∧
      bitsOfBytes out = codeStream huffmanCodes input ++ List.replicate pad false ∧
      out.length = ((codeStream huffmanCodes input).length + 7) / 8 ∧
      ((codeStream huffmanCodes input).length % 8 = 0 →
        pad = 0 ∧ 8 * out.length = (codeStream huffmanCodes input).length) :=
  encode_spec input huffmanCodes hcodes

/-- Instance of `encode_packing` on the input `aba` with the codeword `10` for every byte. -/
theorem encode_packing_witness :
    (∀ c ∈ ([97, 98, 97] : List Byte), ((fun _ => some [true, false]) c : Option Code).isSome
      = true) ∧
    ∃ out pad,
      encode [97, 98, 97] (fun _ => some [true, false]) = .ok out ∧ pad < 8 ∧
      bitsOfBytes out =
        codeStream (fun _ => some [true, false]) [97, 98, 97] ++ List.replicate pad false :=
  ⟨fun _ _ => rfl,
   match encode_packing [97, 98, 97] (fun _ => some [true, false]) (fun _ _ => rfl) with
   | ⟨out, pad, h1, h2, h3, _⟩ => ⟨out, pad, h1, h2, h3⟩⟩

/-! ## How many bytes the decoder produces -/

theorem isLeaf_false_of_leaves (t : MinHeapNode) (h : 2 ≤ t.leaves.length) :
    t.isLeaf = false := by
  cases t with
  | null => rfl
  | mk d f l r =>
    cases hleaf : (MinHeapNode.mk d f l r).isLeaf with
    | false => rfl
    | true =>
      simp only [MinHeapNode.isLeaf] at hleaf
      simp only [MinHeapNode.leaves, hleaf, if_true, List.length_singleton] at h
      omega

theorem height_pos (t : MinHeapNode) (h : t.isLeaf = false) (hn : t ≠ .null) :
    1 ≤ t.height := by
  cases t with
  | null => exact absurd rfl hn
  | mk d f l r =>
    simp only [MinHeapNode.isLeaf] at h
    simp only [MinHeapNode.height, h]
    simp

/-- One decoder step at an internal node of a tree never faults: it either emits a symbol
and returns to the root, or moves to an internal node that is strictly lower. -/
theorem decodeBit_full (root : MinHeapNode) (st : DecodeState) (b : Bool)
    (hfull : st.current.isFull = true) (hleaf : st.current.isLeaf = false) :
    ∃ st1, decodeBit root st b = .ok st1 ∧
      ((st1.decodedCount = st.decodedCount + 1 ∧ st1.current = root ∧
          st1.output.length = st.output.length + 1) ∨
        (st1.decodedCount = st.decodedCount ∧ st1.output = st.output ∧
          st1.current.isFull = true ∧ st1.current.isLeaf = false ∧
          st1.current.height + 1 ≤ st.current.height)) := by
  obtain ⟨current, decodedCount, output⟩ := st
  simp only at hfull hleaf
  cases current with
  | null => cases hfull
  | mk d f l r =>
    rcases isFull_cases d f l r hfull with ⟨rfl, rfl⟩ | ⟨hl, hr⟩
    · cases hleaf
    · have hh : (MinHeapNode.mk d f l r).height = max l.height r.height + 1 := by
        simp only [MinHeapNode.height, isNull_eq_false l (isFull_ne_null l hl), Bool.false_and]
        rfl
      have hchild : (if b then r else l).isFull = true ∧
          (if b then r else l).height ≤ max l.height r.height := by
        cases b
        · exact ⟨hl, le_max_left _ _⟩
        · exact ⟨hr, le_max_right _ _⟩
      unfold decodeBit
      simp only []
      cases hc : (if b = true then r else l) with
      | null =>
        rw [hc] at hchild
        cases hchild.1
      | mk d1 f1 l1 r1 =>
        rw [hc] at hchild
        simp only []
        by_cases hlf : (l1.isNull && r1.isNull) = true
        · rw [if_pos hlf]
          exact ⟨_, rfl, Or.inl ⟨rfl, rfl, by simp⟩⟩
        · rw [if_neg hlf]
          refine ⟨_, rfl, Or.inr ⟨rfl, rfl, hchild.1, ?_, ?_⟩⟩
          · simp only [MinHeapNode.isLeaf]
            simpa using hlf
          · show (MinHeapNode.mk d1 f1 l1 r1).height + 1 ≤ (MinHeapNode.mk d f l r).height
            rw [hh]
            have := hchild.2
            omega

/-- With enough bits left for the symbols still missing, the bit-level decoder reaches the
stored count without a fault. -/
theorem decodeBits_enough (root : MinHeapNode) (k : Int) (hfull : root.isFull = true)
    (hleaf : root.isLeaf = false) :
    ∀ (bs : List Bool) (st : DecodeState) (m : Nat), st.current.isFull = true →
      st.current.isLeaf = false → st.decodedCount + m = k →
      (m = 0 ∨ (m - 1) * root.height + st.current.height ≤ bs.length) →
      (decodeBits root k bs st).2 = none ∧ (decodeBits root k bs st).1.decodedCount = k := by
  intro bs
  induction bs with
  | nil =>
    intro st m hf hl hm hpot
    have hpos := height_pos st.current hl (isFull_ne_null _ hf)
    rcases hpot with h0 | hpot
    · subst h0
      exact ⟨rfl, by simp only [decodeBits]; omega⟩
    · simp only [List.length_nil] at hpot
      omega
  | cons b bs ih =>
    intro st m hf hl hm hpot
    simp only [decodeBits]
    by_cases hge : st.decodedCount ≥ k
    · rw [if_pos hge]
      exact ⟨rfl, by simp only []; omega⟩
    · rw [if_neg hge]
      have hm0 : m ≠ 0 := by
        intro h0
        subst h0
        simp at hm
        omega
      have hpot1 : (m - 1) * root.height + st.current.height ≤ bs.length + 1 := by
        rcases hpot with h0 | hpot
        · exact absurd h0 hm0
        · simpa using hpot
      obtain ⟨st1, hstep, hcase⟩ := decodeBit_full root st b hf hl
      rw [hstep]
      simp only []
      have hpos := height_pos st.current hl (isFull_ne_null _ hf)
      rcases hcase with ⟨hc, hcur, _⟩ | ⟨hc, _, hf1, hl1, hh1⟩
      · apply ih st1 (m - 1) (by rw [hcur]; exact hfull) (by rw [hcur]; exact hleaf)
        · rw [hc]
          have : ((m - 1 : Nat) : Int) = (m : Int) - 1 := by omega
          rw [this]
          omega
        · rw [hcur]
          by_cases h1 : m - 1 = 0
          · exact Or.inl h1
          · right
            obtain ⟨n, hn⟩ : ∃ n, m = n + 2 := ⟨m - 2, by omega⟩
            subst hn
            have e1 : (n + 2 - 1 - 1) * root.height + root.height = (n + 1) * root.height := by
              rw [Nat.succ_mul]
              rfl
            have e2 : (n + 2 - 1) * root.height = (n + 1) * root.height := rfl
            rw [e1]
            rw [e2] at hpot1
            omega
      · apply ih st1 m hf1 hl1 (by rw [hc]; exact hm)
        right
        omega

/-- Claim C8, counterexample. The claim as stated fails when the packed bytes run out: with
the two-leaf tree for `a` and `b`, stored count `1` and no packed byte, the decoder stops
where the input ends and has produced no byte at all. -/
theorem decode_short_input :
    2 ≤ (MinHeapNode.mk 36 2 (newNode 97 1) (newNode 98 1)).leaves.length ∧
    decode [] (.mk 36 2 (newNode 97 1) (newNode 98 1)) 1 =
      ({ current := .mk 36 2 (newNode 97 1) (newNode 98 1), decodedCount := 0, output := [] },
        none) ∧
    ((decode [] (.mk 36 2 (newNode 97 1) (newNode 98 1)) 1).1.output.length : Int) ≠ 1 := by
  refine ⟨by decide, rfl, by decide⟩

/-! ## The single-symbol and the empty input -/

/-- Claim C10, what the code does. With a single-leaf tree, any stored count `k ≥ 1` and at
least one packed byte, the decoder's first step replaces the cursor by the leaf's `NULL`
child and dereferences it: the run faults before any byte is written. -/
theorem decode_single_leaf_faults (B : Byte) (f : Nat) (k : Int) (buffer : Byte)
    (rest : List Byte) (hk : 1 ≤ k) :
    decode (buffer :: rest) (.mk B f .null .null) k =
      ({ current := .mk B f .null .null, decodedCount := 0, output := [] },
        some Fault.nullDeref) := by
  have hlt : (0 : Int) < k := by omega
  have hnge : ¬ ((0 : Int) ≥ k) := by omega
  unfold decode
  unfold decodeLoop
  simp only [if_pos hlt]
  have hbyte : decodeByte (.mk B f .null .null) k buffer 8
      { current := .mk B f .null .null, decodedCount := 0, output := [] } =
      ({ current := .mk B f .null .null, decodedCount := 0, output := [] },
        some Fault.nullDeref) := by
    unfold decodeByte
    simp only [if_neg hnge]
    have hbit : ∀ b : Bool, decodeBit (.mk B f .null .null)
        { current := .mk B f .null .null, decodedCount := 0, output := [] } b =
        .error Fault.nullDeref := by
      intro b
      cases b <;> rfl
    rw [hbit]
  rw [hbyte]

/-- Instance of `decode_single_leaf_faults` on the leaf for `a`, stored count 3 and the
packed byte `0x00`. -/
theorem decode_single_leaf_faults_witness :
    (1 : Int) ≤ 3 ∧
    decode [0x00] (.mk 97 3 .null .null) 3 =
      ({ current := .mk 97 3 .null .null, decodedCount := 0, output := [] },
        some Fault.nullDeref) :=
  ⟨by decide, decode_single_leaf_faults 97 3 3 0x00 [] (by decide)⟩

/-- The tree built for a one-entry symbol list is the single leaf. -/
theorem buildHuffmanTree_single (B : Byte) (f : Nat) :
    buildHuffmanTree [(B, f)] = .ok (newNode B f) := by
  obtain ⟨t, ht, hfull, hleaves⟩ := buildHuffmanTree_full [(B, f)] (by simp) (by norm_num)
  rw [ht]
  apply congrArg
  have hlen : t.leaves.length = 1 := by rw [hleaves.length_eq]; rfl
  cases t with
  | null => cases hfull
  | mk d fr l r =>
    rcases isFull_cases d fr l r hfull with ⟨rfl, rfl⟩ | ⟨hl, hr⟩
    · have hmem := hleaves.subset (List.mem_singleton_self (d, fr))
      simp only [List.map_cons, List.map_nil, List.mem_singleton, Prod.mk.injEq] at hmem
      obtain ⟨rfl, rfl⟩ := hmem
      rfl
    · have h1 := height_lt_leaves l hl
      have h2 := height_lt_leaves r hr
      rw [leaves_merge d fr l r (isFull_ne_null l hl), List.length_append] at hlen
      omega

theorem storeCodes_leaf (B : Byte) (f : Nat) (arr : List Bool) (tbl : CodeTable) :
    storeCodes (.mk B f .null .null) arr 0 tbl =
      .ok (arr, Function.update tbl B (some [])) := by
  unfold storeCodes
  simp [MinHeapNode.isNull, bind_ok]

theorem encodeLoop_empty_code (tbl : CodeTable) (B : Byte) (h : tbl B = some [])
    (w : BitWriter) : ∀ N : Nat, encodeLoop tbl (List.replicate N B) w = .ok w := by
  intro N
  induction N with
  | zero => rfl
  | succ N ih =>
    rw [List.replicate_succ]
    unfold encodeLoop
    simp only [h, List.foldl_nil]
    exact ih

/-- The table generated for a one-entry symbol list and the encoder's output with it. -/
theorem single_symbol_codes (B : Byte) (f N : Nat) :
    ∃ tbl, generateCodes [(B, f)] (fun _ => none) = .ok tbl ∧ tbl B = some [] ∧
      tbl B ≠ some [false] ∧ encode (List.replicate N B) tbl = .ok [] := by
  have hgen : generateCodes [(B, f)] (fun _ => none) =
      .ok (Function.update (fun _ => none) B (some [])) := by
    unfold generateCodes
    rw [buildHuffmanTree_single, bind_ok]
    unfold newNode
    rw [storeCodes_leaf, bind_ok]
  refine ⟨_, hgen, Function.update_same _ _ _, ?_, ?_⟩
  · rw [Function.update_same]
    intro h
    cases h
  · unfold encode
    rw [encodeLoop_empty_code _ B (Function.update_same _ _ _), bind_ok]
    rfl

/-- Claim C9, what the code does. For a symbol list with exactly one entry the generated table
gives the symbol the empty codeword (no edge is walked in a single-leaf tree and there is no
special case), so the encoder emits no bit and no byte for any number of occurrences. -/
theorem single_symbol_code_is_empty (B : Byte) (f N : Nat) :
    ∃ tbl, generateCodes [(B, f)] (fun _ => none) = .ok tbl ∧ tbl B = some [] ∧
      tbl B ≠ some [false] ∧ encode (List.replicate N B) tbl = .ok [] :=
  single_symbol_codes B f N

theorem collectSymbols_single (B : Byte) (N : Nat) (hN : 0 < N) :
    collectSymbols (fun b => if b = B then N else 0) (List.finRange 256) = [(B, N)] := by
  rw [collectSymbols_eq]
  have hfilter : ((List.finRange 256).filter fun i => decide (0 < if i = B then N else 0)) =
      (List.finRange 256).filter fun i => decide (i = B) := by
    apply List.filter_congr
    intro i _
    by_cases h : i = B
    · simp [h, hN]
    · simp [h]
  rw [hfilter, List.filter_eq,
    List.count_eq_one_of_mem (List.nodup_finRange 256) (List.mem_finRange B)]
  simp

theorem collectSymbols_zero (is : List Byte) : collectSymbols (fun _ => 0) is = [] := by
  rw [collectSymbols_eq]
  induction is with
  | nil => rfl
  | cons i rest _ => simp

/-- Compressing `N` copies of one byte (`1 ≤ N < 2 ^ 32`) and decompressing the result:
the header is right, no bit is packed, and the decoder outputs nothing. -/
theorem single_symbol_roundtrip (B : Byte) (N : Nat) (h1 : 1 ≤ N) (h2 : N < 2 ^ 32) :
    ∃ c, compressFile (List.replicate N B) = .ok c ∧ c.originalSize = N ∧
      c.freq = (fun b => if b = B then N else 0) ∧ c.packed = [] ∧
      decompressFile c = .ok [] := by
  have htally := tally_spec (List.replicate N B) (fun _ => 0) 0 (fun _ => by norm_num)
    (by rw [List.length_replicate]; omega)
  have hfreq : (fun b : Byte => ((fun _ => 0) b + (List.replicate N B).count b) % 2 ^ 32) =
      fun b => if b = B then N else 0 := by
    funext b
    rw [List.count_replicate]
    by_cases h : b = B
    · subst h
      simp only [beq_self_eq_true, if_true, Nat.zero_add]
      exact Nat.mod_eq_of_lt h2
    · have e : (B == b) = false := by
        rw [beq_eq_false_iff_ne]; exact fun hc => h hc.symm
      rw [e, if_neg h]
      rfl
  rw [hfreq, List.length_replicate] at htally
  obtain ⟨tbl, hgen, hB, _, henc⟩ := single_symbol_codes B N N
  refine ⟨{ originalSize := 0 + N, freq := fun b => if b = B then N else 0, packed := [] },
    ?_, by simp, rfl, rfl, ?_⟩
  · unfold compressFile
    rw [htally, bind_ok]
    simp only []
    rw [collectSymbols_single B N h1, hgen, bind_ok, henc, bind_ok]
  · unfold decompressFile
    simp only []
    rw [collectSymbols_single B N h1, buildHuffmanTree_single, bind_ok]
    rfl

/-- Claim C1, failing input. Round trip fails on a single-byte input: compressing the one-byte
input `a` succeeds, and decompressing the container that was written yields the empty
output, not `a`. -/
theorem roundtrip_single_byte :
    (compressFile [97]).bind decompressFile = .ok [] ∧ ([] : List Byte) ≠ [97] := by
  obtain ⟨c, hc, _, _, _, hd⟩ := single_symbol_roundtrip 97 1 (by norm_num) (by norm_num)
  have : List.replicate 1 (97 : Byte) = [97] := rfl
  rw [this] at hc
  refine ⟨?_, by decide⟩
  rw [hc, bind_ok, hd]

/-- Claim C2, what the code does. Degenerate single-symbol input, `N` copies of `B` with
`1 ≤ N < 2 ^ 32`: `compressFile` writes a header with length `N` and a frequency table
whose only non-zero entry is `N` at index `B`, followed by no packed byte; `decompressFile`
on that container outputs nothing instead of `N` copies of `B`. -/
theorem single_symbol_input (B : Byte) (N : Nat) (h1 : 1 ≤ N) (h2 : N < 2 ^ 32) :
    ∃ c, compressFile (List.replicate N B) = .ok c ∧ c.originalSize = N ∧
      c.freq B = N ∧ (∀ b, b ≠ B → c.freq b = 0) ∧ c.packed = [] ∧
      decompressFile c = .ok [] ∧ ([] : List Byte) ≠ List.replicate N B := by
  obtain ⟨c, hc, hs, hf, hp, hd⟩ := single_symbol_roundtrip B N h1 h2
  refine ⟨c, hc, hs, ?_, ?_, hp, hd, ?_⟩
  · rw [hf]
    simp
  · intro b hb
    rw [hf]
    simp [hb]
  · intro h
    have := congrArg List.length h
    rw [List.length_replicate, List.length_nil] at this
    omega

/-- Instance of `single_symbol_input` on the input `aaa`. -/
theorem single_symbol_input_witness :
    1 ≤ 3 ∧ 3 < 2 ^ 32 ∧
    ∃ c, compressFile (List.replicate 3 97) = .ok c ∧ c.originalSize = (3 : Nat) ∧
      c.freq 97 = 3 ∧ (∀ b, b ≠ 97 → c.freq b = 0) ∧ c.packed = [] ∧
      decompressFile c = .ok [] ∧ ([] : List Byte) ≠ List.replicate 3 97 :=
  ⟨by decide, by decide, single_symbol_input 97 3 (by decide) (by decide)⟩

/-- Claim C3, what the code does. Empty input: `compressFile` reaches `buildHuffmanTree` with
zero symbols, whose loop calls `extractMin` on the empty queue and reads `array[0]` of a
zero-cell allocation, so no container is produced; and `decompressFile` on the container a
correct run would have written (length 0, all counts zero, no packed byte) faults at the
same place. -/
theorem empty_input_faults :
    compressFile [] = .error Fault.outOfBounds ∧
    decompressFile { originalSize := 0, freq := fun _ => 0, packed := [] } =
      .error Fault.outOfBounds ∧
    buildHuffmanTree [] = .error Fault.outOfBounds ∧
    extractMin { size := 0, capacity := 0, array := [] } = .error Fault.outOfBounds := by
  refine ⟨?_, ?_, rfl, rfl⟩
  · unfold compressFile
    have : tally [] (fun _ => 0, 0) = .ok (fun _ => 0, 0) := rfl
    rw [this, bind_ok]
    simp only []
    rw [collectSymbols_zero]
    rfl
  · unfold decompressFile
    simp only []
    rw [collectSymbols_zero]
    rfl

theorem applyCodes_not_mem (entries : List (Byte × Code)) :
    ∀ (tbl : CodeTable) (a : Byte), a ∉ entries.map Prod.fst →
      applyCodes tbl entries a = tbl a := by
  induction entries with
  | nil => intro tbl a _; rfl
  | cons e rest ih =>
    intro tbl a ha
    rw [List.map_cons, List.mem_cons, not_or] at ha
    have hstep : applyCodes tbl (e :: rest) =
        applyCodes (Function.update tbl e.1 (some e.2)) rest := rfl
    rw [hstep, ih _ a ha.2, Function.update_noteq ha.1]

theorem applyCodes_mem (entries : List (Byte × Code)) :
    ∀ (tbl : CodeTable) (a : Byte) (c : Code), (entries.map Prod.fst).Nodup →
      (a, c) ∈ entries → applyCodes tbl entries a = some c := by
  induction entries with
  | nil => intro tbl a c _ h; cases h
  | cons e rest ih =>
    intro tbl a c hnd h
    rw [List.map_cons, List.nodup_cons] at hnd
    have hstep : applyCodes tbl (e :: rest) =
        applyCodes (Function.update tbl e.1 (some e.2)) rest := rfl
    rw [hstep]
    rcases List.mem_cons.mp h with rfl | hrest
    · rw [applyCodes_not_mem rest _ _ hnd.1]
      exact Function.update_same _ _ _
    · exact ih _ a c hnd.2 hrest

theorem codes_fst (t : MinHeapNode) : t.codes.map Prod.fst = t.leaves.map Prod.fst := by
  induction t with
  | null => rfl
  | mk d f l r ihl ihr =>
    simp only [MinHeapNode.codes, MinHeapNode.leaves]
    split
    · rfl
    · rw [List.map_append, List.map_append, List.map_map, List.map_map, ← ihl, ← ihr]
      rfl

/-- The table generated for a symbol list with unique byte values holds, for each listed
symbol, the path of its leaf, and nothing for any other byte. -/
theorem generateCodes_table (symbols : List (Byte × Nat)) (hne : symbols ≠ [])
    (hnodup : (symbols.map Prod.fst).Nodup) :
    ∃ t tbl, buildHuffmanTree symbols = .ok t ∧ t.isFull = true ∧
      t.leaves.Perm (symbols.map fun s => (s.1, s.2 % 2 ^ 32)) ∧
      generateCodes symbols (fun _ => none) = .ok tbl ∧
      (∀ a c, tbl a = some c ↔ (a, c) ∈ t.codes) ∧
      (∀ a, tbl a = none ↔ a ∉ symbols.map Prod.fst) := by
  have hlen : symbols.length ≤ 256 := by
    have := hnodup.length_le_card
    rw [List.length_map, Fintype.card_fin] at this
    exact this
  obtain ⟨t, ht, hfull, hleaves, hgen⟩ := generateCodes_spec symbols hne hlen
  have hfst : (t.codes.map Prod.fst).Perm (symbols.map Prod.fst) := by
    rw [codes_fst]
    have := hleaves.map Prod.fst
    rw [List.map_map] at this
    exact this
  have hnd : (t.codes.map Prod.fst).Nodup := hfst.nodup_iff.mpr hnodup
  have hiff : ∀ a c, applyCodes (fun _ => none) t.codes a = some c ↔ (a, c) ∈ t.codes := by
    intro a c
    constructor
    · intro h
      rcases applyCodes_some _ _ a c h with hm | hc
      · exact hm
      · cases hc
    · exact applyCodes_mem _ _ a c hnd
  refine ⟨t, _, ht, hfull, hleaves, hgen, hiff, ?_⟩
  intro a
  constructor
  · intro hnone hmem
    have hmem2 : a ∈ t.codes.map Prod.fst := hfst.symm.subset hmem
    rw [List.mem_map] at hmem2
    obtain ⟨e, he, rfl⟩ := hmem2
    have := (hiff e.1 e.2).mpr he
    rw [hnone] at this
    cases this
  · intro hnot
    exact applyCodes_not_mem _ _ a (fun h => hnot (hfst.subset h))

/-- Claim C4. Prefix-free codes.  For every symbol list that is non-empty and has unique byte
values (whatever the frequencies, so in particular when they are all positive)
`generateCodes`, started on the all-`NULL` table as in `compressFile`, returns a table that
has a codeword for every listed symbol and in which no symbol's codeword is a prefix of a
different symbol's codeword. -/
theorem generateCodes_prefix_free (symbols : List (Byte × Nat)) (hne : symbols ≠ [])
    (hnodup : (symbols.map Prod.fst).Nodup) :
    ∃ tbl, generateCodes symbols (fun _ => none) = .ok tbl ∧
      (∀ s ∈ symbols, (tbl s.1).isSome = true) ∧
      ∀ (a b : Byte) (ca cb : Code), a ≠ b → tbl a = some ca → tbl b = some cb →
        ¬ ca <+: cb := by
  obtain ⟨t, tbl, _, _, _, hgen, hiff, hnone⟩ := generateCodes_table symbols hne hnodup
  refine ⟨tbl, hgen, ?_, ?_⟩
  · intro s hs
    cases h : tbl s.1 with
    | some c => rfl
    | none => exact absurd (List.mem_map.mpr ⟨s, hs, rfl⟩) ((hnone s.1).mp h)
  · intro a b ca cb hab ha hb hpre
    have := codes_prefix_eq t (a, ca) (b, cb) ((hiff a ca).mp ha) ((hiff b cb).mp hb) hpre
    exact hab (congrArg Prod.fst this)

/-- Instance of `generateCodes_prefix_free` on the symbol list `a:3, b:1, c:2`. -/
theorem generateCodes_prefix_free_witness :
    ([(97, 3), (98, 1), (99, 2)] : List (Byte × Nat)) ≠ [] ∧
    (([(97, 3), (98, 1), (99, 2)] : List (Byte × Nat)).map Prod.fst).Nodup ∧
    ∃ tbl, generateCodes [(97, 3), (98, 1), (99, 2)] (fun _ => none) = .ok tbl ∧
      (∀ s ∈ ([(97, 3), (98, 1), (99, 2)] : List (Byte × Nat)), (tbl s.1).isSome = true) ∧
      ∀ (a b : Byte) (ca cb : Code), a ≠ b → tbl a = some ca → tbl b = some cb →
        ¬ ca <+: cb :=
  ⟨by decide, by decide,
   generateCodes_prefix_free [(97, 3), (98, 1), (99, 2)] (by decide) (by decide)⟩

/-! ## The decoder inverts the code table of its tree -/

theorem decodeBits_cons (root : MinHeapNode) (k : Int) (b : Bool) (bs : List Bool)
    (st : DecodeState) :
    decodeBits root k (b :: bs) st =
      if st.decodedCount ≥ k then (st, none)
      else
        match decodeBit root st b with
        | .ok st1 => decodeBits root k bs st1
        | .error f => (st, some f) := rfl

/-- Reading the path of a leaf from an internal node of a tree emits that leaf's symbol and
puts the cursor back on the root. -/
theorem decodeBits_code (root : MinHeapNode) (k : Int) :
    ∀ (u : MinHeapNode), u.isFull = true → u.isLeaf = false →
      ∀ (a : Byte) (c : Code), (a, c) ∈ u.codes →
      ∀ (rest : List Bool) (st : DecodeState), st.current = u → st.decodedCount < k →
        decodeBits root k (c ++ rest) st =
          decodeBits root k rest
            { current := root, decodedCount := st.decodedCount + 1,
              output := st.output ++ [a] } := by
  intro u
  induction u with
  | null => intro h; cases h
  | mk d f l r ihl ihr =>
    intro hfull hleaf a c hmem rest st hcur hlt
    rcases isFull_cases d f l r hfull with ⟨rfl, rfl⟩ | ⟨hl, hr⟩
    · cases hleaf
    · have hln := isNull_eq_false l (isFull_ne_null l hl)
      have hcodes : (MinHeapNode.mk d f l r).codes =
          (l.codes.map fun e => (e.1, false :: e.2)) ++
            (r.codes.map fun e => (e.1, true :: e.2)) := by
        simp only [MinHeapNode.codes, hln, Bool.false_and]
        rfl
      rw [hcodes, List.mem_append, List.mem_map, List.mem_map] at hmem
      have hnge : ¬ (st.decodedCount ≥ k) := by omega
      have key : ∀ (b : Bool) (v : MinHeapNode) (c1 : Code), v.isFull = true →
          (if b = true then r else l) = v → (a, c1) ∈ v.codes →
          (v.isLeaf = false → ∀ (rest : List Bool) (st : DecodeState), st.current = v →
            st.decodedCount < k →
            decodeBits root k (c1 ++ rest) st =
              decodeBits root k rest
                { current := root, decodedCount := st.decodedCount + 1,
                  output := st.output ++ [a] }) →
          decodeBits root k ((b :: c1) ++ rest) st =
            decodeBits root k rest
              { current := root, decodedCount := st.decodedCount + 1,
                output := st.output ++ [a] } := by
        intro b v c1 hv hsel hc1 hrec
        rw [List.cons_append, decodeBits_cons, if_neg hnge]
        cases v with
        | null => cases hv
        | mk d1 f1 l1 r1 =>
          have hstep : decodeBit root st b =
              if (l1.isNull && r1.isNull) = true then
                .ok { current := root, decodedCount := st.decodedCount + 1,
                      output := st.output ++ [d1] }
              else .ok { st with current := .mk d1 f1 l1 r1 } := by
            unfold decodeBit
            rw [hcur]
            simp only []
            rw [hsel]
          rw [hstep]
          by_cases hlf : (l1.isNull && r1.isNull) = true
          · rw [if_pos hlf]
            simp only [MinHeapNode.codes, hlf, if_true, List.mem_singleton, Prod.mk.injEq] at hc1
            obtain ⟨rfl, rfl⟩ := hc1
            simp only [List.nil_append]
          · rw [if_neg hlf]
            simp only []
            have hvl : (MinHeapNode.mk d1 f1 l1 r1).isLeaf = false := by
              simp only [MinHeapNode.isLeaf]
              simpa using hlf
            exact hrec hvl rest { st with current := .mk d1 f1 l1 r1 } rfl hlt
      rcases hmem with ⟨e, he, heq⟩ | ⟨e, he, heq⟩
      · injection heq with h1 h2
        subst h1
        subst h2
        exact key false l e.2 hl rfl he (fun hvl => ihl hl hvl e.1 e.2 he)
      · injection heq with h1 h2
        subst h1
        subst h2
        exact key true r e.2 hr rfl he (fun hvl => ihr hr hvl e.1 e.2 he)

/-- Decoding the codewords of `S` followed by any further bits, with stored count
`decodedCount + S.length`, appends exactly `S` to the output. -/
theorem decodeBits_codeStream (root : MinHeapNode) (tbl : CodeTable)
    (hfull : root.isFull = true) (hleaf : root.isLeaf = false)
    (htbl : ∀ a c, tbl a = some c → (a, c) ∈ root.codes) :
    ∀ (S : List Byte) (tail : List Bool) (st : DecodeState) (k : Int),
      (∀ s ∈ S, (tbl s).isSome = true) → st.current = root →
      st.decodedCount + S.length = k →
      decodeBits root k (codeStream tbl S ++ tail) st =
        ({ current := root, decodedCount := k, output := st.output ++ S }, none) := by
  intro S
  induction S with
  | nil =>
    intro tail st k _ hcur hk
    rw [decodeBits_done root k _ st (by simp at hk; omega)]
    obtain ⟨current, decodedCount, output⟩ := st
    simp only at hcur hk
    subst hcur
    simp at hk
    subst hk
    simp
  | cons s S ih =>
    intro tail st k hsome hcur hk
    rw [List.length_cons] at hk
    push_cast at hk
    cases hc : tbl s with
    | none =>
      have := hsome s (List.mem_cons_self _ _)
      rw [hc] at this
      cases this
    | some c =>
      have hstream : codeStream tbl (s :: S) = c ++ codeStream tbl S := by
        simp [codeStream, hc]
      rw [hstream, List.append_assoc,
        decodeBits_code root k root hfull hleaf s c (htbl s c hc) _ st hcur (by omega),
        ih tail _ k (fun x hx => hsome x (List.mem_cons_of_mem _ hx)) rfl
          (by simp only []; omega)]
      simp

theorem two_le_length_of_ne {α : Type} (l : List α) (x y : α) (hx : x ∈ l) (hy : y ∈ l)
    (hxy : x ≠ y) : 2 ≤ l.length := by
  cases l with
  | nil => cases hx
  | cons a rest =>
    cases rest with
    | nil =>
      rw [List.mem_singleton] at hx hy
      exact absurd (hx.trans hy.symm) hxy
    | cons b rest2 =>
      simp only [List.length_cons]
      omega

/-- The round trip on inputs that are not degenerate: for an input of fewer than `2 ^ 32`
bytes in which at least two different byte values occur, `compressFile` succeeds and
`decompressFile` returns the input from the container it wrote. -/
theorem compress_decompress_two_symbols (S : List Byte) (hlen : S.length < 2 ^ 32)
    (a b : Byte) (ha : a ∈ S) (hb : b ∈ S) (hab : a ≠ b) :
    ∃ c, compressFile S = .ok c ∧ c.originalSize = S.length ∧
      (∀ x, c.freq x = S.count x) ∧ decompressFile c = .ok S := by
  have htally := tally_spec S (fun _ => 0) 0 (fun _ => by norm_num) (by omega)
  obtain ⟨_, hnodup, _, hne, hpos, hall⟩ := collectSymbols_input S hlen
  have hSne : S ≠ [] := List.ne_nil_of_mem ha
  obtain ⟨t, tbl, hbuild, hfull, hleaves, hgen, hiff, hnone⟩ :=
    generateCodes_table _ (hne hSne) hnodup
  have hmem : ∀ s ∈ S, s ∈ (collectSymbols (fun b => (0 + S.count b) % 2 ^ 32)
      (List.finRange 256)).map Prod.fst := by
    intro s hs
    exact List.mem_map.mpr ⟨_, hall s (List.count_pos_iff.mpr hs), rfl⟩
  have hsome : ∀ s ∈ S, (tbl s).isSome = true := by
    intro s hs
    cases h : tbl s with
    | some c => rfl
    | none => exact absurd (hmem s hs) ((hnone s).mp h)
  have hleaf : t.isLeaf = false := by
    apply isLeaf_false_of_leaves
    rw [hleaves.length_eq, List.length_map]
    have h2 := two_le_length_of_ne _ a b (hmem a ha) (hmem b hb) hab
    rw [List.length_map] at h2
    exact h2
  obtain ⟨out, pad, henc, _, hbits, _, _⟩ := encode_spec S tbl hsome
  have hfreq : ∀ x, (0 + S.count x) % 2 ^ 32 = S.count x := by
    intro x
    have := List.count_le_length x S
    rw [Nat.zero_add, Nat.mod_eq_of_lt (by omega)]
  refine ⟨{ originalSize := 0 + S.length,
            freq := fun b => ((fun _ => 0) b + S.count b) % 2 ^ 32, packed := out },
    ?_, by simp, hfreq, ?_⟩
  · unfold compressFile
    rw [htally, bind_ok]
    simp only []
    rw [hgen, bind_ok, henc, bind_ok]
  · unfold decompressFile
    simp only []
    rw [hbuild, bind_ok]
    unfold decode
    rw [decodeLoop_eq_decodeBits, hbits,
      decodeBits_codeStream t tbl hfull hleaf (fun x c h => (hiff x c).mp h) S _ _ _ hsome rfl
        (by simp)]
    simp

/-! ## The empty symbol list -/

/-- Claim C11, what the code does. `buildHuffmanTree` called with an empty symbol list does
not report invalid input: `buildMinHeap` leaves the empty queue as it is, the loop test
`!isSizeOne` holds for size `0`, and the first statement of the loop body is `extractMin` on
the empty queue, which reads `array[0]` of a zero-cell allocation.  The fault is reached for
every loop budget, so it is not an artefact of the fuel. -/
theorem buildHuffmanTree_empty_list :
    buildMinHeap { size := 0, capacity := 0, array := [] } =
      .ok { size := 0, capacity := 0, array := [] } ∧
    isSizeOne { size := 0, capacity := 0, array := [] } = false ∧
    extractMin { size := 0, capacity := 0, array := [] } = .error Fault.outOfBounds ∧
    (∀ fuel, buildHuffmanLoop (fuel + 1) { size := 0, capacity := 0, array := [] } =
      .error Fault.outOfBounds) ∧
    buildHuffmanTree [] = .error Fault.outOfBounds := by
  exact ⟨rfl, rfl, rfl, fun _ => rfl, rfl⟩

/-! ## Codewords are root-to-leaf paths -/

theorem descend_null (path : List Bool) : MinHeapNode.null.descend path = .null := by
  cases path <;> rfl

/-- In a tree, the entries of `codes` are exactly the pairs of a leaf symbol and the path
that leads from the root to that leaf. -/
theorem mem_codes_iff_descend :
    ∀ (t : MinHeapNode), t.isFull = true → ∀ (a : Byte) (c : Code),
      (a, c) ∈ t.codes ↔ ∃ f, t.descend c = .mk a f .null .null := by
  intro t
  induction t with
  | null => intro h; cases h
  | mk d f l r ihl ihr =>
    intro hfull a c
    rcases isFull_cases d f l r hfull with ⟨rfl, rfl⟩ | ⟨hl, hr⟩
    · simp only [MinHeapNode.codes, MinHeapNode.isNull, Bool.and_self, if_true,
        List.mem_singleton, Prod.mk.injEq]
      constructor
      · rintro ⟨rfl, rfl⟩
        exact ⟨f, rfl⟩
      · rintro ⟨f1, h⟩
        cases c with
        | nil =>
          simp only [MinHeapNode.descend] at h
          injection h with h1
          exact ⟨h1.symm, rfl⟩
        | cons b c =>
          simp only [MinHeapNode.descend] at h
          cases b
          · simp only [Bool.false_eq_true, if_false, descend_null] at h
            cases h
          · simp only [if_true, descend_null] at h
            cases h
    · have hln := isNull_eq_false l (isFull_ne_null l hl)
      have hrn := isNull_eq_false r (isFull_ne_null r hr)
      have hcodes : (MinHeapNode.mk d f l r).codes =
          (l.codes.map fun e => (e.1, false :: e.2)) ++
            (r.codes.map fun e => (e.1, true :: e.2)) := by
        simp only [MinHeapNode.codes, hln, Bool.false_and]
        rfl
      rw [hcodes, List.mem_append, List.mem_map, List.mem_map]
      cases c with
      | nil =>
        constructor
        · rintro (⟨e, _, he⟩ | ⟨e, _, he⟩) <;> · injection he with _ h2; cases h2
        · rintro ⟨f1, h⟩
          simp only [MinHeapNode.descend] at h
          injection h with _ _ h3 _
          rw [h3] at hln
          cases hln
      | cons b c =>
        cases b
        · simp only [MinHeapNode.descend, Bool.false_eq_true, if_false]
          rw [← ihl hl a c]
          constructor
          · rintro (⟨e, he, heq⟩ | ⟨e, _, heq⟩)
            · injection heq with h1 h2
              injection h2 with _ h3
              subst h1
              subst h3
              exact he
            · injection heq with _ h2
              injection h2 with h3 _
              cases h3
          · intro h
            exact Or.inl ⟨(a, c), h, rfl⟩
        · simp only [MinHeapNode.descend, if_true]
          rw [← ihr hr a c]
          constructor
          · rintro (⟨e, _, heq⟩ | ⟨e, he, heq⟩)
            · injection heq with _ h2
              injection h2 with h3 _
              cases h3
            · injection heq with h1 h2
              injection h2 with _ h3
              subst h1
              subst h3
              exact he
          · intro h
            exact Or.inr ⟨(a, c), h, rfl⟩

/-- Claim C13. Codewords are root-to-leaf paths.  For every symbol list that is non-empty
and has unique byte values (whatever the frequencies, so in particular for every valid
symbol list, whose frequencies are positive) the tree is built and `generateCodes`, which
runs `storeCodes` on it from the all-`NULL` table, returns a table that has an entry for
exactly the symbols at the leaves of the tree, which are the listed symbols, every other
byte keeping its `NULL` entry; and the entry of a symbol is `c` exactly when following `c`
from the root, `0` (`false`) to the left child and `1` (`true`) to the right child, ends at
the leaf that holds the symbol. -/
theorem codes_are_paths (symbols : List (Byte × Nat)) (hne : symbols ≠ [])
    (hnodup : (symbols.map Prod.fst).Nodup) :
    ∃ t tbl, buildHuffmanTree symbols = .ok t ∧
      generateCodes symbols (fun _ => none) = .ok tbl ∧
      (∀ a, (tbl a).isSome = true ↔ a ∈ t.leaves.map Prod.fst) ∧
      (∀ a, a ∈ t.leaves.map Prod.fst ↔ a ∈ symbols.map Prod.fst) ∧
      (∀ a, a ∉ symbols.map Prod.fst → tbl a = none) ∧
      (∀ a c, tbl a = some c ↔ ∃ f, t.descend c = .mk a f .null .null) := by
  obtain ⟨t, tbl, hbuild, hfull, hleaves, hgen, hiff, hnone⟩ :=
    generateCodes_table symbols hne hnodup
  have hfst : ∀ a, a ∈ t.leaves.map Prod.fst ↔ a ∈ symbols.map Prod.fst := by
    intro a
    have hp := hleaves.map Prod.fst
    rw [List.map_map] at hp
    exact hp.mem_iff
  refine ⟨t, tbl, hbuild, hgen, ?_, hfst, fun a ha => (hnone a).mpr ha, ?_⟩
  · intro a
    rw [hfst]
    constructor
    · intro hs
      by_contra hnot
      rw [(hnone a).mpr hnot] at hs
      cases hs
    · intro hmem
      cases h : tbl a with
      | some c => rfl
      | none => exact absurd hmem ((hnone a).mp h)
  · intro a c
    rw [hiff, mem_codes_iff_descend t hfull]

/-- Instance of `codes_are_paths` on the symbol list `a:3, b:1, c:2`. -/
theorem codes_are_paths_witness :
    ([(97, 3), (98, 1), (99, 2)] : List (Byte × Nat)) ≠ [] ∧
    (([(97, 3), (98, 1), (99, 2)] : List (Byte × Nat)).map Prod.fst).Nodup ∧
    ∃ t tbl, buildHuffmanTree [(97, 3), (98, 1), (99, 2)] = .ok t ∧
      generateCodes [(97, 3), (98, 1), (99, 2)] (fun _ => none) = .ok tbl ∧
      (∀ a c, tbl a = some c ↔ ∃ f, t.descend c = .mk a f .null .null) :=
  ⟨by decide, by decide,
   match codes_are_paths [(97, 3), (98, 1), (99, 2)] (by decide) (by decide) with
   | ⟨t, tbl, h1, h2, _, _, _, h6⟩ => ⟨t, tbl, h1, h2, h6⟩⟩

/-! ## Shape of the tree and length of the codewords -/

theorem internalCount_succ (t : MinHeapNode) (h : t.isFull = true) :
    t.internalCount + 1 = t.leaves.length := by
  induction t with
  | null => cases h
  | mk d f l r ihl ihr =>
    rcases isFull_cases d f l r h with ⟨rfl, rfl⟩ | ⟨hl, hr⟩
    · rfl
    · have hln := isNull_eq_false l (isFull_ne_null l hl)
      have h1 := ihl hl
      have h2 := ihr hr
      rw [leaves_merge d f l r (isFull_ne_null l hl), List.length_append]
      simp only [MinHeapNode.internalCount, hln, Bool.false_and, Bool.false_eq_true, if_false]
      omega

/-- Claim C16. Tree shape.  For every valid symbol list of `n` entries (`1 ≤ n ≤ 256` follows
from non-empty and unique byte values; every frequency positive and, being an `unsigned`,
below `2 ^ 32`) `buildHuffmanTree` returns a tree with exactly `n` leaves whose
`(symbol, frequency)` pairs are the input entries up to order, one leaf per symbol; every
node of it is a leaf or has two children, and it has exactly `n - 1` internal nodes. -/
theorem tree_shape (symbols : List (Byte × Nat)) (hne : symbols ≠ [])
    (hnodup : (symbols.map Prod.fst).Nodup) (hpos : ∀ s ∈ symbols, 0 < s.2)
    (hu32 : ∀ s ∈ symbols, s.2 < 2 ^ 32) :
    ∃ t, buildHuffmanTree symbols = .ok t ∧
      1 ≤ symbols.length ∧ symbols.length ≤ 256 ∧
      t.leaves.length = symbols.length ∧ t.leaves.Perm symbols ∧
      (t.leaves.map Prod.fst).Nodup ∧ (∀ e ∈ t.leaves, 0 < e.2) ∧
      t.isFull = true ∧ t.internalCount + 1 = symbols.length := by
  have hlen : symbols.length ≤ 256 := by
    have := hnodup.length_le_card
    rw [List.length_map, Fintype.card_fin] at this
    exact this
  obtain ⟨t, ht, hfull, hleaves⟩ := buildHuffmanTree_full symbols hne
    (lt_of_le_of_lt (Nat.add_le_add_right hlen 1) (by norm_num))
  have hid : (symbols.map fun s => (s.1, s.2 % 2 ^ 32)) = symbols := by
    conv_rhs => rw [← List.map_id symbols]
    apply List.map_congr_left
    intro s hs
    rw [Nat.mod_eq_of_lt (hu32 s hs)]
    rfl
  rw [hid] at hleaves
  refine ⟨t, ht, List.length_pos.mpr hne, hlen, hleaves.length_eq, hleaves,
    (hleaves.map Prod.fst).nodup_iff.mpr hnodup, fun e he => hpos e (hleaves.subset he),
    hfull, ?_⟩
  rw [internalCount_succ t hfull, hleaves.length_eq]

/-- Instance of `tree_shape` on the symbol list `a:3, b:1, c:2`. -/
theorem tree_shape_witness :
    ([(97, 3), (98, 1), (99, 2)] : List (Byte × Nat)) ≠ [] ∧
    (([(97, 3), (98, 1), (99, 2)] : List (Byte × Nat)).map Prod.fst).Nodup ∧
    ∃ t, buildHuffmanTree [(97, 3), (98, 1), (99, 2)] = .ok t ∧
      t.leaves.Perm [(97, 3), (98, 1), (99, 2)] ∧ t.isFull = true ∧
      t.internalCount + 1 = 3 :=
  ⟨by decide, by decide,
   match tree_shape [(97, 3), (98, 1), (99, 2)] (by decide) (by decide) (by decide)
     (by decide) with
   | ⟨t, h1, _, _, _, h4, _, _, h7, h8⟩ => ⟨t, h1, h4, h7, h8⟩⟩

theorem code_length_le_height :
    ∀ (t : MinHeapNode) (e : Byte × Code), e ∈ t.codes → e.2.length ≤ t.height := by
  intro t
  induction t with
  | null => intro e he; cases he
  | mk d f l r ihl ihr =>
    intro e he
    simp only [MinHeapNode.codes] at he
    simp only [MinHeapNode.height]
    split at he
    · rename_i hleaf
      rw [List.mem_singleton] at he
      rw [he]
      exact Nat.zero_le _
    · rename_i hleaf
      rw [if_neg hleaf]
      rw [List.mem_append, List.mem_map, List.mem_map] at he
      rcases he with ⟨x, hx, rfl⟩ | ⟨x, hx, rfl⟩
      · have := ihl x hx
        have := le_max_left l.height r.height
        simp only [List.length_cons]
        omega
      · have := ihr x hx
        have := le_max_right l.height r.height
        simp only [List.length_cons]
        omega

theorem code_length_pos (t : MinHeapNode) (hleaf : t.isLeaf = false) (e : Byte × Code)
    (he : e ∈ t.codes) : 1 ≤ e.2.length := by
  cases t with
  | null => cases he
  | mk d f l r =>
    simp only [MinHeapNode.isLeaf] at hleaf
    simp only [MinHeapNode.codes, hleaf, Bool.false_eq_true, if_false, List.mem_append,
      List.mem_map] at he
    rcases he with ⟨x, _, rfl⟩ | ⟨x, _, rfl⟩ <;> simp

/-- Claim C19. Codeword length range.  For every symbol list with unique byte values and `n`
entries, `2 ≤ n ≤ 256` (the upper bound follows from the unique byte values; the
frequencies play no role, so this covers every valid symbol list), every generated
codeword has at least 1 and at most `n - 1` characters, hence at most 255; the tree has
height at most `n - 1`, and `storeCodes` run on it succeeds with any path buffer of only
`n - 1` cells, so it never writes `arr` at an index from `n - 1` on, in particular never at
an index `≥ MAX_TREE_HT`. -/
theorem code_length_range (symbols : List (Byte × Nat)) (h2 : 2 ≤ symbols.length)
    (hnodup : (symbols.map Prod.fst).Nodup) :
    symbols.length ≤ 256 ∧
    ∃ t tbl, buildHuffmanTree symbols = .ok t ∧
      generateCodes symbols (fun _ => none) = .ok tbl ∧
      (∀ a c, tbl a = some c → 1 ≤ c.length ∧ c.length ≤ symbols.length - 1 ∧
        c.length ≤ 255) ∧
      t.height ≤ symbols.length - 1 ∧
      (∀ (arr : List Bool) (huffmanCodes : CodeTable), arr.length = symbols.length - 1 →
        ∃ r, storeCodes t arr 0 huffmanCodes = .ok r) := by
  have hne : symbols ≠ [] := by
    intro h
    rw [h] at h2
    simp at h2
  have hlen : symbols.length ≤ 256 := by
    have := hnodup.length_le_card
    rw [List.length_map, Fintype.card_fin] at this
    exact this
  obtain ⟨t, tbl, hbuild, hfull, hleaves, hgen, hiff, _⟩ :=
    generateCodes_table symbols hne hnodup
  have hh := height_lt_leaves t hfull
  rw [hleaves.length_eq, List.length_map] at hh
  have hleaf : t.isLeaf = false := by
    apply isLeaf_false_of_leaves
    rw [hleaves.length_eq, List.length_map]
    exact h2
  refine ⟨hlen, t, tbl, hbuild, hgen, ?_, by omega, ?_⟩
  · intro a c hc
    have hmem := (hiff a c).mp hc
    have h1 := code_length_pos t hleaf (a, c) hmem
    have h3 := code_length_le_height t (a, c) hmem
    simp only at h1 h3
    omega
  · intro arr huffmanCodes harr
    obtain ⟨arr1, hs, _, _⟩ := storeCodes_spec t hfull arr 0 huffmanCodes (by omega)
    exact ⟨_, hs⟩

/-- Instance of `code_length_range` on the symbol list `a:3, b:1, c:2`. -/
theorem code_length_range_witness :
    2 ≤ ([(97, 3), (98, 1), (99, 2)] : List (Byte × Nat)).length ∧
    (([(97, 3), (98, 1), (99, 2)] : List (Byte × Nat)).map Prod.fst).Nodup ∧
    ∃ t tbl, buildHuffmanTree [(97, 3), (98, 1), (99, 2)] = .ok t ∧
      generateCodes [(97, 3), (98, 1), (99, 2)] (fun _ => none) = .ok tbl ∧
      (∀ a c, tbl a = some c → 1 ≤ c.length ∧ c.length ≤ 3 - 1 ∧ c.length ≤ 255) :=
  ⟨by decide, by decide,
   match (code_length_range [(97, 3), (98, 1), (99, 2)] (by decide) (by decide)).2 with
   | ⟨t, tbl, h1, h2, h3, _, _⟩ => ⟨t, tbl, h1, h2, h3⟩⟩

/-! ## Round trip for inputs with at least two byte values -/

/-- Claim C15. Round trip for non-degenerate input.  For every input `S` of fewer than
`2 ^ 32` bytes in which at least two distinct byte values occur, `compressFile` writes a
container whose length field is the length of `S`, whose frequency table is the table of
per-byte counts that the encoder's tree was built from, and whose packed bytes are the
encoder's output for the generated code table; the tree that `decompressFile` rebuilds from
the stored table is the tree used for encoding; and `decompressFile` outputs exactly `S`. -/
theorem roundtrip_two_symbols (S : List Byte) (hlen : S.length < 2 ^ 32)
    (a b : Byte) (ha : a ∈ S) (hb : b ∈ S) (hab : a ≠ b) :
    ∃ freq t tbl c,
      tally S (fun _ => 0, 0) = .ok (freq, (S.length : Int)) ∧
      buildHuffmanTree (collectSymbols freq (List.finRange 256)) = .ok t ∧
      generateCodes (collectSymbols freq (List.finRange 256)) (fun _ => none) = .ok tbl ∧
      compressFile S = .ok c ∧
      c.originalSize = S.length ∧ c.freq = freq ∧ (∀ x, c.freq x = S.count x) ∧
      encode S tbl = .ok c.packed ∧
      buildHuffmanTree (collectSymbols c.freq (List.finRange 256)) = .ok t ∧
      decompressFile c = .ok S := by
  have htally := tally_spec S (fun _ => 0) 0 (fun _ => by norm_num) (by omega)
  rw [Int.zero_add] at htally
  obtain ⟨_, hnodup, _, hne, _, hall⟩ := collectSymbols_input S hlen
  have hSne : S ≠ [] := List.ne_nil_of_mem ha
  obtain ⟨t, tbl, hbuild, hfull, hleaves, hgen, hiff, hnone⟩ :=
    generateCodes_table _ (hne hSne) hnodup
  have hmem : ∀ s ∈ S, s ∈ (collectSymbols (fun b => (0 + S.count b) % 2 ^ 32)
      (List.finRange 256)).map Prod.fst := by
    intro s hs
    exact List.mem_map.mpr ⟨_, hall s (List.count_pos_iff.mpr hs), rfl⟩
  have hsome : ∀ s ∈ S, (tbl s).isSome = true := by
    intro s hs
    cases h : tbl s with
    | some c => rfl
    | none => exact absurd (hmem s hs) ((hnone s).mp h)
  have hleaf : t.isLeaf = false := by
    apply isLeaf_false_of_leaves
    rw [hleaves.length_eq, List.length_map]
    have h2 := two_le_length_of_ne _ a b (hmem a ha) (hmem b hb) hab
    rw [List.length_map] at h2
    exact h2
  obtain ⟨out, pad, henc, _, hbits, _, _⟩ := encode_spec S tbl hsome
  have hfreq : ∀ x, (0 + S.count x) % 2 ^ 32 = S.count x := by
    intro x
    have := List.count_le_length x S
    rw [Nat.zero_add, Nat.mod_eq_of_lt (by omega)]
  refine ⟨fun b => ((fun _ => 0) b + S.count b) % 2 ^ 32, t, tbl,
    { originalSize := S.length,
      freq := fun b => ((fun _ => 0) b + S.count b) % 2 ^ 32, packed := out },
    htally, hbuild, hgen, ?_, rfl, rfl, hfreq, henc, hbuild, ?_⟩
  · unfold compressFile
    rw [htally, bind_ok]
    simp only []
    rw [hgen, bind_ok, henc, bind_ok]
  · unfold decompressFile
    simp only []
    rw [hbuild, bind_ok]
    unfold decode
    rw [decodeLoop_eq_decodeBits, hbits,
      decodeBits_codeStream t tbl hfull hleaf (fun x c h => (hiff x c).mp h) S _ _ _ hsome rfl
        (by simp)]
    simp

/-- Instance of `roundtrip_two_symbols` on the input `aba`. -/
theorem roundtrip_two_symbols_witness :
    ([97, 98, 97] : List Byte).length < 2 ^ 32 ∧ (97 : Byte) ∈ ([97, 98, 97] : List Byte) ∧
    (98 : Byte) ∈ ([97, 98, 97] : List Byte) ∧ (97 : Byte) ≠ 98 ∧
    ∃ c, compressFile [97, 98, 97] = .ok c ∧ decompressFile c = .ok [97, 98, 97] :=
  ⟨by decide, by decide, by decide, by decide,
   match roundtrip_two_symbols [97, 98, 97] (by decide) 97 98 (by decide) (by decide)
     (by decide) with
   | ⟨_, _, _, c, _, _, _, h4, _, _, _, _, _, h10⟩ => ⟨c, h4, h10⟩⟩

/-! ## Frequency arithmetic in `unsigned` -/

theorem sum_mod_map (l : List (Byte × Nat)) :
    ((l.map fun s => (newNode s.1 s.2).freqField).sum) % 2 ^ 32 =
      (l.map Prod.snd).sum % 2 ^ 32 := by
  induction l with
  | nil => rfl
  | cons s rest ih =>
    simp only [List.map_cons, List.sum_cons]
    have h1 : (newNode s.1 s.2).freqField = s.2 % 2 ^ 32 := rfl
    rw [h1]
    omega

/-- The root frequency of the tree built for any non-empty symbol list is the sum of the
frequencies reduced modulo `2 ^ 32`. -/
theorem buildHuffmanTree_root_freq (symbols : List (Byte × Nat)) (hne : symbols ≠ [])
    (hsz : symbols.length + 1 < 2 ^ 30) :
    ∃ t, buildHuffmanTree symbols = .ok t ∧
      t.freqField = (symbols.map Prod.snd).sum % 2 ^ 32 := by
  obtain ⟨t, ht, hnode, hsum⟩ := buildHuffmanTree_spec
    (fun a => (∀ p ∈ a, p ≠ .null ∧ p.freqField < 2 ^ 32) ∧
      (a.map MinHeapNode.freqField).sum % 2 ^ 32 = (symbols.map Prod.snd).sum % 2 ^ 32)
    (by
      intro a b hab ⟨h1, h2⟩
      exact ⟨fun p hp => h1 p (hab.symm.subset hp), by rw [← h2, (hab.map _).sum_eq]⟩)
    (by
      intro a ⟨h1, _⟩ p hp
      exact (h1 p hp).1)
    (by
      intro l r rest ⟨h1, h2⟩
      constructor
      · intro p hp
        rcases List.mem_cons.mp hp with rfl | hp
        · exact ⟨(by intro hc; cases hc), Nat.mod_lt _ (by norm_num)⟩
        · exact h1 p (List.mem_cons_of_mem _ (List.mem_cons_of_mem _ hp))
      · simp only [List.map_cons, List.sum_cons] at h2 ⊢
        have e : (MinHeapNode.mk 36 ((l.freqField + r.freqField) % 2 ^ 32) l r).freqField =
            (l.freqField + r.freqField) % 2 ^ 32 := rfl
        rw [e]
        omega)
    symbols hne hsz
    (by
      constructor
      · intro p hp
        rw [List.mem_map] at hp
        obtain ⟨s, _, rfl⟩ := hp
        exact ⟨(by intro hc; cases hc), Nat.mod_lt _ (by norm_num)⟩
      · rw [List.map_map]
        exact sum_mod_map symbols)
  refine ⟨t, ht, ?_⟩
  have h1 := (hnode t (List.mem_singleton_self t)).2
  simp only [List.map_cons, List.map_nil, List.sum_cons, List.sum_nil, Nat.add_zero] at hsum
  rw [← hsum, Nat.mod_eq_of_lt h1]

/-- Claim C20. 32-bit frequency arithmetic.  Node frequencies and per-byte counters are
`unsigned`: for every non-empty symbol list (of fewer than `2 ^ 30 - 1` entries, the range
of the queue's `int` indices; the program's lists have at most 256) the root's frequency is
the sum of the input frequencies modulo `2 ^ 32`, and for every input (a file, so of fewer
than `2 ^ 63` bytes) each per-byte counter ends as the byte's number of occurrences modulo
`2 ^ 32`.  When the input has fewer than `2 ^ 32` bytes nothing wraps: every stored count
is the exact number of occurrences and, for a non-empty input, the tree is built, every
internal node's frequency is the exact sum of its two children's, and the root's frequency
is the header's original length. -/
theorem frequency_arithmetic (symbols : List (Byte × Nat)) (S : List Byte)
    (hne : symbols ≠ []) (hsz : symbols.length + 1 < 2 ^ 30) (hfile : S.length < 2 ^ 63) :
    (∃ t, buildHuffmanTree symbols = .ok t ∧
      t.freqField = (symbols.map Prod.snd).sum % 2 ^ 32) ∧
    (∃ freq, tally S (fun _ => 0, 0) = .ok (freq, (S.length : Int)) ∧
      (∀ x, freq x = S.count x % 2 ^ 32) ∧
      (S.length < 2 ^ 32 → (∀ x, freq x = S.count x) ∧
        (S ≠ [] → ∃ t c, buildHuffmanTree (collectSymbols freq (List.finRange 256)) = .ok t ∧
          t.isFull = true ∧ t.sumsChildren = true ∧ t.freqField = t.leafSum ∧
          ((t.freqField : Nat) : Int) = (S.length : Int) ∧
          compressFile S = .ok c ∧ c.originalSize = (t.freqField : Int)))) := by
  refine ⟨buildHuffmanTree_root_freq symbols hne hsz, ?_⟩
  have htally := tally_spec S (fun _ => 0) 0 (fun _ => by norm_num) (by omega)
  rw [Int.zero_add] at htally
  refine ⟨_, htally, fun x => by simp, ?_⟩
  intro hlen
  have hfreq : ∀ x, ((fun _ => 0) x + S.count x) % 2 ^ 32 = S.count x := by
    intro x
    have := List.count_le_length x S
    simp only [Nat.zero_add]
    exact Nat.mod_eq_of_lt (by omega)
  refine ⟨hfreq, ?_⟩
  intro hS
  obtain ⟨h256, hnodup, hsum, hne2, _, hall⟩ := collectSymbols_input S hlen
  obtain ⟨t, ht, hs, hf, hl⟩ := buildHuffmanTree_sums _ (hne2 hS) (by omega)
    (by rw [hsum]; exact hlen)
  obtain ⟨t2, ht2, hfull, hleaves⟩ := buildHuffmanTree_full _ (hne2 hS) (by omega)
  rw [ht] at ht2
  injection ht2 with ht2
  subst ht2
  have hroot : t.freqField = S.length := by rw [hf, hl, hsum]
  obtain ⟨t3, tbl, hbuild, _, _, hgen, _, hnone⟩ := generateCodes_table _ (hne2 hS) hnodup
  have hsome : ∀ s ∈ S, (tbl s).isSome = true := by
    intro s hs
    cases h : tbl s with
    | some c => rfl
    | none =>
      exact absurd (List.mem_map.mpr ⟨_, hall s (List.count_pos_iff.mpr hs), rfl⟩)
        ((hnone s).mp h)
  obtain ⟨out, _, henc, _⟩ := encode_spec S tbl hsome
  refine ⟨t, Container.mk S.length (fun b => ((fun _ => 0) b + S.count b) % 2 ^ 32) out,
    ht, hfull, hs, hf, by rw [hroot], ?_, by rw [hroot]⟩
  unfold compressFile
  rw [htally, bind_ok]
  simp only []
  rw [hgen, bind_ok, henc, bind_ok]

/-- Instance of `frequency_arithmetic` on the symbol list `a:2, b:1` and the input `aba`. -/
theorem frequency_arithmetic_witness :
    ([((97 : Byte), 2), (98, 1)] : List (Byte × Nat)) ≠ [] ∧
    ([((97 : Byte), 2), (98, 1)] : List (Byte × Nat)).length + 1 < 2 ^ 30 ∧
    ([97, 98, 97] : List Byte).length < 2 ^ 63 ∧
    ∃ t, buildHuffmanTree [((97 : Byte), 2), (98, 1)] = .ok t ∧
      t.freqField = ([((97 : Byte), 2), (98, 1)].map Prod.snd).sum % 2 ^ 32 :=
  ⟨by decide, by decide, by decide,
   (frequency_arithmetic [((97 : Byte), 2), (98, 1)] [97, 98, 97] (by decide) (by decide)
     (by decide)).1⟩

/-! ## The priority queue keeps the heap order -/

theorem keyAt_of_getElem? (array : List MinHeapNode) (i : Nat) (p : MinHeapNode)
    (h : array[i]? = some p) : keyAt array i = p.freqField := by
  unfold keyAt
  rw [h]

theorem keyAt_set (array : List MinHeapNode) (j : Nat) (p : MinHeapNode) (i : Nat)
    (hj : j < array.length) :
    keyAt (array.set j p) i = if i = j then p.freqField else keyAt array i := by
  unfold keyAt
  by_cases h : i = j
  · subst h
    rw [List.getElem?_set_self hj, if_pos rfl]
  · rw [List.getElem?_set_ne (fun hc => h hc.symm), if_neg h]

theorem heapOrdered_iff (h : MinHeap) :
    h.heapOrdered = true ↔
      ∀ i, i < h.size → keyAt h.array ((i - 1) / 2) ≤ keyAt h.array i := by
  unfold MinHeap.heapOrdered
  rw [List.all_eq_true]
  constructor
  · intro hall i hi
    exact of_decide_eq_true (hall i (List.mem_range.mpr hi))
  · intro hall i hi
    exact decide_eq_true (hall i (List.mem_range.mp hi))

theorem freqAt_eq_keyAt (h : MinHeap) (hlen : h.size ≤ h.array.length)
    (hnn : ∀ p ∈ h.live, p ≠ .null) (i : Nat) (hi : i < h.size) :
    freqAt h.array i = .ok (keyAt h.array i) := by
  obtain ⟨p, hp, hpn, _⟩ := live_cell h hlen hnn i hi
  unfold freqAt
  rw [readCell_of_getElem? _ _ _ hp, keyAt_of_getElem? _ _ _ hp]
  exact freqOf_of_ne_null p hpn

/-- Function `pickSmaller` returns the child when it is in the queue and strictly smaller. -/
theorem pickSmaller_key (h : MinHeap) (hlen : h.size ≤ h.array.length)
    (hnn : ∀ p ∈ h.live, p ≠ .null) (child smallest : Nat)
    (hs : child < h.size → smallest < h.size) :
    pickSmaller h child smallest = .ok
      (if child < h.size ∧ keyAt h.array child < keyAt h.array smallest then child
       else smallest) := by
  unfold pickSmaller
  by_cases hc : child < h.size
  · rw [if_pos hc, freqAt_eq_keyAt h hlen hnn child hc, bind_ok,
      freqAt_eq_keyAt h hlen hnn smallest (hs hc), bind_ok]
    by_cases hlt : keyAt h.array child < keyAt h.array smallest
    · rw [if_pos hlt, if_pos ⟨hc, hlt⟩]
    · rw [if_neg hlt, if_neg (fun hh => hlt hh.2)]
  · rw [if_neg hc, if_neg (fun hh => hc hh.1)]

theorem swapMinHeapNode_eq (array : List MinHeapNode) (a b : Nat) (ha : a < array.length)
    (hb : b < array.length) :
    swapMinHeapNode array a b = .ok ((array.set a array[b]).set b array[a]) := by
  unfold swapMinHeapNode
  rw [readCell_of_getElem? _ _ _ (List.getElem?_eq_getElem ha), bind_ok,
    readCell_of_getElem? _ _ _ (List.getElem?_eq_getElem hb), bind_ok,
    writeCell_of_lt _ _ _ ha, bind_ok,
    writeCell_of_lt _ _ _ (by rw [List.length_set]; exact hb)]

theorem keyAt_swap (array : List MinHeapNode) (a b : Nat) (ha : a < array.length)
    (hb : b < array.length) (i : Nat) :
    keyAt ((array.set a array[b]).set b array[a]) i =
      if i = b then keyAt array a else if i = a then keyAt array b else keyAt array i := by
  rw [keyAt_set _ _ _ _ (by rw [List.length_set]; exact hb), keyAt_set _ _ _ _ ha,
    keyAt_of_getElem? _ a _ (List.getElem?_eq_getElem ha),
    keyAt_of_getElem? _ b _ (List.getElem?_eq_getElem hb)]

/-- The index chosen by the two comparisons of `minHeapify`. -/
theorem pick_facts (key : Nat → Nat) (size idx s1 s : Nat)
    (h1 : s1 = if 2 * idx + 1 < size ∧ key (2 * idx + 1) < key idx then 2 * idx + 1 else idx)
    (h2 : s = if 2 * idx + 2 < size ∧ key (2 * idx + 2) < key s1 then 2 * idx + 2 else s1) :
    (s = idx ∨ (s < size ∧ (s = 2 * idx + 1 ∨ s = 2 * idx + 2) ∧ key s < key idx)) ∧
      (∀ c, c < size → (c = 2 * idx + 1 ∨ c = 2 * idx + 2) → key s ≤ key c) := by
  by_cases c1 : 2 * idx + 1 < size ∧ key (2 * idx + 1) < key idx
  · rw [if_pos c1] at h1
    subst h1
    by_cases c2 : 2 * idx + 2 < size ∧ key (2 * idx + 2) < key (2 * idx + 1)
    · rw [if_pos c2] at h2
      subst h2
      refine ⟨Or.inr ⟨c2.1, Or.inr rfl, by omega⟩, ?_⟩
      rintro c hc (rfl | rfl) <;> omega
    · rw [if_neg c2] at h2
      subst h2
      refine ⟨Or.inr ⟨c1.1, Or.inl rfl, c1.2⟩, ?_⟩
      rintro c hc (rfl | rfl)
      · exact le_refl _
      · have := fun hh => c2 ⟨hc, hh⟩
        omega
  · rw [if_neg c1] at h1
    subst h1
    by_cases c2 : 2 * s1 + 2 < size ∧ key (2 * s1 + 2) < key s1
    · rw [if_pos c2] at h2
      subst h2
      refine ⟨Or.inr ⟨c2.1, Or.inr rfl, c2.2⟩, ?_⟩
      rintro c hc (rfl | rfl)
      · have := fun hh => c1 ⟨hc, hh⟩
        omega
      · exact le_refl _
    · rw [if_neg c2] at h2
      subst h2
      refine ⟨Or.inl rfl, ?_⟩
      rintro c hc (rfl | rfl)
      · have := fun hh => c1 ⟨hc, hh⟩
        omega
      · have := fun hh => c2 ⟨hc, hh⟩
        omega

/-- Function `minHeapify` restores the heap order below `idx`: when the order holds from cell `k`
on except on the edges out of `idx`, and the children of `idx` are not smaller than its
parent, then after the call the order holds from cell `k` on. -/
theorem minHeapifyAux_order :
    ∀ (fuel : Nat) (h : MinHeap) (idx k : Nat), h.size ≤ h.array.length →
      h.size + 1 < 2 ^ 30 → (∀ p ∈ h.live, p ≠ .null) → idx ≤ h.size → h.size < fuel + idx →
      (∀ i, i < h.size → k ≤ (i - 1) / 2 → (i - 1) / 2 ≠ idx →
        keyAt h.array ((i - 1) / 2) ≤ keyAt h.array i) →
      (∀ i, i < h.size → 0 < i → (i - 1) / 2 = idx → 0 < idx → k ≤ (idx - 1) / 2 →
        keyAt h.array ((idx - 1) / 2) ≤ keyAt h.array i) →
      ∃ h1, minHeapifyAux fuel h idx = .ok h1 ∧ h1.size = h.size ∧
        h1.capacity = h.capacity ∧ h1.array.length = h.array.length ∧
        h1.live.Perm h.live ∧
        ∀ i, i < h.size → k ≤ (i - 1) / 2 →
          keyAt h1.array ((i - 1) / 2) ≤ keyAt h1.array i := by
  intro fuel
  induction fuel with
  | zero => intro h idx k _ _ _ hidx hfuel; omega
  | succ fuel ih =>
    intro h idx k hlen hsz hnn hidx hfuel hA hB
    unfold minHeapifyAux
    rw [if_neg (by omega), pickSmaller_key h hlen hnn (2 * idx + 1) idx (by omega), bind_ok,
      pickSmaller_key h hlen hnn (2 * idx + 2) _ (by intro; split <;> omega), bind_ok]
    obtain ⟨hs, hmin⟩ := pick_facts (keyAt h.array) h.size idx _ _ rfl rfl
    generalize (if 2 * idx + 2 < h.size ∧ keyAt h.array (2 * idx + 2) <
      keyAt h.array (if 2 * idx + 1 < h.size ∧ keyAt h.array (2 * idx + 1) <
        keyAt h.array idx then 2 * idx + 1 else idx) then 2 * idx + 2
      else if 2 * idx + 1 < h.size ∧ keyAt h.array (2 * idx + 1) <
        keyAt h.array idx then 2 * idx + 1 else idx) = s at hs hmin ⊢
    by_cases hne : s ≠ idx
    · rw [if_pos hne]
      obtain ⟨hsn, hchild, hlt⟩ : s < h.size ∧ (s = 2 * idx + 1 ∨ s = 2 * idx + 2) ∧
          keyAt h.array s < keyAt h.array idx := by
        rcases hs with h0 | h0
        · exact absurd h0 hne
        · exact h0
      have hsl : s < h.array.length := by omega
      have hil : idx < h.array.length := by omega
      obtain ⟨array1, hsw, hl1, hp1⟩ :=
        swapMinHeapNode_spec h hlen hnn s idx hsn (by omega)
      have harr : array1 = (h.array.set s h.array[idx]).set idx h.array[s] := by
        have e := swapMinHeapNode_eq h.array s idx hsl hil
        rw [hsw] at e
        injection e
      have hkey : ∀ i, keyAt array1 i = if i = idx then keyAt h.array s
          else if i = s then keyAt h.array idx else keyAt h.array i := by
        intro i
        rw [harr]
        exact keyAt_swap h.array s idx hsl hil i
      rw [hsw, bind_ok]
      have hnn1 : ∀ p ∈ MinHeap.live { h with array := array1 }, p ≠ .null := by
        intro p hp
        exact hnn p (hp1.subset hp)
      obtain ⟨h1, hr, e1, e2, e3, e4, e5⟩ := ih { h with array := array1 } s k
        (by simp only []; omega) hsz hnn1 (by simp only []; omega) (by simp only []; omega)
        (by
          intro i hi hk hp
          simp only [] at hi ⊢
          by_cases hi0 : i = 0
          · subst hi0
            exact le_refl _
          rw [hkey, hkey]
          by_cases hpi : (i - 1) / 2 = idx
          · rw [if_pos hpi]
            by_cases his : i = s
            · rw [if_neg (by omega), if_pos his]
              omega
            · rw [if_neg (by omega), if_neg his]
              exact hmin i hi (by omega)
          · rw [if_neg hpi, if_neg hp]
            by_cases hii : i = idx
            · rw [if_pos hii]
              subst hii
              exact hB s hsn (by omega) (by omega) (by omega) hk
            · rw [if_neg hii, if_neg (by omega)]
              exact hA i hi hk hpi)
        (by
          intro i hi hi0 hp hs0 hk
          simp only [] at hi ⊢
          have hps : (s - 1) / 2 = idx := by omega
          rw [hps, hkey, hkey, if_pos rfl, if_neg (by omega), if_neg (by omega)]
          have := hA i hi (by omega) (by omega)
          rw [hp] at this
          exact this)
      exact ⟨h1, hr, e1, e2, by rw [e3]; exact hl1, e4.trans hp1, e5⟩
    · rw [if_neg hne]
      have hsi : s = idx := by omega
      subst hsi
      refine ⟨h, rfl, rfl, rfl, rfl, List.Perm.refl _, ?_⟩
      intro i hi hk
      by_cases hpi : (i - 1) / 2 = s
      · by_cases hi0 : i = 0
        · subst hi0
          exact le_refl _
        · rw [hpi]
          exact hmin i hi (by omega)
      · exact hA i hi hk hpi

theorem minHeapify_order (h : MinHeap) (idx k : Nat) (hlen : h.size ≤ h.array.length)
    (hsz : h.size + 1 < 2 ^ 30) (hnn : ∀ p ∈ h.live, p ≠ .null) (hidx : idx ≤ h.size)
    (hA : ∀ i, i < h.size → k ≤ (i - 1) / 2 → (i - 1) / 2 ≠ idx →
      keyAt h.array ((i - 1) / 2) ≤ keyAt h.array i)
    (hB : ∀ i, i < h.size → 0 < i → (i - 1) / 2 = idx → 0 < idx → k ≤ (idx - 1) / 2 →
      keyAt h.array ((idx - 1) / 2) ≤ keyAt h.array i) :
    ∃ h1, minHeapify h idx = .ok h1 ∧ h1.size = h.size ∧
      h1.capacity = h.capacity ∧ h1.array.length = h.array.length ∧
      h1.live.Perm h.live ∧
      ∀ i, i < h.size → k ≤ (i - 1) / 2 →
        keyAt h1.array ((i - 1) / 2) ≤ keyAt h1.array i :=
  minHeapifyAux_order (h.size + 1) h idx k hlen hsz hnn hidx (by omega) hA hB

/-- In a queue in heap order no cell holds a smaller frequency than cell `0`. -/
theorem heap_root_min (array : List MinHeapNode) (size : Nat)
    (hord : ∀ i, i < size → keyAt array ((i - 1) / 2) ≤ keyAt array i) :
    ∀ i, i < size → keyAt array 0 ≤ keyAt array i := by
  intro i
  induction i using Nat.strong_induction_on with
  | _ i ih =>
    intro hi
    by_cases h0 : i = 0
    · subst h0
      exact le_refl _
    · exact le_trans (ih ((i - 1) / 2) (by omega) (by omega)) (hord i hi)

/-- Function `extractMin` on a non-empty queue in heap order returns an entry of least
frequency, keeps the others and leaves the queue in heap order. -/
theorem extractMin_order (h : MinHeap) (hpos : 1 ≤ h.size) (hlen : h.size ≤ h.array.length)
    (hsz : h.size + 1 < 2 ^ 30) (hnn : ∀ p ∈ h.live, p ≠ .null)
    (hord : ∀ i, i < h.size → keyAt h.array ((i - 1) / 2) ≤ keyAt h.array i) :
    ∃ temp h1, extractMin h = .ok (temp, h1) ∧ h1.size = h.size - 1 ∧
      h1.capacity = h.capacity ∧ h1.array.length = h.array.length ∧
      (temp :: h1.live).Perm h.live ∧
      (∀ p ∈ h.live, temp.freqField ≤ p.freqField) ∧
      (∀ i, i < h1.size → keyAt h1.array ((i - 1) / 2) ≤ keyAt h1.array i) := by
  obtain ⟨size, capacity, array⟩ := h
  simp only [MinHeap.live] at *
  have hdec : decU32 size = size - 1 := decU32_of_pos size hpos (by omega)
  cases array with
  | nil => simp only [List.length_nil] at hlen; omega
  | cons a0 rest =>
    obtain ⟨n, rfl⟩ : ∃ n, size = n + 1 := ⟨size - 1, by omega⟩
    simp only [List.length_cons] at hlen
    have hn : n < (a0 :: rest).length := by simp only [List.length_cons]; omega
    have hperm : (a0 :: ((a0 :: rest)[n] :: rest).take n).Perm ((a0 :: rest).take (n + 1)) := by
      cases n with
      | zero => simp
      | succ m =>
        have hm : m < rest.length := by omega
        simp only [List.take_succ_cons, List.getElem_cons_succ]
        rw [List.take_succ, List.getElem?_eq_getElem hm]
        simp only [Option.toList]
        exact (List.perm_append_singleton _ _).symm.cons a0
    have hnn0 : ∀ p ∈ MinHeap.live
        { size := n, capacity := capacity, array := (a0 :: rest)[n] :: rest }, p ≠ .null := by
      intro p hp
      exact hnn p (hperm.subset (List.mem_cons_of_mem _ hp))
    have hkey : ∀ i, keyAt ((a0 :: rest)[n] :: rest) i =
        if i = 0 then keyAt (a0 :: rest) n else keyAt (a0 :: rest) i := by
      intro i
      have e : (a0 :: rest)[n] :: rest = (a0 :: rest).set 0 (a0 :: rest)[n] := by
        rw [List.set_cons_zero]
      rw [e, keyAt_set _ _ _ _ (by simp),
        keyAt_of_getElem? _ n _ (List.getElem?_eq_getElem hn)]
    obtain ⟨h1, hr, e1, e2, e3, e4, e5⟩ := minHeapify_order
      { size := n, capacity := capacity, array := (a0 :: rest)[n] :: rest } 0 0
      (by simp only [List.length_cons]; omega) (by simp only []; omega) hnn0 (Nat.zero_le _)
      (by
        intro i hi _ hp
        simp only [] at hi ⊢
        rw [hkey, hkey, if_neg hp, if_neg (by intro hc; subst hc; exact hp rfl)]
        exact hord i (by omega))
      (by
        intro i _ _ _ h0
        omega)
    refine ⟨a0, h1, ?_, e1, e2, by rw [e3]; simp, (e4.cons a0).trans hperm, ?_, ?_⟩
    · unfold extractMin
      simp only [hdec, Nat.add_sub_cancel]
      rw [readCell_of_getElem? _ 0 a0 (by simp), bind_ok,
        readCell_of_getElem? _ n _ (List.getElem?_eq_getElem hn), bind_ok,
        writeCell_of_lt _ _ _ (by simp), bind_ok]
      simp only [List.set_cons_zero]
      rw [hr, bind_ok]
    · intro p hp
      rw [List.mem_take_iff_getElem] at hp
      obtain ⟨i, hi, rfl⟩ := hp
      have hi1 : i < n + 1 := by
        rw [Nat.lt_min] at hi
        exact hi.1
      have h0 := heap_root_min (a0 :: rest) (n + 1) hord i hi1
      rw [keyAt_of_getElem? _ 0 a0 (by simp),
        keyAt_of_getElem? _ i _ (List.getElem?_eq_getElem (by omega))] at h0
      exact h0
    · intro i hi
      rw [e1] at hi
      exact e5 i hi (Nat.zero_le _)

/-- The sift-up loop of `insertMinHeap` ends at a cell where writing the node gives an array
in heap order. -/
theorem insertLoop_order (node : MinHeapNode) (hnode : node ≠ .null) (n : Nat) :
    ∀ (fuel : Nat) (array : List MinHeapNode) (i : Nat), i ≤ n → n < array.length →
      i < fuel →
      (∀ j, j ≤ n → j ≠ i → ∃ p, array[j]? = some p ∧ p ≠ .null) →
      (∀ j, j ≤ n → j ≠ i → (j - 1) / 2 ≠ i → keyAt array ((j - 1) / 2) ≤ keyAt array j) →
      (∀ j, j ≤ n → 0 < j → (j - 1) / 2 = i → 0 < i →
        keyAt array ((i - 1) / 2) ≤ keyAt array j) →
      (∀ j, j ≤ n → 0 < j → (j - 1) / 2 = i → node.freqField ≤ keyAt array j) →
      ∃ array1 j0, insertLoop node fuel array i = .ok (array1, j0) ∧ j0 ≤ n ∧
        array1.length = array.length ∧
        ∀ j, j ≤ n →
          keyAt (array1.set j0 node) ((j - 1) / 2) ≤ keyAt (array1.set j0 node) j := by
  intro fuel
  induction fuel with
  | zero => intro array i _ _ hf; omega
  | succ fuel ih =>
    intro array i hin hlen hf hcells ha hb hc
    have hfinal : (i = 0 ∨ keyAt array ((i - 1) / 2) ≤ node.freqField) →
        ∀ j, j ≤ n → keyAt (array.set i node) ((j - 1) / 2) ≤ keyAt (array.set i node) j := by
      intro hstop j hj
      by_cases hj0 : j = 0
      · subst hj0
        exact le_refl _
      rw [keyAt_set _ _ _ _ (by omega), keyAt_set _ _ _ _ (by omega)]
      by_cases hji : j = i
      · rw [if_neg (by omega), if_pos hji]
        subst hji
        rcases hstop with h0 | h0
        · exact absurd h0 hj0
        · exact h0
      · rw [if_neg hji]
        by_cases hpi : (j - 1) / 2 = i
        · rw [if_pos hpi]
          exact hc j hj (by omega) hpi
        · rw [if_neg hpi]
          exact ha j hj hji hpi
    unfold insertLoop
    by_cases hi : i ≠ 0
    · rw [if_pos hi, freqOf_of_ne_null node hnode, bind_ok]
      obtain ⟨q, hq, hqn⟩ := hcells ((i - 1) / 2) (by omega) (by omega)
      have hkq : keyAt array ((i - 1) / 2) = q.freqField := keyAt_of_getElem? _ _ _ hq
      have hfreq : freqAt array ((i - 1) / 2) = .ok (keyAt array ((i - 1) / 2)) := by
        unfold freqAt
        rw [readCell_of_getElem? _ _ _ hq, hkq]
        exact freqOf_of_ne_null q hqn
      rw [hfreq, bind_ok]
      by_cases hlt : node.freqField < keyAt array ((i - 1) / 2)
      · rw [if_pos hlt, readCell_of_getElem? _ _ _ hq, bind_ok,
          writeCell_of_lt _ _ _ (by omega), bind_ok]
        have hkey : ∀ x, keyAt (array.set i q) x =
            if x = i then keyAt array ((i - 1) / 2) else keyAt array x := by
          intro x
          rw [keyAt_set _ _ _ _ (by omega), hkq]
        obtain ⟨array1, j0, hr, hj0, hl, hp⟩ := ih (array.set i q) ((i - 1) / 2) (by omega)
          (by rw [List.length_set]; exact hlen) (by omega)
          (by
            intro j hj hjp
            by_cases hji : j = i
            · subst hji
              exact ⟨q, List.getElem?_set_self (by omega), hqn⟩
            · rw [List.getElem?_set_ne (fun hh => hji hh.symm)]
              exact hcells j hj hji)
          (by
            intro j hj hjp hpp
            by_cases hj0 : j = 0
            · subst hj0
              exact le_refl _
            rw [hkey, hkey]
            have hji : j ≠ i := fun hh => hpp (by rw [hh])
            rw [if_neg hji]
            by_cases hpi : (j - 1) / 2 = i
            · rw [if_pos hpi]
              exact hb j hj (by omega) hpi (by omega)
            · rw [if_neg hpi]
              exact ha j hj hji hpi)
          (by
            intro j hj hj0 hpj hp0
            rw [hkey, hkey, if_neg (by omega)]
            have h1 := ha ((i - 1) / 2) (by omega) (by omega) (by omega)
            by_cases hji : j = i
            · rw [if_pos hji]
              exact h1
            · rw [if_neg hji]
              have h2 := ha j hj hji (by omega)
              rw [hpj] at h2
              exact le_trans h1 h2)
          (by
            intro j hj hj0 hpj
            rw [hkey]
            by_cases hji : j = i
            · rw [if_pos hji]
              omega
            · rw [if_neg hji]
              have h2 := ha j hj hji (by omega)
              rw [hpj] at h2
              omega)
        exact ⟨array1, j0, hr, hj0, by rw [hl, List.length_set], hp⟩
      · rw [if_neg hlt]
        exact ⟨array, i, rfl, hin, rfl, hfinal (Or.inr (by omega))⟩
    · rw [if_neg hi]
      exact ⟨array, i, rfl, hin, rfl, hfinal (Or.inl (by omega))⟩

/-- Function `insertMinHeap` into a queue in heap order with a free cell adds the node, keeps the
others and leaves the queue in heap order. -/
theorem insertMinHeap_order (h : MinHeap) (node : MinHeapNode) (hnode : node ≠ .null)
    (hlen : h.size < h.array.length) (hsz : h.size + 2 < 2 ^ 30)
    (hnn : ∀ p ∈ h.live, p ≠ .null)
    (hord : ∀ i, i < h.size → keyAt h.array ((i - 1) / 2) ≤ keyAt h.array i) :
    ∃ h1, insertMinHeap h node = .ok h1 ∧ h1.size = h.size + 1 ∧
      h1.capacity = h.capacity ∧ h1.array.length = h.array.length ∧
      h1.live.Perm (node :: h.live) ∧
      (∀ i, i < h1.size → keyAt h1.array ((i - 1) / 2) ≤ keyAt h1.array i) := by
  obtain ⟨h1, hr, e1, e2, e3, e4⟩ := insertMinHeap_spec h node hnode hlen hsz hnn
  refine ⟨h1, hr, e1, e2, e3, e4, ?_⟩
  have hs1 : (h.size + 1) % 2 ^ 32 = h.size + 1 := Nat.mod_eq_of_lt (by omega)
  have hdec : decU32 (h.size + 1) = h.size := by
    rw [decU32_of_pos _ (by omega) (by omega)]; omega
  obtain ⟨array1, j0, hl, hj0, hlen1, hp⟩ := insertLoop_order node hnode h.size
    (h.size + 1) h.array h.size (le_refl _) hlen (by omega)
    (by
      intro j hj hjn
      obtain ⟨p, hp, hpn, _⟩ := live_cell h (by omega) hnn j (by omega)
      exact ⟨p, hp, hpn⟩)
    (by
      intro j hj hjn _
      exact hord j (by omega))
    (by
      intro j hj hj0 hpj
      omega)
    (by
      intro j hj hj0 hpj
      omega)
  have hres : insertMinHeap h node =
      .ok { h with size := h.size + 1, array := array1.set j0 node } := by
    unfold insertMinHeap
    simp only [hs1, hdec]
    rw [if_neg (by omega), hl, bind_ok]
    simp only []
    rw [writeCell_of_lt _ _ _ (by omega), bind_ok]
  rw [hr] at hres
  injection hres with hres
  subst hres
  intro i hi
  exact hp i (by simp only [] at hi; omega)

theorem buildMinHeapLoop_order :
    ∀ (count : Nat) (h : MinHeap), count ≤ h.size + 1 → h.size ≤ h.array.length →
      h.size + 1 < 2 ^ 30 → (∀ p ∈ h.live, p ≠ .null) →
      (∀ i, i < h.size → count ≤ (i - 1) / 2 →
        keyAt h.array ((i - 1) / 2) ≤ keyAt h.array i) →
      ∃ h1, buildMinHeapLoop count h = .ok h1 ∧ h1.size = h.size ∧
        h1.capacity = h.capacity ∧ h1.array.length = h.array.length ∧
        h1.live.Perm h.live ∧
        ∀ i, i < h1.size → keyAt h1.array ((i - 1) / 2) ≤ keyAt h1.array i := by
  intro count
  induction count with
  | zero =>
    intro h _ _ _ _ hord
    exact ⟨h, rfl, rfl, rfl, rfl, List.Perm.refl _, fun i hi => hord i hi (Nat.zero_le _)⟩
  | succ i ih =>
    intro h hc hlen hsz hnn hord
    obtain ⟨h1, hr, e1, e2, e3, e4, e5⟩ := minHeapify_order h i i hlen hsz hnn (by omega)
      (by
        intro j hj hk hp
        exact hord j hj (by omega))
      (by
        intro j _ _ _ h0 hk
        omega)
    have hnn1 : ∀ p ∈ h1.live, p ≠ .null := fun p hp => hnn p (e4.subset hp)
    obtain ⟨h2, hr2, f1, f2, f3, f4, f5⟩ := ih h1 (by omega) (by omega) (by omega) hnn1
      (by
        intro j hj hk
        exact e5 j (by omega) hk)
    refine ⟨h2, ?_, by omega, by rw [f2, e2], by omega, f4.trans e4, f5⟩
    unfold buildMinHeapLoop
    rw [hr]
    exact hr2

/-- Function `buildMinHeap` succeeds, only permutes the entries and establishes the heap order. -/
theorem buildMinHeap_order (h : MinHeap) (hlen : h.size ≤ h.array.length)
    (hsz : h.size + 1 < 2 ^ 30) (hnn : ∀ p ∈ h.live, p ≠ .null) :
    ∃ h1, buildMinHeap h = .ok h1 ∧ h1.size = h.size ∧
      h1.capacity = h.capacity ∧ h1.array.length = h.array.length ∧
      h1.live.Perm h.live ∧
      ∀ i, i < h1.size → keyAt h1.array ((i - 1) / 2) ≤ keyAt h1.array i := by
  obtain ⟨hov, hcount⟩ := buildMinHeap_count h.size hsz
  unfold buildMinHeap
  simp only []
  rw [if_neg hov, hcount]
  exact buildMinHeapLoop_order _ h (by split <;> omega) hlen hsz hnn
    (by
      intro i hi hk
      by_cases h1 : h.size = 1
      · rw [if_pos h1] at hk
        omega
      · rw [if_neg h1] at hk
        omega)

/-- Every admissible sequence of calls on a queue in heap order succeeds and leaves a queue in
heap order with the same array. -/
theorem runOps_order (capacity : Nat) (hcap : capacity + 1 < 2 ^ 30) :
    ∀ (ops : List QueueOp) (h : MinHeap), h.array.length = capacity →
      h.size ≤ h.array.length → (∀ p ∈ h.live, p ≠ .null) →
      (∀ i, i < h.size → keyAt h.array ((i - 1) / 2) ≤ keyAt h.array i) →
      admissible capacity h.size ops = true →
      ∃ h1, runOps h ops = .ok h1 ∧ h1.array.length = capacity ∧
        h1.capacity = h.capacity ∧
        h1.size ≤ h1.array.length ∧ (∀ p ∈ h1.live, p ≠ .null) ∧
        (∀ i, i < h1.size → keyAt h1.array ((i - 1) / 2) ≤ keyAt h1.array i) := by
  intro ops
  induction ops with
  | nil =>
    intro h hl hlen hnn hord _
    exact ⟨h, rfl, hl, rfl, hlen, hnn, hord⟩
  | cons op ops ih =>
    intro h hl hlen hnn hord hadm
    cases op with
    | insert node =>
      unfold admissible at hadm
      simp only [Bool.and_eq_true, Bool.not_eq_true', decide_eq_true_eq] at hadm
      obtain ⟨⟨hnode, hfree⟩, hrest⟩ := hadm
      have hnode1 : node ≠ .null := by
        intro hc
        subst hc
        cases hnode
      obtain ⟨h1, hr, e1, e2, e3, e4, e5⟩ := insertMinHeap_order h node hnode1 (by omega)
        (by omega) hnn hord
      obtain ⟨h2, hr2, f⟩ := ih h1 (by omega) (by omega)
        (by
          intro p hp
          rcases List.mem_cons.mp (e4.subset hp) with h0 | h0
          · rw [h0]; exact hnode1
          · exact hnn p h0)
        e5 (by rw [e1]; exact hrest)
      refine ⟨h2, ?_, by rw [← e2]; exact f⟩
      show (insertMinHeap h node).bind (fun minHeap1 => runOps minHeap1 ops) = _
      rw [hr, bind_ok]
      exact hr2
    | extract =>
      unfold admissible at hadm
      simp only [Bool.and_eq_true, decide_eq_true_eq] at hadm
      obtain ⟨hpos, hrest⟩ := hadm
      obtain ⟨temp, h1, hr, e1, e2, e3, e4, _, e6⟩ := extractMin_order h (by omega) hlen
        (by omega) hnn hord
      obtain ⟨h2, hr2, f⟩ := ih h1 (by omega) (by omega)
        (fun p hp => hnn p (e4.subset (List.mem_cons_of_mem _ hp)))
        e6 (by rw [e1]; exact hrest)
      refine ⟨h2, ?_, by rw [← e2]; exact f⟩
      show ((extractMin h).bind fun r => Except.ok r.2).bind
        (fun minHeap1 => runOps minHeap1 ops) = _
      rw [hr, bind_ok, bind_ok]
      exact hr2

/-- Claim C14. Priority-queue order.  Take any array of nodes (no cell of the queue is
`NULL`) of fewer than `2 ^ 30 - 1` cells, the range in which the `int` indices of the queue
do not overflow, and any sequence of `insertMinHeap` and `extractMin` calls that inserts
nodes, stays within the capacity and never extracts from an empty queue.  Then `buildMinHeap`
succeeds, keeps the entries and establishes the heap order; every call of the sequence
succeeds and the queue it leaves is in heap order; and an `extractMin` on that queue, when
it is not empty, returns a node whose frequency is at most that of every node then in the
queue, removes exactly that node (the other entries are kept as a multiset) and leaves the
queue in heap order. -/
theorem priority_queue_order (h0 : MinHeap) (ops : List QueueOp)
    (hcap : h0.array.length = h0.capacity) (hlen : h0.size ≤ h0.capacity)
    (hsz : h0.capacity + 1 < 2 ^ 30) (hnn : ∀ p ∈ h0.live, p ≠ .null)
    (hadm : admissible h0.capacity h0.size ops = true) :
    ∃ h1 h2, buildMinHeap h0 = .ok h1 ∧ h1.heapOrdered = true ∧ h1.live.Perm h0.live ∧
      runOps h1 ops = .ok h2 ∧ h2.heapOrdered = true ∧
      (1 ≤ h2.size → ∃ temp h3, extractMin h2 = .ok (temp, h3) ∧
        (∀ p ∈ h2.live, temp.freqField ≤ p.freqField) ∧
        (temp :: h3.live).Perm h2.live ∧ h3.size + 1 = h2.size ∧
        h3.heapOrdered = true) := by
  obtain ⟨h1, hr1, a1, a2, a3, a4, a5⟩ := buildMinHeap_order h0 (by omega) (by omega) hnn
  obtain ⟨h2, hr2, b1, b2, b3, b4, b5⟩ := runOps_order h0.capacity hsz ops h1 (by omega)
    (by omega) (fun p hp => hnn p (a4.subset hp)) a5 (by rw [a1]; exact hadm)
  refine ⟨h1, h2, hr1, (heapOrdered_iff h1).mpr a5, a4, hr2, (heapOrdered_iff h2).mpr b5, ?_⟩
  intro hpos
  obtain ⟨temp, h3, hr3, c1, _, _, c4, c5, c6⟩ := extractMin_order h2 hpos b3 (by omega) b4 b5
  exact ⟨temp, h3, hr3, c5, c4, by omega, (heapOrdered_iff h3).mpr c6⟩

/-- Instance of `priority_queue_order`: a queue built from three nodes in a four-cell array,
then one insertion and one extraction. -/
theorem priority_queue_order_witness :
    (∀ p ∈ MinHeap.live (MinHeap.mk 3 4
        [newNode 97 5, newNode 98 3, newNode 99 4, .null]), p ≠ .null) ∧
    admissible 4 3 [.insert (newNode 100 1), .extract] = true ∧
    ∃ h1 h2, buildMinHeap (MinHeap.mk 3 4
        [newNode 97 5, newNode 98 3, newNode 99 4, .null]) = .ok h1 ∧
      h1.heapOrdered = true ∧
      runOps h1 [.insert (newNode 100 1), .extract] = .ok h2 ∧ h2.heapOrdered = true :=
  ⟨by decide, by decide,
   match priority_queue_order (MinHeap.mk 3 4
       [newNode 97 5, newNode 98 3, newNode 99 4, .null])
     [.insert (newNode 100 1), .extract] rfl (by decide) (by decide) (by decide)
     (by decide) with
   | ⟨h1, h2, a1, a2, _, a4, a5, _⟩ => ⟨h1, h2, a1, a2, a4, a5⟩⟩

/-! ## The merge loop: number of steps and queue sizes -/

/-- One merge step on a queue of at least two nodes: both `extractMin` calls and the
`insertMinHeap` call succeed, the queue loses one entry, and the loop of `buildHuffmanTree`
continues from the resulting queue. -/
theorem mergeStep_spec (h : MinHeap) (h2 : 2 ≤ h.size) (hlen : h.size ≤ h.array.length)
    (hsz : h.size + 1 < 2 ^ 30) (hnn : ∀ p ∈ h.live, p ≠ .null) :
    ∃ l q1 r q2 q3, extractMin h = .ok (l, q1) ∧ q1.size = h.size - 1 ∧
      extractMin q1 = .ok (r, q2) ∧ q2.size = h.size - 2 ∧
      insertMinHeap q2 (.mk 36 ((l.freqField + r.freqField) % 2 ^ 32) l r) = .ok q3 ∧
      q3.size = h.size - 1 ∧ q3.capacity = h.capacity ∧ q3.array.length = h.array.length ∧
      (∀ p ∈ q3.live, p ≠ .null) ∧ mergeStep h = .ok q3 ∧
      ∀ fuel, buildHuffmanLoop (fuel + 1) h = buildHuffmanLoop fuel q3 := by
  obtain ⟨l, q1, hr1, a1, a2, a3, a4⟩ := extractMin_spec h (by omega) hlen hsz hnn
  have hnn1 : ∀ p ∈ q1.live, p ≠ .null :=
    fun p hp => hnn p (a4.subset (List.mem_cons_of_mem _ hp))
  obtain ⟨r, q2, hr2, b1, b2, b3, b4⟩ :=
    extractMin_spec q1 (by omega) (by omega) (by omega) hnn1
  have hnn2 : ∀ p ∈ q2.live, p ≠ .null :=
    fun p hp => hnn1 p (b4.subset (List.mem_cons_of_mem _ hp))
  have hl : l ≠ .null := hnn l (a4.subset (List.mem_cons_self _ _))
  have hr : r ≠ .null := hnn1 r (b4.subset (List.mem_cons_self _ _))
  obtain ⟨q3, hr3, c1, c2, c3, c4⟩ := insertMinHeap_spec q2
    (.mk 36 ((l.freqField + r.freqField) % 2 ^ 32) l r) (by intro hc; cases hc)
    (by omega) (by omega) hnn2
  have hnn3 : ∀ p ∈ q3.live, p ≠ .null := by
    intro p hp
    rcases List.mem_cons.mp (c4.subset hp) with h0 | h0
    · rw [h0]
      intro hc
      cases hc
    · exact hnn2 p h0
  refine ⟨l, q1, r, q2, q3, hr1, a1, hr2, by omega, hr3, by omega, by rw [c2, b2, a2],
    by rw [c3, b3, a3], hnn3, ?_, ?_⟩
  · unfold mergeStep
    rw [hr1, bind_ok]
    simp only []
    rw [hr2, bind_ok]
    simp only []
    rw [freqOf_of_ne_null l hl, bind_ok, freqOf_of_ne_null r hr, bind_ok, hr3]
  · intro fuel
    have hone : ¬ (isSizeOne h = true) := by
      unfold isSizeOne
      simp only [beq_iff_eq]
      omega
    rw [buildHuffmanLoop]
    rw [if_neg hone, hr1, bind_ok]
    simp only []
    rw [hr2, bind_ok]
    simp only []
    rw [freqOf_of_ne_null l hl, bind_ok, freqOf_of_ne_null r hr, bind_ok, hr3, bind_ok]

/-- The queue after `j ≤ n - 1` merge steps from a queue of `n` nodes. -/
theorem mergeSteps_spec (q0 : MinHeap) (n : Nat) (hn : q0.size = n)
    (hlen : q0.array.length = n) (hsz : n + 1 < 2 ^ 30) (hnn : ∀ p ∈ q0.live, p ≠ .null) :
    ∀ j, j + 1 ≤ n → ∃ q, mergeSteps j q0 = .ok q ∧ q.size = n - j ∧
      q.capacity = q0.capacity ∧ q.array.length = n ∧ (∀ p ∈ q.live, p ≠ .null) ∧
      ∀ fuel, buildHuffmanLoop (fuel + j) q0 = buildHuffmanLoop fuel q := by
  intro j
  induction j with
  | zero =>
    intro _
    exact ⟨q0, rfl, by omega, rfl, hlen, hnn, fun _ => rfl⟩
  | succ j ih =>
    intro hj
    obtain ⟨q, hq, e1, e2, e3, e4, e5⟩ := ih (by omega)
    obtain ⟨_, _, _, _, q3, _, _, _, _, _, f1, f2, f3, f4, f5, f6⟩ :=
      mergeStep_spec q (by omega) (by omega) (by omega) e4
    refine ⟨q3, ?_, by omega, by rw [f2, e2], by omega, f4, ?_⟩
    · show (mergeSteps j q0).bind mergeStep = _
      rw [hq, bind_ok]
      exact f5
    · intro fuel
      rw [← f6 fuel, ← e5 (fuel + 1)]
      apply congrArg (fun k => buildHuffmanLoop k q0)
      omega

/-- Claim C18. Tree construction terminates without underflow.  For every symbol list with
`n ≥ 1` entries (and `n < 2 ^ 30 - 1`, the range in which the `int` indices of the queue do
not overflow) `buildHuffmanTree` returns a node.  The queue built from the list holds `n`
nodes in a capacity of `n`; after `j < n - 1` merge steps it holds `n - j ≥ 2` nodes, so the
loop goes on, and the next step extracts from a queue of `n - j` and then of `n - j - 1 ≥ 1`
nodes and inserts into one of `n - j - 2` nodes, leaving `n - j - 1 ≤ n` nodes; after exactly
`n - 1` merge steps the queue holds one node, the loop stops there, and the final
`extractMin` is on that queue of one node. -/
theorem merge_loop_steps (symbols : List (Byte × Nat)) (hne : 1 ≤ symbols.length)
    (hsz : symbols.length + 1 < 2 ^ 30) :
    ∃ q0, buildMinHeap (MinHeap.mk symbols.length symbols.length
        (symbols.map fun s => newNode s.1 s.2)) = .ok q0 ∧
      q0.size = symbols.length ∧ q0.capacity = symbols.length ∧
      (∀ j, j + 1 < symbols.length → ∃ q l q1 r q2 q3,
        mergeSteps j q0 = .ok q ∧ q.size = symbols.length - j ∧ isSizeOne q = false ∧
        extractMin q = .ok (l, q1) ∧ q1.size + 1 = q.size ∧
        extractMin q1 = .ok (r, q2) ∧ q2.size + 1 = q1.size ∧ 1 ≤ q1.size ∧
        insertMinHeap q2 (.mk 36 ((l.freqField + r.freqField) % 2 ^ 32) l r) = .ok q3 ∧
        q3.size = q2.size + 1 ∧ q3.size + 1 = q.size ∧ q3.size ≤ q3.capacity ∧
        q3.capacity = symbols.length ∧ mergeSteps (j + 1) q0 = .ok q3) ∧
      ∃ q t rest, mergeSteps (symbols.length - 1) q0 = .ok q ∧ q.size = 1 ∧
        isSizeOne q = true ∧ buildHuffmanLoop (symbols.length + 1) q0 = .ok q ∧
        extractMin q = .ok (t, rest) ∧ buildHuffmanTree symbols = .ok t := by
  have hnn0 : ∀ p ∈ MinHeap.live (MinHeap.mk symbols.length symbols.length
      (symbols.map fun s => newNode s.1 s.2)), p ≠ .null := by
    intro p hp
    have hp1 := List.mem_of_mem_take hp
    rw [List.mem_map] at hp1
    obtain ⟨s, _, rfl⟩ := hp1
    intro hc
    cases hc
  obtain ⟨q0, hr0, a1, a2, a3, a4⟩ := buildMinHeap_spec (MinHeap.mk symbols.length
    symbols.length (symbols.map fun s => newNode s.1 s.2)) (by simp) hsz hnn0
  simp only [List.length_map] at a1 a2 a3
  have hnn1 : ∀ p ∈ q0.live, p ≠ .null := fun p hp => hnn0 p (a4.subset hp)
  have hsteps := mergeSteps_spec q0 symbols.length a1 a3 hsz hnn1
  refine ⟨q0, hr0, a1, a2, ?_, ?_⟩
  · intro j hj
    obtain ⟨q, hq, e1, e2, e3, e4, _⟩ := hsteps j (by omega)
    obtain ⟨l, q1, r, q2, q3, f1, f2, f3, f4, f5, f6, f7, f8, _, f10, _⟩ :=
      mergeStep_spec q (by omega) (by omega) (by omega) e4
    refine ⟨q, l, q1, r, q2, q3, hq, e1, ?_, f1, by omega, f3, by omega, by omega, f5,
      by omega, by omega, by omega, by omega, ?_⟩
    · unfold isSizeOne
      rw [beq_eq_false_iff_ne]
      omega
    · show (mergeSteps j q0).bind mergeStep = _
      rw [hq, bind_ok]
      exact f10
  · obtain ⟨q, hq, e1, e2, e3, e4, e5⟩ := hsteps (symbols.length - 1) (by omega)
    have hone : isSizeOne q = true := by
      unfold isSizeOne
      rw [beq_iff_eq]
      omega
    have hloop : buildHuffmanLoop (symbols.length + 1) q0 = .ok q := by
      have h2 := e5 2
      have e : 2 + (symbols.length - 1) = symbols.length + 1 := by omega
      rw [e] at h2
      rw [h2, buildHuffmanLoop, if_pos hone]
    obtain ⟨t, rest, hr, _⟩ := extractMin_spec q (by omega) (by omega) (by omega) e4
    refine ⟨q, t, rest, hq, by omega, hone, hloop, hr, ?_⟩
    unfold buildHuffmanTree
    simp only []
    have hinit : ({ createMinHeap symbols.length with
        size := symbols.length
        array := symbols.map fun s => newNode s.1 s.2 } : MinHeap) =
        MinHeap.mk symbols.length symbols.length (symbols.map fun s => newNode s.1 s.2) := rfl
    rw [hinit, hr0, bind_ok, hloop, bind_ok, hr, bind_ok]

/-- Instance of `merge_loop_steps` on the symbol list `a:2, b:1, c:1`. -/
theorem merge_loop_steps_witness :
    1 ≤ ([((97 : Byte), 2), (98, 1), (99, 1)] : List (Byte × Nat)).length ∧
    ([((97 : Byte), 2), (98, 1), (99, 1)] : List (Byte × Nat)).length + 1 < 2 ^ 30 ∧
    ∃ q0 q t rest, buildMinHeap (MinHeap.mk 3 3
        ([((97 : Byte), 2), (98, 1), (99, 1)].map fun s => newNode s.1 s.2)) = .ok q0 ∧
      mergeSteps 2 q0 = .ok q ∧ isSizeOne q = true ∧ extractMin q = .ok (t, rest) ∧
      buildHuffmanTree [((97 : Byte), 2), (98, 1), (99, 1)] = .ok t :=
  ⟨by decide, by decide,
   match merge_loop_steps [((97 : Byte), 2), (98, 1), (99, 1)] (by decide) (by decide) with
   | ⟨q0, h0, _, _, _, q, t, rest, h1, _, h2, _, h3, h4⟩ => ⟨q0, q, t, rest, h0, h1, h2, h3, h4⟩⟩

/-! ## The merge loop always merges two nodes of least frequency -/

/-- The merge loop of `buildHuffmanTree` on a queue in heap order keeps every property `I` of
the multiset of queue entries that survives the merge of a least entry with a least entry
among the others. -/
theorem buildHuffmanLoop_min (I : List MinHeapNode → Prop)
    (hperm : ∀ a b : List MinHeapNode, a.Perm b → I a → I b)
    (hnn : ∀ a, I a → ∀ p ∈ a, p ≠ MinHeapNode.null)
    (hmerge : ∀ l r rest, I (l :: r :: rest) →
      (∀ p ∈ r :: rest, l.freqField ≤ p.freqField) →
      (∀ p ∈ rest, r.freqField ≤ p.freqField) →
      I (.mk 36 ((l.freqField + r.freqField) % 2 ^ 32) l r :: rest)) :
    ∀ (fuel : Nat) (h : MinHeap), 1 ≤ h.size → h.size ≤ fuel → h.size ≤ h.array.length →
      h.size + 1 < 2 ^ 30 →
      (∀ i, i < h.size → keyAt h.array ((i - 1) / 2) ≤ keyAt h.array i) → I h.live →
      ∃ h1, buildHuffmanLoop fuel h = .ok h1 ∧ h1.size = 1 ∧
        h1.array.length = h.array.length ∧ I h1.live := by
  intro fuel
  induction fuel with
  | zero => intro h h1 h2 _ _ _ _; omega
  | succ fuel ih =>
    intro h hpos hfuel hlen hsz hord hI
    unfold buildHuffmanLoop
    by_cases hone : h.size = 1
    · have : isSizeOne h = true := by unfold isSizeOne; simp [hone]
      rw [if_pos this]
      exact ⟨h, rfl, hone, rfl, hI⟩
    · have : ¬ (isSizeOne h = true) := by unfold isSizeOne; simp [hone]
      rw [if_neg this]
      obtain ⟨l, h1, hr1, a1, _, a3, a4, a5, a6⟩ :=
        extractMin_order h hpos hlen hsz (hnn _ hI) hord
      have hnn1 : ∀ p ∈ h1.live, p ≠ .null :=
        fun p hp => hnn _ hI p (a4.subset (List.mem_cons_of_mem _ hp))
      obtain ⟨r, h2, hr2, b1, _, b3, b4, b5, b6⟩ :=
        extractMin_order h1 (by omega) (by omega) (by omega) hnn1 a6
      have hnn2 : ∀ p ∈ h2.live, p ≠ .null :=
        fun p hp => hnn1 p (b4.subset (List.mem_cons_of_mem _ hp))
      have hall : (l :: r :: h2.live).Perm h.live := (b4.cons l).trans a4
      have hI2 : I (l :: r :: h2.live) := hperm _ _ hall.symm hI
      have hl : l ≠ .null := hnn _ hI2 l (List.mem_cons_self _ _)
      have hr : r ≠ .null := hnn _ hI2 r (List.mem_cons_of_mem _ (List.mem_cons_self _ _))
      obtain ⟨h3, hr3, c1, _, c3, c4, c5⟩ := insertMinHeap_order h2
        (.mk 36 ((l.freqField + r.freqField) % 2 ^ 32) l r) (by intro hc; cases hc)
        (by omega) (by omega) hnn2 b6
      have hI3 : I h3.live := hperm _ _ c4.symm (hmerge l r _ hI2
        (fun p hp => a5 p (a4.subset (List.mem_cons_of_mem _ (b4.subset hp))))
        (fun p hp => b5 p (b4.subset (List.mem_cons_of_mem _ hp))))
      obtain ⟨h4, hr4, d1, d2, d3⟩ := ih h3 (by omega) (by omega) (by omega) (by omega) c5 hI3
      refine ⟨h4, ?_, d1, by omega, d3⟩
      rw [hr1, bind_ok]
      simp only []
      rw [hr2, bind_ok]
      simp only []
      rw [freqOf_of_ne_null l hl, bind_ok, freqOf_of_ne_null r hr, bind_ok, hr3, bind_ok]
      exact hr4

/-- Function `buildHuffmanTree` on a non-empty symbol list returns a node, and every property of
the list of fresh leaves that survives the merge of a least entry with a least entry among
the others holds of the list made of that node. -/
theorem buildHuffmanTree_min (I : List MinHeapNode → Prop)
    (hperm : ∀ a b : List MinHeapNode, a.Perm b → I a → I b)
    (hnn : ∀ a, I a → ∀ p ∈ a, p ≠ MinHeapNode.null)
    (hmerge : ∀ l r rest, I (l :: r :: rest) →
      (∀ p ∈ r :: rest, l.freqField ≤ p.freqField) →
      (∀ p ∈ rest, r.freqField ≤ p.freqField) →
      I (.mk 36 ((l.freqField + r.freqField) % 2 ^ 32) l r :: rest))
    (symbols : List (Byte × Nat)) (hne : symbols ≠ []) (hsz : symbols.length + 1 < 2 ^ 30)
    (hinit : I (symbols.map fun s => newNode s.1 s.2)) :
    ∃ t, buildHuffmanTree symbols = .ok t ∧ I [t] := by
  have hpos : 1 ≤ symbols.length := List.length_pos.mpr hne
  have hlive0 : MinHeap.live
      { createMinHeap symbols.length with
        size := symbols.length
        array := symbols.map fun s => newNode s.1 s.2 } =
      symbols.map fun s => newNode s.1 s.2 := by
    unfold MinHeap.live
    simp only []
    rw [List.take_of_length_le (by simp)]
  obtain ⟨h1, hr1, a1, _, a3, a4, a5⟩ := buildMinHeap_order
    { createMinHeap symbols.length with
      size := symbols.length
      array := symbols.map fun s => newNode s.1 s.2 }
    (by simp) hsz (by rw [hlive0]; exact hnn _ hinit)
  simp only [List.length_map] at a1 a3
  rw [hlive0] at a4
  obtain ⟨h2, hr2, b1, b3, b4⟩ := buildHuffmanLoop_min I hperm hnn hmerge
    (symbols.length + 1) h1 (by omega) (by omega) (by omega) (by omega) a5
    (hperm _ _ a4.symm hinit)
  obtain ⟨t, h3, hr3, c1, _, _, c4⟩ := extractMin_spec h2 (by omega) (by omega) (by omega)
    (hnn _ b4)
  have hnil : h3.live = [] := by
    unfold MinHeap.live
    rw [c1, b1]
    rfl
  rw [hnil] at c4
  refine ⟨t, ?_, hperm _ _ c4.symm b4⟩
  unfold buildHuffmanTree
  simp only []
  rw [hr1, bind_ok, hr2, bind_ok, hr3, bind_ok]

/-! ## Depth assignments with Kraft sum one -/

theorem kraftSum_cons (D : Nat) (x : Nat × Nat) (L : List (Nat × Nat)) :
    kraftSum D (x :: L) = 2 ^ (D - x.2) + kraftSum D L := by
  unfold kraftSum
  rw [List.map_cons, List.sum_cons]

theorem pathCost_cons (x : Nat × Nat) (L : List (Nat × Nat)) :
    pathCost (x :: L) = x.1 * x.2 + pathCost L := by
  unfold pathCost
  rw [List.map_cons, List.sum_cons]

theorem kraftSum_append (D : Nat) (L1 L2 : List (Nat × Nat)) :
    kraftSum D (L1 ++ L2) = kraftSum D L1 + kraftSum D L2 := by
  unfold kraftSum
  rw [List.map_append, List.sum_append]

theorem pathCost_append (L1 L2 : List (Nat × Nat)) :
    pathCost (L1 ++ L2) = pathCost L1 + pathCost L2 := by
  unfold pathCost
  rw [List.map_append, List.sum_append]

theorem kraftSum_perm (D : Nat) (L1 L2 : List (Nat × Nat)) (h : L1.Perm L2) :
    kraftSum D L1 = kraftSum D L2 := by
  unfold kraftSum
  exact (h.map _).sum_eq

theorem pathCost_perm (L1 L2 : List (Nat × Nat)) (h : L1.Perm L2) :
    pathCost L1 = pathCost L2 := by
  unfold pathCost
  exact (h.map _).sum_eq

/-- Moving the larger weight to the smaller depth does not raise the cost. -/
theorem rearrange (a x d M : Nat) (h1 : a ≤ x) (h2 : d ≤ M) :
    a * M + x * d ≤ a * d + x * M := by
  obtain ⟨u, rfl⟩ := Nat.exists_eq_add_of_le h1
  obtain ⟨v, rfl⟩ := Nat.exists_eq_add_of_le h2
  nlinarith [Nat.zero_le (u * v)]

theorem perm_map_fst_cons (L : List (Nat × Nat)) (a : Nat) (rest : List Nat)
    (h : (L.map Prod.fst).Perm (a :: rest)) :
    ∃ d R, L.Perm ((a, d) :: R) ∧ (R.map Prod.fst).Perm rest := by
  have hmem : a ∈ L.map Prod.fst := h.symm.subset (List.mem_cons_self _ _)
  rw [List.mem_map] at hmem
  obtain ⟨x, hx, rfl⟩ := hmem
  obtain ⟨R, hp⟩ : ∃ R, L.Perm (x :: R) := ⟨_, List.perm_cons_erase hx⟩
  refine ⟨x.2, R, hp, ?_⟩
  have h1 := ((hp.map Prod.fst).symm.trans h)
  rw [List.map_cons] at h1
  exact h1.cons_inv

theorem exists_max_depth (L : List (Nat × Nat)) (hne : L ≠ []) :
    ∃ M, (∀ x ∈ L, x.2 ≤ M) ∧ ∃ x ∈ L, x.2 = M := by
  induction L with
  | nil => exact absurd rfl hne
  | cons y rest ih =>
    by_cases hr : rest = []
    · subst hr
      exact ⟨y.2, by simp, y, List.mem_cons_self _ _, rfl⟩
    · obtain ⟨M, hle, x, hx, hxM⟩ := ih hr
      by_cases hy : y.2 ≤ M
      · refine ⟨M, ?_, x, List.mem_cons_of_mem _ hx, hxM⟩
        intro z hz
        rcases List.mem_cons.mp hz with h0 | h0
        · rw [h0]; exact hy
        · exact hle z h0
      · refine ⟨y.2, ?_, y, List.mem_cons_self _ _, rfl⟩
        intro z hz
        rcases List.mem_cons.mp hz with h0 | h0
        · rw [h0]
        · have := hle z h0
          omega

theorem kraftSum_depth_zero (D : Nat) (L : List (Nat × Nat)) (h : ∀ x ∈ L, x.2 = 0) :
    kraftSum D L = L.length * 2 ^ D := by
  induction L with
  | nil => simp [kraftSum]
  | cons y rest ih =>
    rw [kraftSum_cons, ih (fun x hx => h x (List.mem_cons_of_mem _ hx)),
      h y (List.mem_cons_self _ _), List.length_cons]
    simp only [Nat.sub_zero]
    ring

/-- In a depth assignment with Kraft sum one, an entry of greatest depth `M ≥ 1` is not the
only entry of that depth. -/
theorem kraft_other_deepest (D M w : Nat) (L1 : List (Nat × Nat)) (hM : 1 ≤ M) (hMD : M ≤ D)
    (hle : ∀ x ∈ L1, x.2 ≤ M) (hk : kraftSum D ((w, M) :: L1) = 2 ^ D) :
    ∃ x ∈ L1, x.2 = M := by
  by_contra hcon
  have hlt : ∀ x ∈ L1, x.2 < M := by
    intro x hx
    have h1 := hle x hx
    have h2 : x.2 ≠ M := fun hh => hcon ⟨x, hx, hh⟩
    omega
  have hdvd : 2 ^ (D - M + 1) ∣ kraftSum D L1 := by
    unfold kraftSum
    apply List.dvd_sum
    intro y hy
    rw [List.mem_map] at hy
    obtain ⟨x, hx, rfl⟩ := hy
    have := hlt x hx
    exact pow_dvd_pow 2 (by omega)
  have hD : 2 ^ (D - M + 1) ∣ 2 ^ D := pow_dvd_pow 2 (by omega)
  rw [kraftSum_cons] at hk
  simp only [] at hk
  rw [← hk] at hD
  have h3 : 2 ^ (D - M + 1) ∣ 2 ^ (D - M) := (Nat.dvd_add_left hdvd).mp hD
  have h4 := Nat.le_of_dvd (Nat.two_pow_pos _) h3
  rw [pow_succ] at h4
  have h5 : 0 < 2 ^ (D - M) := Nat.two_pow_pos _
  omega

/-- An entry of least weight can be moved to the greatest depth without changing the Kraft
sum or the weights and without raising the cost. -/
theorem raise_to_max (D M a da : Nat) (R : List (Nat × Nat)) (hle : da ≤ M)
    (hR : ∀ x ∈ R, x.2 ≤ M) (hatt : da = M ∨ ∃ x ∈ R, x.2 = M)
    (hmin : ∀ x ∈ R, a ≤ x.1) :
    ∃ R1, (∀ x ∈ R1, x.2 ≤ M) ∧ kraftSum D ((a, M) :: R1) = kraftSum D ((a, da) :: R) ∧
      (R1.map Prod.fst).Perm (R.map Prod.fst) ∧
      pathCost ((a, M) :: R1) ≤ pathCost ((a, da) :: R) := by
  by_cases hda : da = M
  · subst hda
    exact ⟨R, hR, rfl, List.Perm.refl _, le_refl _⟩
  · obtain ⟨x, hx, hxM⟩ : ∃ x ∈ R, x.2 = M := by
      rcases hatt with h0 | h0
      · exact absurd h0 hda
      · exact h0
    obtain ⟨R0, hp⟩ : ∃ R0, R.Perm (x :: R0) := ⟨_, List.perm_cons_erase hx⟩
    refine ⟨(x.1, da) :: R0, ?_, ?_, ?_, ?_⟩
    · intro y hy
      rcases List.mem_cons.mp hy with h0 | h0
      · rw [h0]; exact hle
      · exact hR y (hp.symm.subset (List.mem_cons_of_mem _ h0))
    · rw [kraftSum_cons, kraftSum_cons, kraftSum_cons, kraftSum_perm D R _ hp, kraftSum_cons,
        hxM]
      simp only []
      omega
    · exact ((hp.map Prod.fst).symm)
    · rw [pathCost_cons, pathCost_cons, pathCost_cons, pathCost_perm R _ hp, pathCost_cons,
        hxM]
      simp only []
      have := rearrange a x.1 da M (hmin x hx) hle
      omega

/-- The exchange step of the optimality argument: in a depth assignment with Kraft sum one for
at least two weights, two least weights `a` and `b` can be replaced by the one weight `a + b`
so that the Kraft sum stays one and the cost falls by at least `a + b`. -/
theorem kraft_merge (D a b : Nat) (rest : List Nat) (L : List (Nat × Nat))
    (hd : ∀ x ∈ L, x.2 ≤ D) (hk : kraftSum D L = 2 ^ D)
    (hw : (L.map Prod.fst).Perm (a :: b :: rest))
    (ha : ∀ x ∈ b :: rest, a ≤ x) (hb : ∀ x ∈ rest, b ≤ x) :
    ∃ L1, (∀ x ∈ L1, x.2 ≤ D) ∧ kraftSum D L1 = 2 ^ D ∧
      (L1.map Prod.fst).Perm ((a + b) :: rest) ∧ pathCost L1 + (a + b) ≤ pathCost L := by
  obtain ⟨da, R0, hp0, hw0⟩ := perm_map_fst_cons L a (b :: rest) hw
  have hLne : L ≠ [] := by
    intro hc
    rw [hc] at hp0
    exact (List.cons_ne_nil _ _) (List.perm_nil.mp hp0.symm)
  obtain ⟨M, hle, y, hy, hyM⟩ := exists_max_depth L hLne
  have hMD : M ≤ D := by rw [← hyM]; exact hd y hy
  have hlen : 2 ≤ L.length := by
    have := hw.length_eq
    rw [List.length_map] at this
    rw [this]
    simp
  have hM : 1 ≤ M := by
    by_contra hc
    have hzero : ∀ x ∈ L, x.2 = 0 := by
      intro x hx
      have := hle x hx
      omega
    have h1 := kraftSum_depth_zero D L hzero
    rw [hk] at h1
    have h2 : 0 < 2 ^ D := Nat.two_pow_pos _
    have h3 : 2 * 2 ^ D ≤ L.length * 2 ^ D := Nat.mul_le_mul_right _ hlen
    omega
  have hle0 : ∀ x ∈ (a, da) :: R0, x.2 ≤ M := fun x hx => hle x (hp0.symm.subset hx)
  obtain ⟨R1, hR1, hk1, hw1, hc1⟩ := raise_to_max D M a da R0
    (hle0 _ (List.mem_cons_self _ _)) (fun x hx => hle0 x (List.mem_cons_of_mem _ hx))
    (by
      rcases List.mem_cons.mp (hp0.subset hy) with h0 | h0
      · left
        rw [← hyM, h0]
      · exact Or.inr ⟨y, h0, hyM⟩)
    (by
      intro x hx
      exact ha x.1 (hw0.subset (List.mem_map_of_mem _ hx)))
  rw [← kraftSum_perm D L _ hp0, hk] at hk1
  rw [← pathCost_perm L _ hp0] at hc1
  obtain ⟨db, R2, hp2, hw2⟩ := perm_map_fst_cons R1 b rest (hw1.trans hw0)
  have hle2 : ∀ x ∈ (b, db) :: R2, x.2 ≤ M := fun x hx => hR1 x (hp2.symm.subset hx)
  obtain ⟨z, hz, hzM⟩ := kraft_other_deepest D M a R1 hM hMD hR1 hk1
  obtain ⟨R3, hR3, hk3, hw3, hc3⟩ := raise_to_max D M b db R2
    (hle2 _ (List.mem_cons_self _ _)) (fun x hx => hle2 x (List.mem_cons_of_mem _ hx))
    (by
      rcases List.mem_cons.mp (hp2.subset hz) with h0 | h0
      · left
        rw [← hzM, h0]
      · exact Or.inr ⟨z, h0, hzM⟩)
    (by
      intro x hx
      exact hb x.1 (hw2.subset (List.mem_map_of_mem _ hx)))
  rw [← kraftSum_perm D R1 _ hp2] at hk3
  rw [← pathCost_perm R1 _ hp2] at hc3
  rw [kraftSum_cons] at hk1 hk3
  rw [pathCost_cons] at hc1 hc3
  simp only [] at hk1 hk3 hc1 hc3
  obtain ⟨m, rfl⟩ : ∃ m, M = m + 1 := ⟨M - 1, by omega⟩
  refine ⟨(a + b, m) :: R3, ?_, ?_, ?_, ?_⟩
  · intro x hx
    rcases List.mem_cons.mp hx with h0 | h0
    · rw [h0]
      show m ≤ D
      omega
    · have := hR3 x h0
      omega
  · rw [kraftSum_cons]
    simp only []
    have e : 2 ^ (D - m) = 2 * 2 ^ (D - (m + 1)) := by
      have : D - m = (D - (m + 1)) + 1 := by omega
      rw [this, pow_succ]
      ring
    omega
  · exact hw3.trans hw2 |>.cons (a + b)
  · rw [pathCost_cons]
    simp only []
    have e1 : (a + b) * m + (a + b) = a * (m + 1) + b * (m + 1) := by ring
    omega

/-! ## The depths of the leaves of a tree -/

theorem leafDepthsAt_weights :
    ∀ (t : MinHeapNode) (d : Nat), (t.leafDepthsAt d).map Prod.fst = t.leaves.map Prod.snd := by
  intro t
  induction t with
  | null => intro d; rfl
  | mk data freq l r ihl ihr =>
    intro d
    simp only [MinHeapNode.leafDepthsAt, MinHeapNode.leaves]
    by_cases hc : (l.isNull && r.isNull) = true
    · rw [if_pos hc, if_pos hc]
      rfl
    · rw [if_neg hc, if_neg hc, List.map_append, List.map_append, ihl, ihr]

theorem leafDepthsAt_cost :
    ∀ (t : MinHeapNode) (d : Nat), pathCost (t.leafDepthsAt d) = t.weightedDepthAt d := by
  intro t
  induction t with
  | null => intro d; rfl
  | mk data freq l r ihl ihr =>
    intro d
    simp only [MinHeapNode.leafDepthsAt, MinHeapNode.weightedDepthAt]
    by_cases hc : (l.isNull && r.isNull) = true
    · rw [if_pos hc, if_pos hc]
      simp [pathCost]
    · rw [if_neg hc, if_neg hc, pathCost_append, ihl, ihr]

theorem leafDepthsAt_le :
    ∀ (t : MinHeapNode) (d : Nat), ∀ x ∈ t.leafDepthsAt d, x.2 ≤ d + t.height := by
  intro t
  induction t with
  | null => intro d x hx; cases hx
  | mk data freq l r ihl ihr =>
    intro d x hx
    simp only [MinHeapNode.leafDepthsAt, MinHeapNode.height] at hx ⊢
    by_cases hc : (l.isNull && r.isNull) = true
    · rw [if_pos hc] at hx ⊢
      rw [List.mem_singleton] at hx
      rw [hx]
      exact Nat.le_add_right _ _
    · rw [if_neg hc] at hx ⊢
      rcases List.mem_append.mp hx with h0 | h0
      · have := ihl (d + 1) x h0
        omega
      · have := ihr (d + 1) x h0
        omega

/-- The leaf depths of a tree in which every internal node has two children have Kraft sum
one. -/
theorem leafDepthsAt_kraft :
    ∀ (t : MinHeapNode) (d D : Nat), t.isFull = true → d + t.height ≤ D →
      kraftSum D (t.leafDepthsAt d) = 2 ^ (D - d) := by
  intro t
  induction t with
  | null => intro d D h; cases h
  | mk data freq l r ihl ihr =>
    intro d D h hD
    rcases isFull_cases data freq l r h with ⟨rfl, rfl⟩ | ⟨hl, hr⟩
    · simp [MinHeapNode.leafDepthsAt, MinHeapNode.isNull, kraftSum]
    · have hln := isNull_eq_false l (isFull_ne_null l hl)
      simp only [MinHeapNode.height, hln, Bool.false_and] at hD
      simp only [MinHeapNode.leafDepthsAt, hln, Bool.false_and]
      have hD1 : d + 1 + l.height ≤ D := by
        have := Nat.le_max_left l.height r.height
        simp only [Bool.false_eq_true, if_false] at hD
        omega
      have hD2 : d + 1 + r.height ≤ D := by
        have := Nat.le_max_right l.height r.height
        simp only [Bool.false_eq_true, if_false] at hD
        omega
      simp only [Bool.false_eq_true, if_false]
      rw [kraftSum_append, ihl (d + 1) D hl hD1, ihr (d + 1) D hr hD2]
      have e : D - d = (D - (d + 1)) + 1 := by omega
      rw [e, pow_succ]
      ring

/-- The weighted path length below a node placed at depth `d`. -/
theorem weightedDepthAt_eq :
    ∀ (t : MinHeapNode) (d : Nat), t.weightedDepthAt d = t.weightedDepth + d * t.leafSum := by
  intro t
  induction t with
  | null => intro d; simp [MinHeapNode.weightedDepthAt, MinHeapNode.weightedDepth,
      MinHeapNode.leafSum, MinHeapNode.leaves]
  | mk data freq l r ihl ihr =>
    intro d
    unfold MinHeapNode.weightedDepth MinHeapNode.leafSum
    simp only [MinHeapNode.weightedDepthAt, MinHeapNode.leaves]
    by_cases hc : (l.isNull && r.isNull) = true
    · rw [if_pos hc, if_pos hc, if_pos hc]
      simp [Nat.mul_comm]
    · rw [if_neg hc, if_neg hc, if_neg hc, ihl (d + 1), ihr (d + 1), ihl (0 + 1),
        ihr (0 + 1), List.map_append, List.sum_append]
      unfold MinHeapNode.leafSum
      ring

/-- The weighted path length of a node made by a merge. -/
theorem weightedDepth_merge (d : Byte) (f : Nat) (l r : MinHeapNode) (hl : l ≠ .null) :
    (MinHeapNode.mk d f l r).weightedDepth =
      l.weightedDepth + r.weightedDepth + (l.leafSum + r.leafSum) := by
  unfold MinHeapNode.weightedDepth
  simp only [MinHeapNode.weightedDepthAt, isNull_eq_false l hl, Bool.false_and,
    Bool.false_eq_true, if_false]
  rw [weightedDepthAt_eq l (0 + 1), weightedDepthAt_eq r (0 + 1)]
  unfold MinHeapNode.weightedDepth
  ring

/-! ## Optimality of the built tree -/

/-- The weighted path length of the built tree is at most the cost of every assignment of
depths to the frequencies that has Kraft sum one. -/
theorem buildHuffmanTree_le_pathCost (symbols : List (Byte × Nat)) (hne : symbols ≠ [])
    (hsz : symbols.length + 1 < 2 ^ 30) (htotal : (symbols.map Prod.snd).sum < 2 ^ 32)
    (D : Nat) (L : List (Nat × Nat)) (hd : ∀ x ∈ L, x.2 ≤ D) (hk : kraftSum D L = 2 ^ D)
    (hw : (L.map Prod.fst).Perm (symbols.map Prod.snd)) :
    ∃ t, buildHuffmanTree symbols = .ok t ∧ t.weightedDepth ≤ pathCost L := by
  obtain ⟨t, ht, _, _, L1, _, _, _, hcost⟩ := buildHuffmanTree_min
    (fun a => (∀ p ∈ a, p ≠ .null ∧ p.freqField = p.leafSum) ∧
      (a.map MinHeapNode.freqField).sum < 2 ^ 32 ∧
      ∃ L1 : List (Nat × Nat), (∀ x ∈ L1, x.2 ≤ D) ∧ kraftSum D L1 = 2 ^ D ∧
        (L1.map Prod.fst).Perm (a.map MinHeapNode.freqField) ∧
        (a.map MinHeapNode.weightedDepth).sum + pathCost L1 ≤ pathCost L)
    (by
      intro a b hab ⟨h1, h2, L1, h3, h4, h5, h6⟩
      refine ⟨fun p hp => h1 p (hab.symm.subset hp), ?_, L1, h3, h4, h5.trans (hab.map _), ?_⟩
      · rw [← (hab.map _).sum_eq]
        exact h2
      · rw [← (hab.map _).sum_eq]
        exact h6)
    (by
      intro a ⟨h1, _⟩ p hp
      exact (h1 p hp).1)
    (by
      intro l r rest ⟨h1, h2, L1, h3, h4, h5, h6⟩ hminl hminr
      obtain ⟨hln, hlf⟩ := h1 l (List.mem_cons_self _ _)
      obtain ⟨hrn, hrf⟩ := h1 r (List.mem_cons_of_mem _ (List.mem_cons_self _ _))
      simp only [List.map_cons, List.sum_cons] at h2 h5 h6
      have hnowrap : (l.freqField + r.freqField) % 2 ^ 32 = l.freqField + r.freqField :=
        Nat.mod_eq_of_lt (by omega)
      rw [hnowrap]
      obtain ⟨L2, g1, g2, g3, g4⟩ := kraft_merge D l.freqField r.freqField
        (rest.map MinHeapNode.freqField) L1 h3 h4 h5
        (by
          intro x hx
          rcases List.mem_cons.mp hx with h0 | h0
          · rw [h0]
            exact hminl r (List.mem_cons_self _ _)
          · rw [List.mem_map] at h0
            obtain ⟨p, hp, rfl⟩ := h0
            exact hminl p (List.mem_cons_of_mem _ hp))
        (by
          intro x hx
          rw [List.mem_map] at hx
          obtain ⟨p, hp, rfl⟩ := hx
          exact hminr p hp)
      refine ⟨?_, ?_, L2, g1, g2, ?_, ?_⟩
      · intro p hp
        rcases List.mem_cons.mp hp with rfl | hp
        · refine ⟨(by intro hc; cases hc), ?_⟩
          rw [leafSum_merge _ _ l r hln, ← hlf, ← hrf]
          rfl
        · exact h1 p (List.mem_cons_of_mem _ (List.mem_cons_of_mem _ hp))
      · simp only [List.map_cons, List.sum_cons]
        have e : (MinHeapNode.mk 36 (l.freqField + r.freqField) l r).freqField =
            l.freqField + r.freqField := rfl
        rw [e]
        omega
      · simp only [List.map_cons]
        exact g3
      · simp only [List.map_cons, List.sum_cons]
        rw [weightedDepth_merge _ _ l r hln, ← hlf, ← hrf]
        omega)
    symbols hne hsz
    (by
      have hle : ∀ s ∈ symbols, s.2 < 2 ^ 32 := by
        intro s hs
        have := List.single_le_sum (fun x _ => Nat.zero_le x) s.2
          (List.mem_map.mpr ⟨s, hs, rfl⟩)
        omega
      have hfreq : (symbols.map fun s => newNode s.1 s.2).map MinHeapNode.freqField =
          symbols.map Prod.snd := by
        rw [List.map_map]
        apply List.map_congr_left
        intro s hs
        exact Nat.mod_eq_of_lt (hle s hs)
      have hwd : ((symbols.map fun s => newNode s.1 s.2).map MinHeapNode.weightedDepth).sum
          = 0 := by
        rw [List.map_map]
        apply List.sum_eq_zero
        intro x hx
        rw [List.mem_map] at hx
        obtain ⟨s, _, rfl⟩ := hx
        simp [newNode, MinHeapNode.weightedDepth, MinHeapNode.weightedDepthAt,
          MinHeapNode.isNull]
      refine ⟨?_, ?_, L, hd, hk, ?_, ?_⟩
      · intro p hp
        rw [List.mem_map] at hp
        obtain ⟨s, _, rfl⟩ := hp
        refine ⟨(by intro hc; cases hc), ?_⟩
        simp [newNode, MinHeapNode.leafSum, MinHeapNode.leaves, MinHeapNode.freqField,
          MinHeapNode.isNull]
      · rw [hfreq]
        exact htotal
      · rw [hfreq]
        exact hw
      · rw [hwd, Nat.zero_add])
  refine ⟨t, ht, ?_⟩
  simp only [List.map_cons, List.map_nil, List.sum_cons, List.sum_nil, Nat.add_zero] at hcost
  omega

/-- Claim C17. Optimality.  For every valid symbol list (not empty, each byte value once)
whose frequencies sum to less than `2 ^ 32`, `buildHuffmanTree` returns a tree, with two
children per internal node and leaves that carry the given symbols and frequencies, whose
weighted path length (the sum over the leaves of frequency times depth) is at most that of
every tree with two children per internal node whose leaves carry the same symbols and
frequencies.  The bound does not depend on how the heap resolves frequency ties. -/
theorem huffman_optimal (symbols : List (Byte × Nat)) (hne : symbols ≠ [])
    (hnodup : (symbols.map Prod.fst).Nodup)
    (htotal : (symbols.map Prod.snd).sum < 2 ^ 32) :
    ∃ t, buildHuffmanTree symbols = .ok t ∧ t.isFull = true ∧ t.leaves.Perm symbols ∧
      ∀ u : MinHeapNode, u.isFull = true → u.leaves.Perm symbols →
        t.weightedDepth ≤ u.weightedDepth := by
  have hlen : symbols.length ≤ 256 := by
    have := hnodup.length_le_card
    rw [List.length_map, Fintype.card_fin] at this
    exact this
  have hle : ∀ s ∈ symbols, s.2 < 2 ^ 32 := by
    intro s hs
    have := List.single_le_sum (fun x _ => Nat.zero_le x) s.2
      (List.mem_map.mpr ⟨s, hs, rfl⟩)
    omega
  obtain ⟨t, ht, hfull, hleaves⟩ := buildHuffmanTree_full symbols hne (by omega)
  have hid : (symbols.map fun s => (s.1, s.2 % 2 ^ 32)) = symbols := by
    conv_rhs => rw [← List.map_id symbols]
    apply List.map_congr_left
    intro s hs
    rw [Nat.mod_eq_of_lt (hle s hs)]
    rfl
  rw [hid] at hleaves
  refine ⟨t, ht, hfull, hleaves, ?_⟩
  intro u hu hul
  obtain ⟨t1, ht1, hcost⟩ := buildHuffmanTree_le_pathCost symbols hne (by omega) htotal
    (0 + u.height) (u.leafDepthsAt 0) (leafDepthsAt_le u 0)
    (by rw [leafDepthsAt_kraft u 0 _ hu (le_refl _)]; rfl)
    (by rw [leafDepthsAt_weights]; exact hul.map _)
  rw [ht] at ht1
  injection ht1 with ht1
  subst ht1
  rw [leafDepthsAt_cost] at hcost
  exact hcost

/-- Instance of `huffman_optimal` on the symbol list `a:3, b:1, c:2`, compared with the tree
that pairs `a` with `b`. -/
theorem huffman_optimal_witness :
    ([(97, 3), (98, 1), (99, 2)] : List (Byte × Nat)) ≠ [] ∧
    (([(97, 3), (98, 1), (99, 2)] : List (Byte × Nat)).map Prod.fst).Nodup ∧
    (([(97, 3), (98, 1), (99, 2)] : List (Byte × Nat)).map Prod.snd).sum < 2 ^ 32 ∧
    ∃ t, buildHuffmanTree [(97, 3), (98, 1), (99, 2)] = .ok t ∧
      t.weightedDepth ≤
        (MinHeapNode.mk 36 6 (.mk 36 4 (newNode 97 3) (newNode 98 1))
          (newNode 99 2)).weightedDepth :=
  ⟨by decide, by decide, by decide,
   match huffman_optimal [(97, 3), (98, 1), (99, 2)] (by decide) (by decide) (by decide) with
   | ⟨t, h1, _, _, h4⟩ =>
     ⟨t, h1, h4 (.mk 36 6 (.mk 36 4 (newNode 97 3) (newNode 98 1)) (newNode 99 2))
       (by decide) (List.Perm.refl _)⟩⟩

/-! ## The number of encoded bits -/

/-- A sum over the input bytes, grouped by byte value. -/
theorem sum_by_count (g : Byte → Nat) (S : List Byte) :
    (S.map g).sum = ((List.finRange 256).map fun b => S.count b * g b).sum := by
  induction S with
  | nil =>
    symm
    apply List.sum_eq_zero
    intro x hx
    rw [List.mem_map] at hx
    obtain ⟨b, _, rfl⟩ := hx
    rw [List.count_nil, Nat.zero_mul]
  | cons c rest ih =>
    rw [List.map_cons, List.sum_cons, ih, ← Fin.sum_univ_def, ← Fin.sum_univ_def]
    have e : ∀ b : Byte, (c :: rest).count b * g b =
        rest.count b * g b + (if c = b then g b else 0) := by
      intro b
      rw [List.count_cons]
      by_cases h : c = b
      · subst h
        simp [Nat.add_mul]
      · have hb : (c == b) = false := by
          rw [beq_eq_false_iff_ne]
          exact h
        rw [hb, if_neg h]
        simp
    rw [Finset.sum_congr rfl (fun b _ => e b), Finset.sum_add_distrib,
      Finset.sum_ite_eq Finset.univ c g, if_pos (Finset.mem_univ c), Nat.add_comm]

theorem sum_filter_pos_mul (f g : Byte → Nat) (is : List Byte) :
    ((is.filter fun i => 0 < f i).map fun i => f i * g i).sum =
      (is.map fun i => f i * g i).sum := by
  induction is with
  | nil => rfl
  | cons i rest ih =>
    by_cases h : 0 < f i
    · rw [List.filter_cons_of_pos (by simpa using h), List.map_cons, List.sum_cons, ih,
        List.map_cons, List.sum_cons]
    · rw [List.filter_cons_of_neg (by simpa using h), ih, List.map_cons, List.sum_cons]
      have : f i = 0 := by omega
      rw [this, Nat.zero_mul, Nat.zero_add]

/-- The weighted path length of a tree, computed from any function that gives each leaf
symbol the length of its path. -/
theorem weightedDepthAt_codes (g : Byte → Nat) :
    ∀ (t : MinHeapNode) (d : Nat), (∀ e ∈ t.codes, g e.1 = d + e.2.length) →
      (t.leaves.map fun e => e.2 * g e.1).sum = t.weightedDepthAt d := by
  intro t
  induction t with
  | null => intro d _; rfl
  | mk data freq l r ihl ihr =>
    intro d hg
    simp only [MinHeapNode.codes, MinHeapNode.leaves, MinHeapNode.weightedDepthAt] at hg ⊢
    by_cases hc : (l.isNull && r.isNull) = true
    · rw [if_pos hc] at hg ⊢
      rw [if_pos hc]
      have := hg (data, []) (List.mem_singleton_self _)
      simp only [List.length_nil, Nat.add_zero] at this
      simp [this]
    · rw [if_neg hc] at hg ⊢
      rw [if_neg hc, List.map_append, List.sum_append,
        ihl (d + 1) (by
          intro e he
          have := hg (e.1, false :: e.2)
            (List.mem_append_left _ (List.mem_map.mpr ⟨e, he, rfl⟩))
          simp only [List.length_cons] at this
          omega),
        ihr (d + 1) (by
          intro e he
          have := hg (e.1, true :: e.2)
            (List.mem_append_right _ (List.mem_map.mpr ⟨e, he, rfl⟩))
          simp only [List.length_cons] at this
          omega)]

/-- Any `k` weights, `1 ≤ k ≤ 2 ^ e`, can be given depths between `d` and `d + e` with Kraft
sum `2 ^ (-d)`. -/
theorem exists_balanced :
    ∀ (e : Nat) (ws : List Nat) (d D : Nat), 1 ≤ ws.length → ws.length ≤ 2 ^ e →
      d + e ≤ D →
      ∃ L : List (Nat × Nat), L.map Prod.fst = ws ∧ (∀ x ∈ L, x.2 ≤ d + e) ∧
        kraftSum D L = 2 ^ (D - d) := by
  intro e
  induction e with
  | zero =>
    intro ws d D h1 h2 _
    match ws, h1, h2 with
    | [w], _, _ => exact ⟨[(w, d)], rfl, by simp, by simp [kraftSum]⟩
    | [], h1, _ => simp at h1
    | _ :: _ :: _, _, h2 => simp at h2
  | succ e ih =>
    intro ws d D h1 h2 hD
    by_cases hone : ws.length = 1
    · match ws, hone with
      | [w], _ => exact ⟨[(w, d)], rfl, by simp, by simp [kraftSum]⟩
    · have hk1 : 1 ≤ (ws.take (ws.length / 2)).length := by
        rw [List.length_take]
        omega
      have hk2 : (ws.take (ws.length / 2)).length ≤ 2 ^ e := by
        rw [List.length_take]
        rw [pow_succ] at h2
        omega
      have hk3 : 1 ≤ (ws.drop (ws.length / 2)).length := by
        rw [List.length_drop]
        omega
      have hk4 : (ws.drop (ws.length / 2)).length ≤ 2 ^ e := by
        rw [List.length_drop]
        rw [pow_succ] at h2
        omega
      obtain ⟨L1, a1, a2, a3⟩ := ih (ws.take (ws.length / 2)) (d + 1) D hk1 hk2 (by omega)
      obtain ⟨L2, b1, b2, b3⟩ := ih (ws.drop (ws.length / 2)) (d + 1) D hk3 hk4 (by omega)
      refine ⟨L1 ++ L2, ?_, ?_, ?_⟩
      · rw [List.map_append, a1, b1, List.take_append_drop]
      · intro x hx
        rcases List.mem_append.mp hx with h0 | h0
        · have := a2 x h0
          omega
        · have := b2 x h0
          omega
      · rw [kraftSum_append, a3, b3]
        have e1 : D - d = (D - (d + 1)) + 1 := by omega
        rw [e1, pow_succ]
        ring

theorem pathCost_le (m : Nat) (L : List (Nat × Nat)) (h : ∀ x ∈ L, x.2 ≤ m) :
    pathCost L ≤ m * (L.map Prod.fst).sum := by
  induction L with
  | nil => simp [pathCost]
  | cons y rest ih =>
    rw [pathCost_cons, List.map_cons, List.sum_cons, Nat.mul_add]
    have h1 := ih (fun x hx => h x (List.mem_cons_of_mem _ hx))
    have h2 : y.1 * y.2 ≤ m * y.1 := by
      rw [Nat.mul_comm]
      exact Nat.mul_le_mul_right _ (h y (List.mem_cons_self _ _))
    omega

set_option maxRecDepth 100000 in
theorem wrapped_counts : ∀ b : Byte,
    (0 + ((if (0 : Byte) == b then 2 ^ 32 + 1 else 0) + (if (1 : Byte) == b then 1 else 0) +
      (if (2 : Byte) == b then 2 else 0) + (if (3 : Byte) == b then 4 else 0) +
      (if (4 : Byte) == b then 8 else 0) + (if (5 : Byte) == b then 16 else 0) +
      (if (6 : Byte) == b then 32 else 0) + (if (7 : Byte) == b then 64 else 0) +
      (if (8 : Byte) == b then 128 else 0) + (if (9 : Byte) == b then 256 else 0))) % 2 ^ 32 =
    (if b = 0 then 1 else if b = 1 then 1 else if b = 2 then 2 else if b = 3 then 4
      else if b = 4 then 8 else if b = 5 then 16 else if b = 6 then 32
      else if b = 7 then 64 else if b = 8 then 128 else if b = 9 then 256 else 0) := by
  decide

set_option maxRecDepth 100000 in
theorem collectSymbols_wrapped :
    collectSymbols (fun b : Byte => if b = 0 then 1 else if b = 1 then 1 else if b = 2 then 2
      else if b = 3 then 4 else if b = 4 then 8 else if b = 5 then 16 else if b = 6 then 32
      else if b = 7 then 64 else if b = 8 then 128 else if b = 9 then 256 else 0)
      (List.finRange 256) =
      [(0, 1), (1, 1), (2, 2), (3, 4), (4, 8), (5, 16), (6, 32), (7, 64), (8, 128),
        (9, 256)] := by
  decide

set_option maxRecDepth 100000 in
theorem buildHuffmanTree_wrapped :
    buildHuffmanTree [(0, 1), (1, 1), (2, 2), (3, 4), (4, 8), (5, 16), (6, 32), (7, 64),
      (8, 128), (9, 256)] =
    .ok (.mk 36 512 (newNode 9 256) (.mk 36 256 (newNode 8 128) (.mk 36 128 (newNode 7 64)
      (.mk 36 64 (newNode 6 32) (.mk 36 32 (newNode 5 16) (.mk 36 16 (newNode 4 8)
      (.mk 36 8 (newNode 3 4) (.mk 36 4 (newNode 2 2)
      (.mk 36 2 (newNode 0 1) (newNode 1 1)))))))))) := by
  rfl

/-- Claim C12, counterexample. The claim as stated, for every non-empty input, fails once a
32-bit counter wraps.  Take `2 ^ 32 + 1` bytes `0` followed by 511 bytes in which the values
`1, 2, ..., 9` occur `1, 2, 4, ..., 256` times: byte `0` accounts for more than 99% of the
`2 ^ 32 + 512` bytes, but its counter wraps to `1`, the tree built from the stored counts
puts it at depth 9, and the codewords of the input bytes add up to at least 8 times the
input length. -/
theorem skewed_input_expands_on_wrap :
    ∃ S : List Byte,
      S = List.replicate (2 ^ 32 + 1) 0 ++ List.replicate 1 1 ++ List.replicate 2 2 ++
        List.replicate 4 3 ++ List.replicate 8 4 ++ List.replicate 16 5 ++
        List.replicate 32 6 ++ List.replicate 64 7 ++ List.replicate 128 8 ++
        List.replicate 256 9 ∧
      S ≠ [] ∧ S.length = 2 ^ 32 + 512 ∧ 9 * S.length ≤ 10 * S.count 0 ∧
      ∃ freq tbl, tally S (fun _ => 0, 0) = .ok (freq, (S.length : Int)) ∧
        freq 0 = 1 ∧
        generateCodes (collectSymbols freq (List.finRange 256)) (fun _ => none) = .ok tbl ∧
        (∀ c ∈ S, (tbl c).isSome = true) ∧
        tbl 0 = some [true, true, true, true, true, true, true, true, false] ∧
        8 * S.length ≤ (S.map fun c => ((tbl c).getD []).length).sum := by
  refine ⟨_, rfl, ?_, ?_, ?_, ?_⟩
  · intro hc
    have := congrArg List.length hc
    simp only [List.length_append, List.length_replicate, List.length_nil] at this
    omega
  · simp only [List.length_append, List.length_replicate]
  · simp only [List.length_append, List.length_replicate, List.count_append,
      List.count_replicate]
    decide
  · have htally := tally_spec (List.replicate (2 ^ 32 + 1) 0 ++ List.replicate 1 1 ++
      List.replicate 2 2 ++ List.replicate 4 3 ++ List.replicate 8 4 ++
      List.replicate 16 5 ++ List.replicate 32 6 ++ List.replicate 64 7 ++
      List.replicate 128 8 ++ List.replicate 256 9) (fun _ => 0) 0 (fun _ => by norm_num)
      (by
        simp only [List.length_append, List.length_replicate]
        norm_num)
    rw [Int.zero_add] at htally
    have hfreq : (fun b : Byte => ((fun _ => 0) b + (List.replicate (2 ^ 32 + 1) 0 ++
        List.replicate 1 1 ++ List.replicate 2 2 ++ List.replicate 4 3 ++
        List.replicate 8 4 ++ List.replicate 16 5 ++ List.replicate 32 6 ++
        List.replicate 64 7 ++ List.replicate 128 8 ++
        List.replicate 256 9 : List Byte).count b) % 2 ^ 32) =
        fun b => if b = 0 then 1 else if b = 1 then 1 else if b = 2 then 2
          else if b = 3 then 4 else if b = 4 then 8 else if b = 5 then 16
          else if b = 6 then 32 else if b = 7 then 64 else if b = 8 then 128
          else if b = 9 then 256 else 0 := by
      funext b
      simp only [List.count_append, List.count_replicate]
      exact wrapped_counts b
    rw [hfreq] at htally
    obtain ⟨t, tbl, hbuild, _, _, hgen, hiff, hnone⟩ := generateCodes_table
      [(0, 1), (1, 1), (2, 2), (3, 4), (4, 8), (5, 16), (6, 32), (7, 64), (8, 128), (9, 256)]
      (by decide) (by decide)
    rw [buildHuffmanTree_wrapped] at hbuild
    have ht := Except.ok.inj hbuild
    have h0 : tbl 0 = some [true, true, true, true, true, true, true, true, false] := by
      rw [hiff, ← ht]
      decide
    refine ⟨_, tbl, htally, rfl, ?_, ?_, h0, ?_⟩
    · rw [collectSymbols_wrapped]
      exact hgen
    · intro c hc
      cases h : tbl c with
      | some code => rfl
      | none =>
        have hn := (hnone c).mp h
        simp only [List.mem_append, List.mem_replicate] at hc
        exfalso
        apply hn
        rcases hc with ((((((((⟨_, rfl⟩ | ⟨_, rfl⟩) | ⟨_, rfl⟩) | ⟨_, rfl⟩) | ⟨_, rfl⟩) |
          ⟨_, rfl⟩) | ⟨_, rfl⟩) | ⟨_, rfl⟩) | ⟨_, rfl⟩) | ⟨_, rfl⟩ <;> decide
    · simp only [List.map_append, List.sum_append, List.map_replicate, List.sum_replicate,
        List.length_append, List.length_replicate, h0, smul_eq_mul]
      simp only [Option.getD_some, List.length_cons, List.length_nil]
      omega

/-! ## The decoder produces the stored count exactly when the stream holds that many codewords -/

/-- Decoding the concatenation of `cs.length` codewords of the tree followed by any further
bits, with stored count `decodedCount + cs.length`, appends exactly their symbols to the
output. -/
theorem decodeBits_codes (root : MinHeapNode) (hfull : root.isFull = true)
    (hleaf : root.isLeaf = false) :
    ∀ (cs : List (Byte × Code)) (tail : List Bool) (st : DecodeState) (k : Int),
      (∀ e ∈ cs, e ∈ root.codes) → st.current = root →
      st.decodedCount + cs.length = k →
      decodeBits root k (cs.flatMap Prod.snd ++ tail) st =
        ({ current := root, decodedCount := k, output := st.output ++ cs.map Prod.fst },
          none) := by
  intro cs
  induction cs with
  | nil =>
    intro tail st k _ hcur hk
    rw [decodeBits_done root k _ st (by simp at hk; omega)]
    obtain ⟨current, decodedCount, output⟩ := st
    simp only at hcur hk
    subst hcur
    simp at hk
    subst hk
    simp
  | cons e cs ih =>
    intro tail st k hmem hcur hk
    rw [List.length_cons] at hk
    push_cast at hk
    rw [List.flatMap_cons, List.append_assoc,
      decodeBits_code root k root hfull hleaf e.1 e.2 (hmem e (List.mem_cons_self _ _)) _ st
        hcur (by omega),
      ih tail _ k (fun x hx => hmem x (List.mem_cons_of_mem _ hx)) rfl
        (by simp only []; omega)]
    simp

/-- When the decoder reaches the stored count, the bits it was given begin with that many
codewords of the tree (after the part `pre` of a codeword already read). -/
theorem decodeBits_complete (root : MinHeapNode) (k : Int) :
    ∀ (bs : List Bool) (st : DecodeState) (pre : List Bool),
      (∀ e ∈ st.current.codes, (e.1, pre ++ e.2) ∈ root.codes) →
      (decodeBits root k bs st).1.decodedCount = k → st.decodedCount ≤ k →
      ∃ (cs : List (Byte × Code)) (tail : List Bool), (∀ e ∈ cs, e ∈ root.codes) ∧
        (cs.length : Int) = k - st.decodedCount ∧
        pre ++ bs = cs.flatMap Prod.snd ++ tail := by
  intro bs
  induction bs with
  | nil =>
    intro st pre _ hres _
    refine ⟨[], pre, fun e he => (by cases he), ?_, by simp⟩
    have : (decodeBits root k [] st).1 = st := rfl
    rw [this] at hres
    simp only [List.length_nil]
    omega
  | cons b bs ih =>
    intro st pre hcodes hres hle
    rw [decodeBits_cons] at hres
    by_cases hge : st.decodedCount ≥ k
    · refine ⟨[], pre ++ b :: bs, fun e he => (by cases he), ?_, by simp⟩
      simp only [List.length_nil]
      omega
    · rw [if_neg hge] at hres
      obtain ⟨current, decodedCount, output⟩ := st
      simp only at hcodes hge hle
      cases current with
      | null =>
        exfalso
        have : decodeBit root (DecodeState.mk .null decodedCount output) b = .error .nullDeref := rfl
        rw [this] at hres
        simp only at hres
        omega
      | mk d f l r =>
        cases hv : (if b = true then r else l) with
        | null =>
          exfalso
          have : decodeBit root (DecodeState.mk (.mk d f l r) decodedCount output) b = .error .nullDeref := by
            unfold decodeBit
            simp only [hv]
          rw [this] at hres
          simp only at hres
          omega
        | mk data freq l1 r1 =>
          have hnl : (l.isNull && r.isNull) = false := by
            cases b
            · simp only [Bool.false_eq_true, if_false] at hv
              rw [hv]
              rfl
            · simp only [if_true] at hv
              rw [hv]
              simp [MinHeapNode.isNull]
          have hchild : ∀ e ∈ (MinHeapNode.mk data freq l1 r1).codes,
              (e.1, pre ++ (b :: e.2)) ∈ root.codes := by
            intro e he
            apply hcodes (e.1, b :: e.2)
            simp only [MinHeapNode.codes, hnl, Bool.false_eq_true, if_false]
            cases b
            · simp only [Bool.false_eq_true, if_false] at hv
              rw [hv]
              exact List.mem_append_left _ (List.mem_map.mpr ⟨e, he, rfl⟩)
            · simp only [if_true] at hv
              rw [hv]
              exact List.mem_append_right _ (List.mem_map.mpr ⟨e, he, rfl⟩)
          by_cases hlf : (l1.isNull && r1.isNull) = true
          · have hstep : decodeBit root (DecodeState.mk (.mk d f l r) decodedCount output) b =
                .ok (DecodeState.mk root (decodedCount + 1) (output ++ [data])) := by
              unfold decodeBit
              simp only [hv, hlf, if_true]
            rw [hstep] at hres
            simp only at hres
            obtain ⟨cs, tail, h1, h2, h3⟩ := ih _ [] (fun e he => he) hres
              (by simp only []; omega)
            have hcode : (data, pre ++ [b]) ∈ root.codes := by
              apply hchild (data, [])
              simp only [MinHeapNode.codes, hlf, if_true]
              exact List.mem_singleton_self _
            refine ⟨(data, pre ++ [b]) :: cs, tail, ?_, ?_, ?_⟩
            · intro e he
              rcases List.mem_cons.mp he with h0 | h0
              · rw [h0]; exact hcode
              · exact h1 e h0
            · rw [List.length_cons]
              push_cast
              simp only [] at h2
              omega
            · rw [List.flatMap_cons]
              simp only [List.nil_append] at h3
              rw [List.append_assoc, ← h3]
              simp
          · have hstep : decodeBit root (DecodeState.mk (.mk d f l r) decodedCount output) b =
                .ok (DecodeState.mk (.mk data freq l1 r1) decodedCount output) := by
              unfold decodeBit
              simp only [hv, hlf, Bool.false_eq_true, if_false]
            rw [hstep] at hres
            simp only at hres
            obtain ⟨cs, tail, h1, h2, h3⟩ := ih _ (pre ++ [b])
              (by
                intro e he
                rw [List.append_assoc]
                exact hchild e he)
              hres hle
            refine ⟨cs, tail, h1, h2, ?_⟩
            rw [← h3]
            simp

/-- Claim C8 (as amended). For every tree with at least two leaves, every stored count
`k ≥ 0` and every packed byte sequence, the decoder produces at most `k` bytes, and it
produces exactly `k` bytes if and only if the packed bits begin with `k` codewords of the
tree.  When they do, the decoder ends without a fault, back at the root, and its output is
the sequence of the symbols of these codewords.  They do in particular whenever the packed
bytes hold at least `k * h` bits, `h` the height of the tree. -/
theorem decode_output_length (root : MinHeapNode) (k : Int) (packed : List Byte)
    (hfull : root.isFull = true) (hleaves : 2 ≤ root.leaves.length) (hk : 0 ≤ k) :
    ((decode packed root k).1.output.length : Int) ≤ k ∧
    (((decode packed root k).1.output.length : Int) = k ↔
      ∃ (cs : List (Byte × Code)) (tail : List Bool), (∀ e ∈ cs, e ∈ root.codes) ∧
        (cs.length : Int) = k ∧ bitsOfBytes packed = cs.flatMap Prod.snd ++ tail) ∧
    (∀ (cs : List (Byte × Code)) (tail : List Bool), (∀ e ∈ cs, e ∈ root.codes) →
      (cs.length : Int) = k → bitsOfBytes packed = cs.flatMap Prod.snd ++ tail →
      decode packed root k =
        (DecodeState.mk root k (cs.map Prod.fst), none)) ∧
    (k * root.height ≤ 8 * packed.length →
      (decode packed root k).2 = none ∧
        ((decode packed root k).1.output.length : Int) = k) := by
  have hinv := decodeBits_count root k (bitsOfBytes packed)
    { current := root, decodedCount := 0, output := [] } rfl hk
  have hleaf := isLeaf_false_of_leaves root hleaves
  have hfwd : ∀ (cs : List (Byte × Code)) (tail : List Bool), (∀ e ∈ cs, e ∈ root.codes) →
      (cs.length : Int) = k → bitsOfBytes packed = cs.flatMap Prod.snd ++ tail →
      decode packed root k = (DecodeState.mk root k (cs.map Prod.fst), none) := by
    intro cs tail hmem hlen hbits
    unfold decode
    rw [decodeLoop_eq_decodeBits, hbits,
      decodeBits_codes root hfull hleaf cs tail _ k hmem rfl (by simp only []; omega)]
    simp
  unfold decode at hfwd ⊢
  rw [decodeLoop_eq_decodeBits] at hfwd ⊢
  refine ⟨by omega, ⟨?_, ?_⟩, hfwd, ?_⟩
  · intro hout
    obtain ⟨cs, tail, h1, h2, h3⟩ := decodeBits_complete root k (bitsOfBytes packed)
      { current := root, decodedCount := 0, output := [] } [] (fun e he => he)
      (by omega) hk
    exact ⟨cs, tail, h1, by simp only [] at h2; omega, by simpa using h3⟩
  · rintro ⟨cs, tail, h1, h2, h3⟩
    rw [hfwd cs tail h1 h2 h3]
    simp only [List.length_map]
    exact h2
  · intro hbits
    obtain ⟨n, rfl⟩ : ∃ n : Nat, k = n := ⟨k.toNat, by omega⟩
    have hen := decodeBits_enough root n hfull hleaf (bitsOfBytes packed)
      { current := root, decodedCount := 0, output := [] } n hfull hleaf (by simp) (by
        by_cases h0 : n = 0
        · exact Or.inl h0
        · right
          obtain ⟨m, rfl⟩ : ∃ m, n = m + 1 := ⟨n - 1, by omega⟩
          rw [bitsOfBytes_length]
          have e : (m + 1 - 1) * root.height + root.height = (m + 1) * root.height := by
            rw [Nat.succ_mul]
            rfl
          simp only []
          rw [e]
          exact_mod_cast hbits)
    exact ⟨hen.1, by omega⟩

/-- Instance of `decode_output_length` on the tree for `a:14, b:1, c:1` (height 2), stored
count 16 and the three packed bytes `0xFF 0xFC 0x40`, which hold the codewords of fourteen
`a`, one `b` and one `c` in 18 bits, fewer than `16 * 2`. -/
theorem decode_output_length_witness :
    (MinHeapNode.mk 36 16 (.mk 36 2 (newNode 98 1) (newNode 99 1)) (newNode 97 14)).isFull
      = true ∧
    2 ≤ (MinHeapNode.mk 36 16 (.mk 36 2 (newNode 98 1) (newNode 99 1))
      (newNode 97 14)).leaves.length ∧
    (0 : Int) ≤ 16 ∧
    decode [0xFF, 0xFC, 0x40]
      (.mk 36 16 (.mk 36 2 (newNode 98 1) (newNode 99 1)) (newNode 97 14)) 16 =
      (DecodeState.mk (.mk 36 16 (.mk 36 2 (newNode 98 1) (newNode 99 1)) (newNode 97 14)) 16
        [97, 97, 97, 97, 97, 97, 97, 97, 97, 97, 97, 97, 97, 97, 98, 99], none) :=
  ⟨by decide, by decide, by decide,
   ((decode_output_length (.mk 36 16 (.mk 36 2 (newNode 98 1) (newNode 99 1)) (newNode 97 14))
     16 [0xFF, 0xFC, 0x40] (by decide) (by decide) (by decide)).2.2.1
     [(97, [true]), (97, [true]), (97, [true]), (97, [true]), (97, [true]), (97, [true]),
       (97, [true]), (97, [true]), (97, [true]), (97, [true]), (97, [true]), (97, [true]),
       (97, [true]), (97, [true]), (98, [false, false]), (99, [false, true])]
     [false, false, false, false, false, false] (by decide) (by decide) (by decide))⟩

/-! ## Inputs in which no per-byte counter wraps -/

/-- The symbol list collected from the counters of an input in which every byte value occurs
fewer than `2 ^ 32` times. -/
theorem collectSymbols_counts (S : List Byte) (hcount : ∀ b, S.count b < 2 ^ 32) :
    (collectSymbols (fun b => (0 + S.count b) % 2 ^ 32) (List.finRange 256)).length ≤ 256 ∧
    ((collectSymbols (fun b => (0 + S.count b) % 2 ^ 32)
      (List.finRange 256)).map Prod.fst).Nodup ∧
    ((collectSymbols (fun b => (0 + S.count b) % 2 ^ 32)
      (List.finRange 256)).map Prod.snd).sum = S.length ∧
    (S ≠ [] → collectSymbols (fun b => (0 + S.count b) % 2 ^ 32) (List.finRange 256) ≠ []) ∧
    (∀ s ∈ collectSymbols (fun b => (0 + S.count b) % 2 ^ 32) (List.finRange 256),
      s.2 = S.count s.1 ∧ 0 < s.2) ∧
    (∀ b, 0 < S.count b →
      (b, S.count b) ∈ collectSymbols (fun b => (0 + S.count b) % 2 ^ 32)
        (List.finRange 256)) := by
  have hf : (fun b : Byte => (0 + S.count b) % 2 ^ 32) = fun b => S.count b := by
    funext b
    rw [Nat.zero_add, Nat.mod_eq_of_lt (hcount b)]
  simp only [hf, collectSymbols_eq]
  have hsum : ((((List.finRange 256).filter fun i => 0 < S.count i).map
      fun i => (i, S.count i)).map Prod.snd).sum = S.length := by
    rw [List.map_map]
    have := sum_filter_pos (fun b => S.count b) (List.finRange 256)
    rw [sum_count S _ (List.nodup_finRange 256) (List.mem_finRange)] at this
    exact this
  refine ⟨?_, ?_, hsum, ?_, ?_, ?_⟩
  · rw [List.length_map]
    have := List.length_filter_le (fun i => decide (0 < S.count i)) (List.finRange 256)
    rw [List.length_finRange] at this
    exact this
  · rw [List.map_map]
    have : (Prod.fst ∘ fun i : Byte => (i, S.count i)) = id := rfl
    rw [this, List.map_id]
    exact (List.nodup_finRange 256).filter _
  · intro hne hnil
    rw [hnil] at hsum
    have : 0 < S.length := List.length_pos.mpr hne
    simp at hsum
    omega
  · intro s hs
    rw [List.mem_map] at hs
    obtain ⟨i, hi, rfl⟩ := hs
    rw [List.mem_filter] at hi
    exact ⟨rfl, by simpa using hi.2⟩
  · intro b hb
    rw [List.mem_map]
    exact ⟨b, List.mem_filter.mpr ⟨List.mem_finRange b, by simpa using hb⟩, rfl⟩

/-- The number of encoded bits is the weighted path length of the tree: when every byte
value occurs fewer than `2 ^ 32` times, the sum over the input bytes of the lengths of their
codewords equals the sum over the leaves of the built tree of frequency times depth. -/
theorem encoded_bits_eq (S : List Byte) (hcount : ∀ b, S.count b < 2 ^ 32) (hne : S ≠ []) :
    ∃ t tbl,
      buildHuffmanTree (collectSymbols (fun b => (0 + S.count b) % 2 ^ 32)
        (List.finRange 256)) = .ok t ∧
      generateCodes (collectSymbols (fun b => (0 + S.count b) % 2 ^ 32)
        (List.finRange 256)) (fun _ => none) = .ok tbl ∧
      (∀ c ∈ S, (tbl c).isSome = true) ∧
      (S.map fun c => ((tbl c).getD []).length).sum = t.weightedDepth := by
  obtain ⟨_, hnodup, _, hne2, hpos, hall⟩ := collectSymbols_counts S hcount
  obtain ⟨t, tbl, hbuild, _, hleaves, hgen, hiff, hnone⟩ :=
    generateCodes_table _ (hne2 hne) hnodup
  have hsome : ∀ s ∈ S, (tbl s).isSome = true := by
    intro s hs
    cases h : tbl s with
    | some c => rfl
    | none =>
      exact absurd (List.mem_map.mpr ⟨_, hall s (List.count_pos_iff.mpr hs), rfl⟩)
        ((hnone s).mp h)
  refine ⟨t, tbl, hbuild, hgen, hsome, ?_⟩
  have hfreq : ∀ x, (0 + S.count x) % 2 ^ 32 = S.count x := by
    intro x
    rw [Nat.zero_add, Nat.mod_eq_of_lt (hcount x)]
  have hcodes : ∀ e ∈ t.codes, ((tbl e.1).getD []).length = 0 + e.2.length := by
    intro e he
    rw [(hiff e.1 e.2).mpr he, Nat.zero_add]
    rfl
  have h1 := weightedDepthAt_codes (fun c => ((tbl c).getD []).length) t 0 hcodes
  unfold MinHeapNode.weightedDepth
  rw [← h1, sum_by_count, (hleaves.map _).sum_eq, List.map_map, collectSymbols_eq,
    List.map_map]
  have h2 := sum_filter_pos_mul (fun b => (0 + S.count b) % 2 ^ 32)
    (fun c => ((tbl c).getD []).length) (List.finRange 256)
  have h3 : ((List.finRange 256).map fun i => (fun b => (0 + S.count b) % 2 ^ 32) i *
      (fun c => ((tbl c).getD []).length) i) =
      (List.finRange 256).map fun b => S.count b * ((tbl b).getD []).length := by
    apply List.map_congr_left
    intro b _
    simp only []
    rw [hfreq]
  rw [← h3, ← h2]
  apply congrArg
  apply List.map_congr_left
  intro b _
  simp only [Function.comp]
  rw [hfreq, Nat.mod_eq_of_lt (hcount b)]

theorem count_add_count_le (S : List Byte) (a b : Byte) (hab : a ≠ b) :
    S.count a + S.count b ≤ S.length := by
  induction S with
  | nil => simp
  | cons c rest ih =>
    rw [List.count_cons, List.count_cons, List.length_cons]
    by_cases h1 : c = a
    · subst h1
      have h2 : (c == b) = false := by
        rw [beq_eq_false_iff_ne]
        exact hab
      rw [h2]
      simp only [beq_self_eq_true, if_true, Bool.false_eq_true, if_false]
      omega
    · have h2 : (c == a) = false := by
        rw [beq_eq_false_iff_ne]
        exact h1
      rw [h2]
      simp only [Bool.false_eq_true, if_false]
      split <;> omega

theorem exists_perm_cons (a : Byte × Nat) (l : List (Byte × Nat)) (h : a ∈ l) :
    ∃ rest, l.Perm (a :: rest) := by
  obtain ⟨s, t, rfl⟩ := List.append_of_mem h
  exact ⟨s ++ t, List.perm_middle⟩

theorem exists_perm_cons_node (a : MinHeapNode) (l : List MinHeapNode) (h : a ∈ l) :
    ∃ rest, l.Perm (a :: rest) := by
  obtain ⟨s, t, rfl⟩ := List.append_of_mem h
  exact ⟨s ++ t, List.perm_middle⟩

/-- A symbol whose frequency exceeds the sum of all the others is merged last: the tree built
for the list has weighted path length at most that frequency, plus the sum of the others,
plus the cost of any assignment of depths to the others that has Kraft sum one.  Only the
final addition, at the root, may wrap. -/
theorem buildHuffmanTree_dominant (symbols others : List (Byte × Nat)) (b0 : Byte) (f0 : Nat)
    (hsym : symbols.Perm ((b0, f0) :: others)) (hsz : symbols.length + 1 < 2 ^ 30)
    (hf0 : f0 < 2 ^ 32) (hW : (others.map Prod.snd).sum < f0)
    (D : Nat) (L : List (Nat × Nat))
    (hL : others ≠ [] → (∀ x ∈ L, x.2 ≤ D) ∧ kraftSum D L = 2 ^ D ∧
      (L.map Prod.fst).Perm (others.map Prod.snd)) :
    ∃ t, buildHuffmanTree symbols = .ok t ∧
      t.weightedDepth ≤ f0 + (others.map Prod.snd).sum + pathCost L := by
  have hd0f : (newNode b0 f0).freqField = f0 := Nat.mod_eq_of_lt hf0
  have hd0s : (newNode b0 f0).leafSum = f0 := by
    simp [newNode, MinHeapNode.leafSum, MinHeapNode.leaves, MinHeapNode.isNull]
    omega
  have hd0w : (newNode b0 f0).weightedDepth = 0 := by
    simp [newNode, MinHeapNode.weightedDepth, MinHeapNode.weightedDepthAt,
      MinHeapNode.isNull]
  have hne : symbols ≠ [] := by
    intro hc
    rw [hc] at hsym
    exact (List.cons_ne_nil _ _) (List.perm_nil.mp hsym.symm)
  obtain ⟨t, ht, _, hcase⟩ := buildHuffmanTree_min
    (fun Q => (∀ p ∈ Q, p ≠ .null) ∧
      ((∃ t, Q = [t] ∧ t.weightedDepth ≤ f0 + (others.map Prod.snd).sum + pathCost L) ∨
       (∃ R : List MinHeapNode, Q.Perm (newNode b0 f0 :: R) ∧ R ≠ [] ∧
         (∀ p ∈ R, p.freqField = p.leafSum) ∧
         (R.map MinHeapNode.freqField).sum = (others.map Prod.snd).sum ∧
         ∃ L1 : List (Nat × Nat), (∀ x ∈ L1, x.2 ≤ D) ∧ kraftSum D L1 = 2 ^ D ∧
           (L1.map Prod.fst).Perm (R.map MinHeapNode.freqField) ∧
           (R.map MinHeapNode.weightedDepth).sum + pathCost L1 ≤ pathCost L)))
    (by
      intro a b hab ⟨hnn, hcase⟩
      refine ⟨fun p hp => hnn p (hab.symm.subset hp), ?_⟩
      rcases hcase with ⟨t, ht, hwd⟩ | ⟨R, hQ, hrest⟩
      · left
        subst ht
        exact ⟨t, List.perm_singleton.mp hab.symm, hwd⟩
      · right
        exact ⟨R, hab.symm.trans hQ, hrest⟩)
    (by
      intro a ⟨hnn, _⟩
      exact hnn)
    (by
      intro l r rest ⟨hnn, hcase⟩ hminl hminr
      have hln : l ≠ .null := hnn l (List.mem_cons_self _ _)
      refine ⟨?_, ?_⟩
      · intro p hp
        rcases List.mem_cons.mp hp with h0 | h0
        · rw [h0]
          intro hc
          cases hc
        · exact hnn p (List.mem_cons_of_mem _ (List.mem_cons_of_mem _ h0))
      rcases hcase with ⟨t, ht, _⟩ | ⟨R, hQ, hRne, hRf, hRsum, L1, g1, g2, g3, g4⟩
      · exfalso
        have := congrArg List.length ht
        simp at this
      have hle : ∀ p ∈ R, p.freqField ≤ (others.map Prod.snd).sum := by
        intro p hp
        rw [← hRsum]
        exact List.single_le_sum (fun x _ => Nat.zero_le x) _ (List.mem_map_of_mem _ hp)
      by_cases hl : l = newNode b0 f0
      · exfalso
        rw [hl] at hQ
        have hr : r ∈ R := hQ.cons_inv.subset (List.mem_cons_self _ _)
        have h1 := hle r hr
        have h2 := hminl r (List.mem_cons_self _ _)
        rw [hl, hd0f] at h2
        omega
      by_cases hr : r = newNode b0 f0
      · have hQ1 : (l :: rest).Perm R := by
          have h1 := (List.Perm.swap l r rest).trans hQ
          rw [hr] at h1
          exact h1.cons_inv
        cases rest with
        | cons p rest1 =>
          exfalso
          have hp : p ∈ R := hQ1.subset (List.mem_cons_of_mem _ (List.mem_cons_self _ _))
          have h1 := hle p hp
          have h2 := hminr p (List.mem_cons_self _ _)
          rw [hr, hd0f] at h2
          omega
        | nil =>
          left
          refine ⟨_, rfl, ?_⟩
          have hR : R = [l] := List.singleton_perm.mp hQ1 |>.symm
          subst hR
          simp only [List.map_cons, List.map_nil, List.sum_cons, List.sum_nil,
            Nat.add_zero] at hRsum g4
          have hlf := hRf l (List.mem_singleton_self _)
          rw [weightedDepth_merge _ _ l r hln, hr, hd0w, hd0s, ← hlf]
          omega
      · have hmem : newNode b0 f0 ∈ rest := by
          have h0 := hQ.symm.subset (List.mem_cons_self _ _)
          rcases List.mem_cons.mp h0 with h1 | h1
          · exact absurd h1.symm hl
          · rcases List.mem_cons.mp h1 with h2 | h2
            · exact absurd h2.symm hr
            · exact h2
        obtain ⟨rest1, hrest⟩ := exists_perm_cons_node _ _ hmem
        have hR : R.Perm (l :: r :: rest1) := by
          have h1 : (l :: r :: rest).Perm (newNode b0 f0 :: l :: r :: rest1) :=
            (((hrest.cons r).cons l)).trans
              (@List.perm_middle _ (newNode b0 f0) [l, r] rest1)
          exact (hQ.symm.trans h1).cons_inv
        have hsumR := (hR.map MinHeapNode.freqField).sum_eq
        simp only [List.map_cons, List.sum_cons] at hsumR
        have hwdR := (hR.map MinHeapNode.weightedDepth).sum_eq
        simp only [List.map_cons, List.sum_cons] at hwdR
        have hnowrap : (l.freqField + r.freqField) % 2 ^ 32 = l.freqField + r.freqField :=
          Nat.mod_eq_of_lt (by omega)
        rw [hnowrap]
        have hlf := hRf l (hR.symm.subset (List.mem_cons_self _ _))
        have hrf := hRf r (hR.symm.subset (List.mem_cons_of_mem _ (List.mem_cons_self _ _)))
        obtain ⟨L2, k1, k2, k3, k4⟩ := kraft_merge D l.freqField r.freqField
          (rest1.map MinHeapNode.freqField) L1 g1 g2
          (g3.trans (hR.map MinHeapNode.freqField))
          (by
            intro x hx
            rcases List.mem_cons.mp hx with h0 | h0
            · rw [h0]
              exact hminl r (List.mem_cons_self _ _)
            · rw [List.mem_map] at h0
              obtain ⟨p, hp, rfl⟩ := h0
              exact hminl p (List.mem_cons_of_mem _
                (hrest.symm.subset (List.mem_cons_of_mem _ hp))))
          (by
            intro x hx
            rw [List.mem_map] at hx
            obtain ⟨p, hp, rfl⟩ := hx
            exact hminr p (hrest.symm.subset (List.mem_cons_of_mem _ hp)))
        right
        refine ⟨.mk 36 (l.freqField + r.freqField) l r :: rest1, ?_, List.cons_ne_nil _ _,
          ?_, ?_, L2, k1, k2, ?_, ?_⟩
        · exact (hrest.cons _).trans (List.Perm.swap _ _ _)
        · intro p hp
          rcases List.mem_cons.mp hp with h0 | h0
          · rw [h0, leafSum_merge _ _ l r hln, ← hlf, ← hrf]
            rfl
          · exact hRf p (hR.symm.subset
              (List.mem_cons_of_mem _ (List.mem_cons_of_mem _ h0)))
        · simp only [List.map_cons, List.sum_cons]
          have e : (MinHeapNode.mk 36 (l.freqField + r.freqField) l r).freqField =
              l.freqField + r.freqField := rfl
          rw [e, ← hRsum, hsumR]
          omega
        · simp only [List.map_cons]
          exact k3
        · simp only [List.map_cons, List.sum_cons]
          rw [weightedDepth_merge _ _ l r hln, ← hlf, ← hrf]
          omega)
    symbols hne hsz
    (by
      have hQ0 := hsym.map fun s => newNode s.1 s.2
      rw [List.map_cons] at hQ0
      refine ⟨?_, ?_⟩
      · intro p hp
        rw [List.mem_map] at hp
        obtain ⟨s, _, rfl⟩ := hp
        intro hc
        cases hc
      by_cases ho : others = []
      · left
        subst ho
        exact ⟨_, List.perm_singleton.mp hQ0, by rw [hd0w]; exact Nat.zero_le _⟩
      · right
        obtain ⟨a1, a2, a3⟩ := hL ho
        have hle : ∀ s ∈ others, s.2 < 2 ^ 32 := by
          intro s hs
          have := List.single_le_sum (fun x _ => Nat.zero_le x) s.2
            (List.mem_map.mpr ⟨s, hs, rfl⟩)
          omega
        have hfreq : (others.map fun s => newNode s.1 s.2).map MinHeapNode.freqField =
            others.map Prod.snd := by
          rw [List.map_map]
          apply List.map_congr_left
          intro s hs
          exact Nat.mod_eq_of_lt (hle s hs)
        have hwd : ((others.map fun s => newNode s.1 s.2).map MinHeapNode.weightedDepth).sum
            = 0 := by
          rw [List.map_map]
          apply List.sum_eq_zero
          intro x hx
          rw [List.mem_map] at hx
          obtain ⟨s, _, rfl⟩ := hx
          simp [newNode, MinHeapNode.weightedDepth, MinHeapNode.weightedDepthAt,
            MinHeapNode.isNull]
        refine ⟨others.map fun s => newNode s.1 s.2, hQ0, ?_, ?_, ?_, L, a1, a2, ?_, ?_⟩
        · intro hc
          exact ho (List.map_eq_nil_iff.mp hc)
        · intro p hp
          rw [List.mem_map] at hp
          obtain ⟨s, _, rfl⟩ := hp
          simp [newNode, MinHeapNode.leafSum, MinHeapNode.leaves, MinHeapNode.freqField,
            MinHeapNode.isNull]
        · rw [hfreq]
        · rw [hfreq]
          exact a3
        · rw [hwd, Nat.zero_add])
  refine ⟨t, ht, ?_⟩
  rcases hcase with ⟨t1, h1, h2⟩ | ⟨R, hQ, hRne, _⟩
  · have : t = t1 := List.head_eq_of_cons_eq h1
    rw [this]
    exact h2
  · exfalso
    have := hQ.length_eq
    simp only [List.length_cons, List.length_nil] at this
    exact hRne (List.length_eq_zero.mp (by omega))

/-- Claim C12 (as amended). No expansion on skewed input, while the counter of the dominant
byte does not wrap: for every non-empty input in which one byte value accounts for at least
90% of the bytes and occurs fewer than `2 ^ 32` times (then no per-byte counter wraps,
whatever the length of the input), the code table is generated, every input byte has a
codeword, and the sum over the input bytes of the lengths of their codewords is strictly
less than 8 times the input length. -/
theorem skewed_input_shrinks (S : List Byte) (b0 : Byte) (hne : S ≠ [])
    (hdom : S.count b0 < 2 ^ 32) (hskew : 9 * S.length ≤ 10 * S.count b0) :
    ∃ freq tbl, tally S (fun _ => 0, 0) = .ok (freq, (S.length : Int)) ∧
      (∀ b, freq b = S.count b) ∧
      generateCodes (collectSymbols freq (List.finRange 256)) (fun _ => none) = .ok tbl ∧
      (∀ c ∈ S, (tbl c).isSome = true) ∧
      (S.map fun c => ((tbl c).getD []).length).sum < 8 * S.length := by
  have hpos : 1 ≤ S.length := List.length_pos.mpr hne
  have hcount : ∀ b, S.count b < 2 ^ 32 := by
    intro b
    by_cases hb : b = b0
    · rw [hb]
      exact hdom
    · have := count_add_count_le S b b0 hb
      omega
  have htally := tally_spec S (fun _ => 0) 0 (fun _ => by norm_num) (by omega)
  rw [Int.zero_add] at htally
  obtain ⟨h256, _, hsum, hne2, _, hall⟩ := collectSymbols_counts S hcount
  obtain ⟨t, tbl, hbuild, hgen, hsome, hbits⟩ := encoded_bits_eq S hcount hne
  refine ⟨_, tbl, htally, ?_, hgen, hsome, ?_⟩
  · intro b
    simp only [Nat.zero_add]
    exact Nat.mod_eq_of_lt (hcount b)
  have hmem := hall b0 (by omega)
  obtain ⟨rest, hp⟩ := exists_perm_cons _ _ hmem
  have hrl : (rest.map Prod.snd).length ≤ 255 := by
    have := hp.length_eq
    rw [List.length_cons] at this
    rw [List.length_map]
    omega
  have hrsum : S.count b0 + (rest.map Prod.snd).sum = S.length := by
    rw [← hsum, (hp.map Prod.snd).sum_eq, List.map_cons, List.sum_cons]
  have hcost : ∃ L : List (Nat × Nat), pathCost L ≤ 8 * (rest.map Prod.snd).sum ∧
      (rest ≠ [] → (∀ x ∈ L, x.2 ≤ 8) ∧ kraftSum 8 L = 2 ^ 8 ∧
        (L.map Prod.fst).Perm (rest.map Prod.snd)) := by
    by_cases hr : rest = []
    · exact ⟨[], Nat.zero_le _, fun h => absurd hr h⟩
    · have h1 : 1 ≤ (rest.map Prod.snd).length := by
        rw [List.length_map]
        exact List.length_pos.mpr hr
      have h2 : (rest.map Prod.snd).length ≤ 2 ^ 8 := by
        have : (2 : Nat) ^ 8 = 256 := by norm_num
        omega
      obtain ⟨L, a1, a2, a3⟩ := exists_balanced 8 (rest.map Prod.snd) 0 8 h1 h2
        (by norm_num)
      have a4 := pathCost_le 8 L (fun x hx => by have := a2 x hx; omega)
      rw [a1] at a4
      exact ⟨L, a4, fun _ => ⟨fun x hx => by have := a2 x hx; omega, a3, by rw [a1]⟩⟩
  obtain ⟨L, hL1, hL2⟩ := hcost
  obtain ⟨t1, ht1, hle⟩ := buildHuffmanTree_dominant _ rest b0 (S.count b0) hp (by omega)
    hdom (by omega) 8 L hL2
  rw [hbuild] at ht1
  have ht : t = t1 := Except.ok.inj ht1
  rw [hbits, ht]
  omega

/-- Instance of `skewed_input_shrinks` on an input of `2 ^ 32` bytes: `2 ^ 32 - 1` bytes `0`
followed by one byte `1`. -/
theorem skewed_input_shrinks_witness :
    (List.replicate (2 ^ 32 - 1) 0 ++ [1] : List Byte) ≠ [] ∧
    (List.replicate (2 ^ 32 - 1) 0 ++ [1] : List Byte).count 0 < 2 ^ 32 ∧
    9 * (List.replicate (2 ^ 32 - 1) 0 ++ [1] : List Byte).length ≤
      10 * (List.replicate (2 ^ 32 - 1) 0 ++ [1] : List Byte).count 0 ∧
    (List.replicate (2 ^ 32 - 1) 0 ++ [1] : List Byte).length = 2 ^ 32 ∧
    ∃ tbl : CodeTable,
      (∀ c ∈ (List.replicate (2 ^ 32 - 1) 0 ++ [1] : List Byte), (tbl c).isSome = true) ∧
      ((List.replicate (2 ^ 32 - 1) 0 ++ [1] : List Byte).map
        fun c => ((tbl c).getD []).length).sum <
        8 * (List.replicate (2 ^ 32 - 1) 0 ++ [1] : List Byte).length :=
  ⟨List.append_ne_nil_of_right_ne_nil _ (List.cons_ne_nil _ _),
   (by
     rw [List.count_append, List.count_replicate_self,
       (by decide : List.count (0 : Byte) [1] = 0)]
     norm_num),
   (by
     rw [List.length_append, List.length_replicate, List.length_singleton,
       List.count_append, List.count_replicate_self,
       (by decide : List.count (0 : Byte) [1] = 0)]
     norm_num),
   (by
     rw [List.length_append, List.length_replicate, List.length_singleton]
     norm_num),
   match skewed_input_shrinks (List.replicate (2 ^ 32 - 1) 0 ++ [1]) 0
     (List.append_ne_nil_of_right_ne_nil _ (List.cons_ne_nil _ _))
     (by
       rw [List.count_append, List.count_replicate_self,
         (by decide : List.count (0 : Byte) [1] = 0)]
       norm_num)
     (by
       rw [List.length_append, List.length_replicate, List.length_singleton,
         List.count_append, List.count_replicate_self,
         (by decide : List.count (0 : Byte) [1] = 0)]
       norm_num) with
   | ⟨_, tbl, _, _, _, h3, h4⟩ => ⟨tbl, h3, h4⟩⟩

end Huffman
